import Mathlib

/-!
# Left-leaning red-black tree (`tree/redblacktree.go`)

A shallow embedding of the ordered map of package `tree`.

* A `*node[K, V]` is a value of `Node K V`; the nil pointer is `Node.nil`.
  The tree owns its nodes exclusively (no aliasing), so in-place mutation of a
  node is modelled by building the updated node.
* Every dereference of a pointer is explicit: a function of the source that
  reads or writes a field of a nil pointer returns `Fault.nilDeref` here.
* The recursive deletion routines restructure the node they were called on
  before descending, so they recurse on fuel; the public entry points pass the
  number of nodes of the tree. `Fault.outOfFuel` is the result of a run that
  needs more.
* `Get`, `Min` and `Max` return `none` where the source returns `ErrNotFound`.
* The `sync.Pool` hands `put` either a zero-valued node or one that went through
  `reuse()`; both have nil links, and `put` overwrites key, value and color. The
  operations are embedded a second time together with the pool (`PooledTree`, where the
  pool may hand out any node it holds, or a new one, and may drop nodes), and are proved
  to return the same trees.
* The methods that compare keys (`put`, `Get`, `deleteKey`, `floor`, `ceil`) are embedded
  twice: over a totally ordered key type (`LinearOrder K`), and, in namespace `anyKey`,
  over the operators `<` and `==` of the key type alone (`GoOrdered K`), as
  `constraints.Ordered` admits `float64` keys, `NaN` included. On a totally ordered key
  type the two embeddings agree.
-/

namespace tree

/-- The ways a run of the embedded code can stop without a result. -/
inductive Fault where
  | nilDeref
  | outOfFuel
  deriving DecidableEq, Repr

/-- Constants `RED = true`. -/
abbrev RED : Bool := true
/-- Constants `BLACK = false`. -/
abbrev BLACK : Bool := false

/-- Type `*node[K, V]`: the nil pointer, or a node with its five fields. -/
inductive Node (K V : Type) where
  | nil : Node K V
  | node (key : K) (value : V) (left right : Node K V) (color : Bool) : Node K V
  deriving DecidableEq, Repr

/-- Type `RedBlackTree[K, V]` (the pool holds no tree content). -/
structure RedBlackTree (K V : Type) where
  root : Node K V
  deriving DecidableEq, Repr

namespace Node

variable {K V : Type}

/-- Test `x == nil`. -/
def isNil : Node K V → Bool
  | nil => true
  | node _ _ _ _ _ => false

/-- Read `x.key`. -/
def key : Node K V → Except Fault K
  | nil => .error .nilDeref
  | node k _ _ _ _ => .ok k

/-- Read `x.value`. -/
def value : Node K V → Except Fault V
  | nil => .error .nilDeref
  | node _ v _ _ _ => .ok v

/-- Read `x.left`. -/
def left : Node K V → Except Fault (Node K V)
  | nil => .error .nilDeref
  | node _ _ l _ _ => .ok l

/-- Read `x.right`. -/
def right : Node K V → Except Fault (Node K V)
  | nil => .error .nilDeref
  | node _ _ _ r _ => .ok r

/-- Write `x.key = k'`. -/
def setKey : Node K V → K → Except Fault (Node K V)
  | nil, _ => .error .nilDeref
  | node _ v l r c, k' => .ok (node k' v l r c)

/-- Write `x.value = v'`. -/
def setValue : Node K V → V → Except Fault (Node K V)
  | nil, _ => .error .nilDeref
  | node k _ l r c, v' => .ok (node k v' l r c)

/-- Write `x.left = l'`. -/
def setLeft : Node K V → Node K V → Except Fault (Node K V)
  | nil, _ => .error .nilDeref
  | node k v _ r c, l' => .ok (node k v l' r c)

/-- Write `x.right = r'`. -/
def setRight : Node K V → Node K V → Except Fault (Node K V)
  | nil, _ => .error .nilDeref
  | node k v l _ c, r' => .ok (node k v l r' c)

/-- Write `x.color = c'`. -/
def setColor : Node K V → Bool → Except Fault (Node K V)
  | nil, _ => .error .nilDeref
  | node k v l r _, c' => .ok (node k v l r c')

/-- Method `reuse`: clears both links and the color. -/
def reuse : Node K V → Except Fault (Node K V)
  | nil => .error .nilDeref
  | node k v _ _ _ => .ok (node k v nil nil BLACK)

/-- Number of nodes. -/
def size : Node K V → Nat
  | nil => 0
  | node _ _ l r _ => size l + 1 + size r

/-- In-order list of the key/value pairs. -/
def toList : Node K V → List (K × V)
  | nil => []
  | node k v l r _ => toList l ++ (k, v) :: toList r

end Node

open Node

variable {K V : Type}

/-- Method `isRed`. -/
def isRed : Node K V → Bool
  | nil => false
  | node _ _ _ _ c => c == RED

/-- Method `rotateLeft`. -/
def rotateLeft : Node K V → Except Fault (Node K V)
  | node k v l (node hk hv hl hr _) c => .ok (node hk hv (node k v l hl RED) hr c)
  | _ => .error .nilDeref

/-- Method `rotateRight`. -/
def rotateRight : Node K V → Except Fault (Node K V)
  | node k v (node hk hv hl hr _) r c => .ok (node hk hv hl (node k v hr r RED) c)
  | _ => .error .nilDeref

/-- Method `flipColors`. -/
def flipColors : Node K V → Except Fault (Node K V)
  | node k v (node lk lv ll lr lc) (node rk rv rl rr rc) c =>
      .ok (node k v (node lk lv ll lr (!lc)) (node rk rv rl rr (!rc)) (!c))
  | _ => .error .nilDeref

/-- Method `moveRedLeft`. -/
def moveRedLeft (x : Node K V) : Except Fault (Node K V) := do
  let x ← flipColors x
  let xr ← x.right
  let xrl ← xr.left
  if isRed xrl then
    let xr ← rotateRight xr
    let x ← x.setRight xr
    let x ← rotateLeft x
    flipColors x
  else
    pure x

/-- Method `moveRedRight`. -/
def moveRedRight (x : Node K V) : Except Fault (Node K V) := do
  let x ← flipColors x
  let xl ← x.left
  let xll ← xl.left
  if isRed xll then
    let x ← rotateRight x
    flipColors x
  else
    pure x

/-- The condition `isRed(x.left) && isRed(x.left.left)`, with its short circuit. -/
def leftLeftRed (x : Node K V) : Except Fault Bool := do
  let xl ← x.left
  if isRed xl then
    let xll ← xl.left
    pure (isRed xll)
  else
    pure false

/-- The condition `!isRed(x.left) && !isRed(x.left.left)`, with its short circuit. -/
def leftIsTwoNode (x : Node K V) : Except Fault Bool := do
  let xl ← x.left
  if !isRed xl then
    let xll ← xl.left
    pure (!isRed xll)
  else
    pure false

/-- The condition `!isRed(x.right) && !isRed(x.right.left)`, with its short circuit. -/
def rightIsTwoNode (x : Node K V) : Except Fault Bool := do
  let xr ← x.right
  if !isRed xr then
    let xrl ← xr.left
    pure (!isRed xrl)
  else
    pure false

/-- The condition `isRed(x.left) && isRed(x.right)`, with its short circuit. -/
def bothRed (x : Node K V) : Except Fault Bool := do
  let xl ← x.left
  if isRed xl then
    let xr ← x.right
    pure (isRed xr)
  else
    pure false

/-- The condition `!isRed(x.left) && !isRed(x.right)`, with its short circuit. -/
def noRedChild (x : Node K V) : Except Fault Bool := do
  let xl ← x.left
  if !isRed xl then
    let xr ← x.right
    pure (!isRed xr)
  else
    pure false

/-- Method `balance`. -/
def balance (x : Node K V) : Except Fault (Node K V) := do
  let xr ← x.right
  let x ← if isRed xr then rotateLeft x else pure x
  let x ← if (← leftLeftRed x) then rotateRight x else pure x
  if (← bothRed x) then flipColors x else pure x

/-- Method `min`: the leftmost node, nil for nil. -/
def min : Node K V → Node K V
  | nil => nil
  | node k v l r c => if l.isNil then node k v l r c else min l

/-- Method `max`: the rightmost node, nil for nil. -/
def max : Node K V → Node K V
  | nil => nil
  | node k v l r c => if r.isNil then node k v l r c else max r

/-- The last three statements of `put`: the fix-ups applied on the way up. -/
def putFix (x : Node K V) : Except Fault (Node K V) := do
  let xr ← x.right
  let xl ← x.left
  let x ← if isRed xr && !isRed xl then rotateLeft x else pure x
  let x ← if (← leftLeftRed x) then rotateRight x else pure x
  if (← bothRed x) then flipColors x else pure x

/-- Method `put`. -/
def put [LinearOrder K] : Node K V → K → V → Except Fault (Node K V)
  | nil, key, value => pure (node key value nil nil RED)
  | node k v l r c, key, value => do
    let x ← if k > key then do
        let l' ← put l key value
        pure (node k v l' r c)
      else if k < key then do
        let r' ← put r key value
        pure (node k v l r' c)
      else
        pure (node k value l r c)
    putFix x

/-- Method `deleteMin`. -/
def deleteMin : Nat → Node K V → Except Fault (Node K V)
  | 0, _ => .error .outOfFuel
  | fuel + 1, x => do
    let xl ← x.left
    if xl.isNil then
      let _ ← x.reuse
      pure nil
    else
      let x ← if (← leftIsTwoNode x) then moveRedLeft x else pure x
      let xl ← x.left
      let xl ← deleteMin fuel xl
      let x ← x.setLeft xl
      balance x

/-- Method `deleteMax`. -/
def deleteMax : Nat → Node K V → Except Fault (Node K V)
  | 0, _ => .error .outOfFuel
  | fuel + 1, x => do
    let xl ← x.left
    let x ← if isRed xl then rotateRight x else pure x
    let xr ← x.right
    if xr.isNil then
      let _ ← x.reuse
      pure nil
    else
      let x ← if (← rightIsTwoNode x) then moveRedRight x else pure x
      let xr ← x.right
      let xr ← deleteMax fuel xr
      let x ← x.setRight xr
      balance x

/-- Method `deleteKey`. -/
def deleteKey [LinearOrder K] : Nat → Node K V → K → Except Fault (Node K V)
  | 0, _, _ => .error .outOfFuel
  | fuel + 1, x, key => do
    let xk ← x.key
    if xk > key then
      let x ← if (← leftIsTwoNode x) then moveRedLeft x else pure x
      let xl ← x.left
      let xl ← deleteKey fuel xl key
      let x ← x.setLeft xl
      balance x
    else
      let xl ← x.left
      let x ← if isRed xl then rotateRight x else pure x
      let xk ← x.key
      let xr ← x.right
      if key = xk ∧ xr.isNil then
        let _ ← x.reuse
        pure nil
      else
        let x ← if (← rightIsTwoNode x) then moveRedRight x else pure x
        let xk ← x.key
        if key = xk then
          let xr ← x.right
          let h := min xr
          let hk ← h.key
          let x ← x.setKey hk
          let hv ← h.value
          let x ← x.setValue hv
          let xr ← x.right
          let xr ← deleteMin fuel xr
          let x ← x.setRight xr
          balance x
        else
          let xr ← x.right
          let xr ← deleteKey fuel xr key
          let x ← x.setRight xr
          balance x

/-- The loop of `Get`, started at `x`. -/
def getFrom [LinearOrder K] : Node K V → K → Option V
  | nil, _ => none
  | node k v l r _, key =>
    if k > key then getFrom l key
    else if k < key then getFrom r key
    else some v

namespace RedBlackTree

/-- Constructor `NewRedBlackTree`. -/
def NewRedBlackTree : RedBlackTree K V := ⟨nil⟩

/-- Method `isEmpty`. -/
def isEmpty (t : RedBlackTree K V) : Bool := t.root.isNil

/-- Method `Get`; `none` is `ErrNotFound`. -/
def Get [LinearOrder K] (t : RedBlackTree K V) (key : K) : Option V := getFrom t.root key

/-- Method `Contains`. -/
def Contains [LinearOrder K] (t : RedBlackTree K V) (key : K) : Bool := !(Get t key).isNone

/-- Method `Put`. -/
def Put [LinearOrder K] (t : RedBlackTree K V) (key : K) (value : V) : Except Fault (RedBlackTree K V) := do
  let root ← put t.root key value
  let root ← root.setColor BLACK
  pure ⟨root⟩

/-- Method `Delete`. -/
def Delete [LinearOrder K] (t : RedBlackTree K V) (key : K) : Except Fault (RedBlackTree K V) := do
  if t.isEmpty || !t.Contains key then
    pure t
  else
    let root ← if (← noRedChild t.root) then t.root.setColor RED else pure t.root
    let root ← deleteKey root.size root key
    let root ← if !root.isNil then root.setColor BLACK else pure root
    pure ⟨root⟩

/-- Method `DeleteMin`. -/
def DeleteMin (t : RedBlackTree K V) : Except Fault (RedBlackTree K V) := do
  if t.isEmpty then
    pure t
  else
    let root ← if (← noRedChild t.root) then t.root.setColor RED else pure t.root
    let root ← deleteMin root.size root
    let root ← if !root.isNil then root.setColor BLACK else pure root
    pure ⟨root⟩

/-- Method `DeleteMax`. -/
def DeleteMax (t : RedBlackTree K V) : Except Fault (RedBlackTree K V) := do
  if t.isEmpty then
    pure t
  else
    let root ← if (← noRedChild t.root) then t.root.setColor RED else pure t.root
    let root ← deleteMax root.size root
    let root ← if !root.isNil then root.setColor BLACK else pure root
    pure ⟨root⟩

/-- Method `Min`; `none` is `ErrNotFound`. -/
def Min (t : RedBlackTree K V) : Option (K × V) :=
  match min t.root with
  | nil => none
  | node k v _ _ _ => some (k, v)

/-- Method `Max`; `none` is `ErrNotFound`. -/
def Max (t : RedBlackTree K V) : Option (K × V) :=
  match max t.root with
  | nil => none
  | node k v _ _ _ => some (k, v)

end RedBlackTree

/-! ## Invariants and abstract content -/

/-- Number of black nodes on the leftmost path. -/
def bh : Node K V → Nat
  | nil => 0
  | node _ _ l _ c => bh l + (if c then 0 else 1)

/-- Every node has two subtrees of equal black height. -/
def Balanced : Node K V → Prop
  | nil => True
  | node _ _ l r _ => Balanced l ∧ Balanced r ∧ bh l = bh r

/-- No node has a red right child and no red node has a red left child. -/
def Llrb : Node K V → Prop
  | nil => True
  | node _ _ l r c => Llrb l ∧ Llrb r ∧ isRed r = false ∧ (c = true → isRed l = false)

/-- The shape `put` hands to its caller: as `Llrb`, but a red root may have a red left child. -/
def AlmostLlrb : Node K V → Prop
  | nil => True
  | node _ _ l r _ => Llrb l ∧ Llrb r ∧ isRed r = false

/-- The in-order key sequence is strictly increasing. -/
def Ordered [LinearOrder K] (x : Node K V) : Prop :=
  x.toList.Pairwise (fun a b => a.1 < b.1)

/-- Sorted association list after an upsert of `key`. -/
def insList [LinearOrder K] (key : K) (value : V) (L : List (K × V)) : List (K × V) :=
  L.filter (fun p => decide (p.1 < key)) ++ (key, value) :: L.filter (fun p => decide (key < p.1))

/-- Association list without the entries of `key`. -/
def eraseList [LinearOrder K] (key : K) (L : List (K × V)) : List (K × V) :=
  L.filter (fun p => decide (p.1 ≠ key))

/-- Some node of the subtree holds `key` with `value`. -/
def Node.Holds : Node K V → K → V → Prop
  | nil, _, _ => False
  | node k v l r _, key, value => (k = key ∧ v = value) ∨ Node.Holds l key value ∨ Node.Holds r key value

open RedBlackTree

/-- What holds of the tree between two public calls: search-tree order, the red-black
shape, perfect black balance and a black root. -/
def Inv [LinearOrder K] (t : RedBlackTree K V) : Prop :=
  Ordered t.root ∧ Llrb t.root ∧ Balanced t.root ∧ isRed t.root = false

/-- The trees built from the empty tree by `Put`, `Delete`, `DeleteMin` and `DeleteMax`. -/
inductive Reachable [LinearOrder K] : RedBlackTree K V → Prop where
  | empty : Reachable NewRedBlackTree
  | put (t t' : RedBlackTree K V) (key : K) (value : V) :
      Reachable t → Put t key value = .ok t' → Reachable t'
  | delete (t t' : RedBlackTree K V) (key : K) :
      Reachable t → Delete t key = .ok t' → Reachable t'
  | deleteMin (t t' : RedBlackTree K V) :
      Reachable t → DeleteMin t = .ok t' → Reachable t'
  | deleteMax (t t' : RedBlackTree K V) :
      Reachable t → DeleteMax t = .ok t' → Reachable t'

/-- A run of `Put` over a list of pairs, as in the loops of the tests. -/
def PutAll [LinearOrder K] : RedBlackTree K V → List (K × V) → Except Fault (RedBlackTree K V)
  | t, [] => .ok t
  | t, p :: rest => do
    let t' ← Put t p.1 p.2
    PutAll t' rest

/-- A run of `Delete` over a list of keys. -/
def DeleteAll [LinearOrder K] : RedBlackTree K V → List K → Except Fault (RedBlackTree K V)
  | t, [] => .ok t
  | t, key :: rest => do
    let t' ← Delete t key
    DeleteAll t' rest

/-- A run of `n` calls of `DeleteMin`. -/
def DeleteMinTimes : Nat → RedBlackTree K V → Except Fault (RedBlackTree K V)
  | 0, t => .ok t
  | n + 1, t => do
    let t' ← DeleteMin t
    DeleteMinTimes n t'

/-- A run of `n` calls of `DeleteMax`. -/
def DeleteMaxTimes : Nat → RedBlackTree K V → Except Fault (RedBlackTree K V)
  | 0, t => .ok t
  | n + 1, t => do
    let t' ← DeleteMax t
    DeleteMaxTimes n t'

/-- The tree after `Put` of the keys 1 to 5, in this order, into the empty tree. -/
def sampleTree : RedBlackTree Nat Nat :=
  ⟨node 4 40
    (node 2 20 (node 1 10 nil nil BLACK) (node 3 30 nil nil BLACK) RED)
    (node 5 50 nil nil BLACK) BLACK⟩

/-- Method `floor`: the node of the largest key not above `key`, nil if there is none. -/
def floor [LinearOrder K] : Node K V → K → Node K V
  | nil, _ => nil
  | node k v l r c, key =>
    if key = k then node k v l r c
    else if k > key then floor l key
    else
      let temp := floor r key
      if temp.isNil then node k v l r c else temp

/-- Method `ceil`: the node of the smallest key not below `key`, nil if there is none. -/
def ceil [LinearOrder K] : Node K V → K → Node K V
  | nil, _ => nil
  | node k v l r c, key =>
    if key = k then node k v l r c
    else if key > k then ceil r key
    else
      let temp := ceil l key
      if temp.isNil then node k v l r c else temp

/-- Method `Floor`; `none` is `ErrNotFound`. -/
def RedBlackTree.Floor [LinearOrder K] (t : RedBlackTree K V) (key : K) : Option V :=
  match floor t.root key with
  | nil => none
  | node _ v _ _ _ => some v

/-- Method `Ceil`; `none` is `ErrNotFound`. -/
def RedBlackTree.Ceil [LinearOrder K] (t : RedBlackTree K V) (key : K) : Option V :=
  match ceil t.root key with
  | nil => none
  | node _ v _ _ _ => some v

/-- Every key stored in the subtree satisfies `p`. -/
def Node.AllKeys (p : K → Prop) : Node K V → Prop
  | nil => True
  | node k _ l r _ => p k ∧ Node.AllKeys p l ∧ Node.AllKeys p r

/-- At every node the keys of the left subtree are below its key and the keys of the right
subtree are above it. -/
def Bst [LinearOrder K] : Node K V → Prop
  | nil => True
  | node k _ l r _ =>
    Node.AllKeys (fun a => a < k) l ∧ Node.AllKeys (fun a => k < a) r ∧ Bst l ∧ Bst r

/-- For each path from the node to a nil link, the number of black nodes on it. -/
def blackCounts : Node K V → List Nat
  | nil => [0]
  | node _ _ l r c => (blackCounts l ++ blackCounts r).map (fun n => n + (if c then 0 else 1))

/-- No node of the subtree has a red right child. -/
def NoRedRight : Node K V → Prop
  | nil => True
  | node _ _ l r _ => isRed r = false ∧ NoRedRight l ∧ NoRedRight r

/-- No red node of the subtree has a red left child. -/
def NoRedRedLeft : Node K V → Prop
  | nil => True
  | node _ _ l r c => (c = RED → isRed l = false) ∧ NoRedRedLeft l ∧ NoRedRedLeft r

/-- No red node of the subtree has a red child. -/
def NoRedRed : Node K V → Prop
  | nil => True
  | node _ _ l r c =>
    (c = RED → isRed l = false ∧ isRed r = false) ∧ NoRedRed l ∧ NoRedRed r

/-- Number of nodes on the longest path from the node to a nil link. -/
def height : Node K V → Nat
  | nil => 0
  | node _ _ l r _ => Nat.max (height l) (height r) + 1

/-! ## The tree with its node pool -/

/-- Type `RedBlackTree[K, V]` with its field `pool`: the nodes the `sync.Pool` holds. -/
structure PooledTree (K V : Type) where
  root : Node K V
  pool : List (Node K V)

/-- The function `New` of the pool: `&node[K, V]{}`, every field zero. -/
def newNode [Inhabited K] [Inhabited V] : Node K V := node default default nil nil BLACK

/-- Call `t.pool.Get()`: the library removes and returns a pooled node of its choosing, or
calls `New` when it finds none; `choice` stands for what the library chooses. -/
def poolGet [Inhabited K] [Inhabited V] (choice : Nat) (pool : List (Node K V)) :
    Node K V × List (Node K V) :=
  match pool[choice]? with
  | some h => (h, pool.eraseIdx choice)
  | none => (newNode, pool)

/-- Call `t.pool.Put(x)`. -/
def poolPut (x : Node K V) (pool : List (Node K V)) : List (Node K V) := x :: pool

/-- Method `put`, with the pool it takes new nodes from. -/
def putPooled [LinearOrder K] [Inhabited K] [Inhabited V] (choice : Nat) :
    Node K V → K → V → List (Node K V) → Except Fault (Node K V × List (Node K V))
  | nil, key, value, pool => do
    let hp := poolGet choice pool
    let h ← hp.1.setKey key
    let h ← h.setValue value
    let h ← h.setColor RED
    pure (h, hp.2)
  | node k v l r c, key, value, pool => do
    let xp ← if k > key then do
        let lp ← putPooled choice l key value pool
        pure (node k v lp.1 r c, lp.2)
      else if k < key then do
        let rp ← putPooled choice r key value pool
        pure (node k v l rp.1 c, rp.2)
      else
        pure (node k value l r c, pool)
    let x ← putFix xp.1
    pure (x, xp.2)

/-- Method `deleteMin`, with the pool it releases the removed node to. -/
def deleteMinPooled : Nat → Node K V → List (Node K V) →
    Except Fault (Node K V × List (Node K V))
  | 0, _, _ => .error .outOfFuel
  | fuel + 1, x, pool => do
    let xl ← x.left
    if xl.isNil then
      let x ← x.reuse
      pure (nil, poolPut x pool)
    else
      let x ← if (← leftIsTwoNode x) then moveRedLeft x else pure x
      let xl ← x.left
      let xlp ← deleteMinPooled fuel xl pool
      let x ← x.setLeft xlp.1
      let x ← balance x
      pure (x, xlp.2)

/-- Method `deleteMax`, with the pool it releases the removed node to. -/
def deleteMaxPooled : Nat → Node K V → List (Node K V) →
    Except Fault (Node K V × List (Node K V))
  | 0, _, _ => .error .outOfFuel
  | fuel + 1, x, pool => do
    let xl ← x.left
    let x ← if isRed xl then rotateRight x else pure x
    let xr ← x.right
    if xr.isNil then
      let x ← x.reuse
      pure (nil, poolPut x pool)
    else
      let x ← if (← rightIsTwoNode x) then moveRedRight x else pure x
      let xr ← x.right
      let xrp ← deleteMaxPooled fuel xr pool
      let x ← x.setRight xrp.1
      let x ← balance x
      pure (x, xrp.2)

/-- Method `deleteKey`, with the pool it releases the removed node to. -/
def deleteKeyPooled [LinearOrder K] : Nat → Node K V → K → List (Node K V) →
    Except Fault (Node K V × List (Node K V))
  | 0, _, _, _ => .error .outOfFuel
  | fuel + 1, x, key, pool => do
    let xk ← x.key
    if xk > key then
      let x ← if (← leftIsTwoNode x) then moveRedLeft x else pure x
      let xl ← x.left
      let xlp ← deleteKeyPooled fuel xl key pool
      let x ← x.setLeft xlp.1
      let x ← balance x
      pure (x, xlp.2)
    else
      let xl ← x.left
      let x ← if isRed xl then rotateRight x else pure x
      let xk ← x.key
      let xr ← x.right
      if key = xk ∧ xr.isNil then
        let x ← x.reuse
        pure (nil, poolPut x pool)
      else
        let x ← if (← rightIsTwoNode x) then moveRedRight x else pure x
        let xk ← x.key
        if key = xk then
          let xr ← x.right
          let h := min xr
          let hk ← h.key
          let x ← x.setKey hk
          let hv ← h.value
          let x ← x.setValue hv
          let xr ← x.right
          let xrp ← deleteMinPooled fuel xr pool
          let x ← x.setRight xrp.1
          let x ← balance x
          pure (x, xrp.2)
        else
          let xr ← x.right
          let xrp ← deleteKeyPooled fuel xr key pool
          let x ← x.setRight xrp.1
          let x ← balance x
          pure (x, xrp.2)

namespace PooledTree

/-- The tree without its pool. -/
def tree (t : PooledTree K V) : RedBlackTree K V := ⟨t.root⟩

/-- Constructor `NewRedBlackTree`: an empty tree with an empty pool. -/
def NewRedBlackTree : PooledTree K V := ⟨nil, []⟩

/-- Method `Put`, with the pool. -/
def Put [LinearOrder K] [Inhabited K] [Inhabited V] (choice : Nat) (t : PooledTree K V)
    (key : K) (value : V) : Except Fault (PooledTree K V) := do
  let rp ← putPooled choice t.root key value t.pool
  let root ← rp.1.setColor BLACK
  pure ⟨root, rp.2⟩

/-- Method `Delete`, with the pool. -/
def Delete [LinearOrder K] (t : PooledTree K V) (key : K) : Except Fault (PooledTree K V) := do
  if t.tree.isEmpty || !t.tree.Contains key then
    pure t
  else
    let root ← if (← noRedChild t.root) then t.root.setColor RED else pure t.root
    let rp ← deleteKeyPooled root.size root key t.pool
    let root ← if !rp.1.isNil then rp.1.setColor BLACK else pure rp.1
    pure ⟨root, rp.2⟩

/-- Method `DeleteMin`, with the pool. -/
def DeleteMin (t : PooledTree K V) : Except Fault (PooledTree K V) := do
  if t.tree.isEmpty then
    pure t
  else
    let root ← if (← noRedChild t.root) then t.root.setColor RED else pure t.root
    let rp ← deleteMinPooled root.size root t.pool
    let root ← if !rp.1.isNil then rp.1.setColor BLACK else pure rp.1
    pure ⟨root, rp.2⟩

/-- Method `DeleteMax`, with the pool. -/
def DeleteMax (t : PooledTree K V) : Except Fault (PooledTree K V) := do
  if t.tree.isEmpty then
    pure t
  else
    let root ← if (← noRedChild t.root) then t.root.setColor RED else pure t.root
    let rp ← deleteMaxPooled root.size root t.pool
    let root ← if !rp.1.isNil then rp.1.setColor BLACK else pure rp.1
    pure ⟨root, rp.2⟩

end PooledTree

/-- The states built from the empty tree and the empty pool by `Put`, `Delete`, `DeleteMin`
and `DeleteMax`, whatever the pool chooses to hand out and whatever it drops. -/
inductive ReachablePooled [LinearOrder K] [Inhabited K] [Inhabited V] :
    PooledTree K V → Prop where
  | empty : ReachablePooled PooledTree.NewRedBlackTree
  | put (t t' : PooledTree K V) (choice : Nat) (key : K) (value : V) :
      ReachablePooled t → PooledTree.Put choice t key value = .ok t' → ReachablePooled t'
  | delete (t t' : PooledTree K V) (key : K) :
      ReachablePooled t → PooledTree.Delete t key = .ok t' → ReachablePooled t'
  | deleteMin (t t' : PooledTree K V) :
      ReachablePooled t → PooledTree.DeleteMin t = .ok t' → ReachablePooled t'
  | deleteMax (t t' : PooledTree K V) :
      ReachablePooled t → PooledTree.DeleteMax t = .ok t' → ReachablePooled t'
  | drop (t : PooledTree K V) (i : Nat) :
      ReachablePooled t → ReachablePooled ⟨t.root, t.pool.eraseIdx i⟩

/-- The pool holds only nodes with nil links and color BLACK. -/
def PoolClean (pool : List (Node K V)) : Prop :=
  ∀ h ∈ pool, ∃ k v, h = node k v nil nil BLACK

/-- A run with the pool returns what the run without it returns, and leaves the pool
clean. -/
def PoolSim {α : Type} (mp : Except Fault (α × List (Node K V))) (m : Except Fault α) : Prop :=
  Except.map Prod.fst mp = m ∧ ∀ a pool, mp = .ok (a, pool) → PoolClean pool

/-- A public operation with the pool returns the tree the operation without it returns, and
leaves the pool clean. -/
def PoolSimTree (mp : Except Fault (PooledTree K V)) (m : Except Fault (RedBlackTree K V)) :
    Prop :=
  Except.map PooledTree.tree mp = m ∧ ∀ t, mp = .ok t → PoolClean t.pool

/-- The state after `Put` of the keys 1 to 5 into the empty tree and `Delete(4)`: the
released node lies in the pool, with the key and value it had when it was unlinked. -/
def samplePooled : PooledTree Nat Nat :=
  ⟨node 2 20 (node 1 10 nil nil BLACK) (node 5 50 (node 3 30 nil nil RED) nil BLACK) BLACK,
    [node 5 50 nil nil BLACK]⟩

/-! ## Keys of any type admitted by `constraints.Ordered`

The type parameter `K constraints.Ordered` of the source admits `float64`, whose value `NaN`
compares false with every value, itself included: the operators `<`, `>` and `==` then do
not form a total order. The definitions below embed the methods that compare keys once
more, over the operators alone. -/

/-- The operators `<` and `==` of a key type admitted by `constraints.Ordered`; `a > b` is
`b < a`. -/
class GoOrdered (K : Type) where
  lt : K → K → Bool
  eq : K → K → Bool

/-- The operators of a totally ordered key type. -/
def GoOrdered.ofLinearOrder [LinearOrder K] : GoOrdered K :=
  ⟨fun a b => decide (a < b), fun a b => decide (a = b)⟩

/-- Values of type `float64`: the whole numbers from zero on (the small ones, which the
type holds exactly) and `NaN`. -/
inductive F64Key where
  | num (n : Nat)
  | nan
  deriving DecidableEq, Repr

/-- The operators `<` and `==` of `float64`: every comparison with `NaN` is false. -/
instance instGoOrderedF64Key : GoOrdered F64Key where
  lt a b := match a, b with
    | .num x, .num y => decide (x < y)
    | _, _ => false
  eq a b := match a, b with
    | .num x, .num y => decide (x = y)
    | _, _ => false

namespace anyKey

/-- Method `put`. -/
def put [GoOrdered K] : Node K V → K → V → Except Fault (Node K V)
  | nil, key, value => pure (node key value nil nil RED)
  | node k v l r c, key, value => do
    let x ← if GoOrdered.lt key k then do
        let l' ← put l key value
        pure (node k v l' r c)
      else if GoOrdered.lt k key then do
        let r' ← put r key value
        pure (node k v l r' c)
      else
        pure (node k value l r c)
    putFix x

/-- Method `deleteKey`. -/
def deleteKey [GoOrdered K] : Nat → Node K V → K → Except Fault (Node K V)
  | 0, _, _ => .error .outOfFuel
  | fuel + 1, x, key => do
    let xk ← x.key
    if GoOrdered.lt key xk then
      let x ← if (← leftIsTwoNode x) then moveRedLeft x else pure x
      let xl ← x.left
      let xl ← deleteKey fuel xl key
      let x ← x.setLeft xl
      balance x
    else
      let xl ← x.left
      let x ← if isRed xl then rotateRight x else pure x
      let xk ← x.key
      let xr ← x.right
      if GoOrdered.eq key xk = true ∧ xr.isNil = true then
        let _ ← x.reuse
        pure nil
      else
        let x ← if (← rightIsTwoNode x) then moveRedRight x else pure x
        let xk ← x.key
        if GoOrdered.eq key xk then
          let xr ← x.right
          let h := min xr
          let hk ← h.key
          let x ← x.setKey hk
          let hv ← h.value
          let x ← x.setValue hv
          let xr ← x.right
          let xr ← deleteMin fuel xr
          let x ← x.setRight xr
          balance x
        else
          let xr ← x.right
          let xr ← deleteKey fuel xr key
          let x ← x.setRight xr
          balance x

/-- The loop of `Get`, started at `x`. -/
def getFrom [GoOrdered K] : Node K V → K → Option V
  | nil, _ => none
  | node k v l r _, key =>
    if GoOrdered.lt key k then getFrom l key
    else if GoOrdered.lt k key then getFrom r key
    else some v

/-- Method `floor`. -/
def floor [GoOrdered K] : Node K V → K → Node K V
  | nil, _ => nil
  | node k v l r c, key =>
    if GoOrdered.eq key k then node k v l r c
    else if GoOrdered.lt key k then floor l key
    else
      let temp := floor r key
      if temp.isNil then node k v l r c else temp

/-- Method `ceil`. -/
def ceil [GoOrdered K] : Node K V → K → Node K V
  | nil, _ => nil
  | node k v l r c, key =>
    if GoOrdered.eq key k then node k v l r c
    else if GoOrdered.lt k key then ceil r key
    else
      let temp := ceil l key
      if temp.isNil then node k v l r c else temp

/-- Method `Get`; `none` is `ErrNotFound`. -/
def Get [GoOrdered K] (t : RedBlackTree K V) (key : K) : Option V := getFrom t.root key

/-- Method `Contains`. -/
def Contains [GoOrdered K] (t : RedBlackTree K V) (key : K) : Bool := !(Get t key).isNone

/-- Method `Put`. -/
def Put [GoOrdered K] (t : RedBlackTree K V) (key : K) (value : V) :
    Except Fault (RedBlackTree K V) := do
  let root ← put t.root key value
  let root ← root.setColor BLACK
  pure ⟨root⟩

/-- Method `Delete`. -/
def Delete [GoOrdered K] (t : RedBlackTree K V) (key : K) :
    Except Fault (RedBlackTree K V) := do
  if t.isEmpty || !Contains t key then
    pure t
  else
    let root ← if (← noRedChild t.root) then t.root.setColor RED else pure t.root
    let root ← deleteKey root.size root key
    let root ← if !root.isNil then root.setColor BLACK else pure root
    pure ⟨root⟩

/-- Method `Floor`; `none` is `ErrNotFound`. -/
def Floor [GoOrdered K] (t : RedBlackTree K V) (key : K) : Option V :=
  match floor t.root key with
  | nil => none
  | node _ v _ _ _ => some v

/-- Method `Ceil`; `none` is `ErrNotFound`. -/
def Ceil [GoOrdered K] (t : RedBlackTree K V) (key : K) : Option V :=
  match ceil t.root key with
  | nil => none
  | node _ v _ _ _ => some v

/-- A run of `Put` over a list of pairs, as in the loops of the tests. -/
def PutAll [GoOrdered K] : RedBlackTree K V → List (K × V) → Except Fault (RedBlackTree K V)
  | t, [] => .ok t
  | t, p :: rest => do
    let t' ← Put t p.1 p.2
    PutAll t' rest

end anyKey

/-- The tree after `Put(1.0, 10)` on the empty tree of `float64` keys. -/
def f64One : RedBlackTree F64Key Nat :=
  ⟨node (.num 1) 10 nil nil BLACK⟩

/-- The tree after `Put(1.0, 10); Put(2.0, 20)` on the empty tree. -/
def f64Two : RedBlackTree F64Key Nat :=
  ⟨node (.num 2) 20 (node (.num 1) 10 nil nil RED) nil BLACK⟩

/-- The tree after `Put(1.0, 10); Put(2.0, 20); Put(3.0, 30)` on the empty tree. -/
def f64Three : RedBlackTree F64Key Nat :=
  ⟨node (.num 2) 20 (node (.num 1) 10 nil nil BLACK) (node (.num 3) 30 nil nil BLACK) BLACK⟩

/-- The tree after `Put(NaN, 5)` on the empty tree. -/
def f64Nan : RedBlackTree F64Key Nat :=
  ⟨node .nan 5 nil nil BLACK⟩

/-! ## Evaluation lemmas -/

@[simp] theorem bind_ok {α β : Type} (a : α) (f : α → Except Fault β) :
    (Except.ok a >>= f) = f a := rfl

@[simp] theorem bind_error {α β : Type} (e : Fault) (f : α → Except Fault β) :
    ((Except.error e : Except Fault α) >>= f) = Except.error e := rfl

@[simp] theorem pure_eq_ok {α : Type} (a : α) : (pure a : Except Fault α) = Except.ok a := rfl

namespace Node

@[simp] theorem isNil_nil : (nil : Node K V).isNil = true := rfl
@[simp] theorem isNil_node (k : K) (v : V) (l r : Node K V) (c : Bool) :
    (node k v l r c).isNil = false := rfl
theorem isNil_iff (x : Node K V) : x.isNil = true ↔ x = nil := by
  cases x <;> simp
theorem isNil_false_iff (x : Node K V) : x.isNil = false ↔ x ≠ nil := by
  cases x <;> simp
@[simp] theorem key_nil : (nil : Node K V).key = .error .nilDeref := rfl
@[simp] theorem key_node (k : K) (v : V) (l r : Node K V) (c : Bool) :
    (node k v l r c).key = .ok k := rfl
@[simp] theorem value_nil : (nil : Node K V).value = .error .nilDeref := rfl
@[simp] theorem value_node (k : K) (v : V) (l r : Node K V) (c : Bool) :
    (node k v l r c).value = .ok v := rfl
@[simp] theorem left_nil : (nil : Node K V).left = .error .nilDeref := rfl
@[simp] theorem left_node (k : K) (v : V) (l r : Node K V) (c : Bool) :
    (node k v l r c).left = .ok l := rfl
@[simp] theorem right_nil : (nil : Node K V).right = .error .nilDeref := rfl
@[simp] theorem right_node (k : K) (v : V) (l r : Node K V) (c : Bool) :
    (node k v l r c).right = .ok r := rfl
@[simp] theorem setKey_node (k : K) (v : V) (l r : Node K V) (c : Bool) (k' : K) :
    (node k v l r c).setKey k' = .ok (node k' v l r c) := rfl
@[simp] theorem setValue_node (k : K) (v : V) (l r : Node K V) (c : Bool) (v' : V) :
    (node k v l r c).setValue v' = .ok (node k v' l r c) := rfl
@[simp] theorem setLeft_node (k : K) (v : V) (l r : Node K V) (c : Bool) (l' : Node K V) :
    (node k v l r c).setLeft l' = .ok (node k v l' r c) := rfl
@[simp] theorem setRight_node (k : K) (v : V) (l r : Node K V) (c : Bool) (r' : Node K V) :
    (node k v l r c).setRight r' = .ok (node k v l r' c) := rfl
@[simp] theorem setColor_nil (c' : Bool) :
    (nil : Node K V).setColor c' = .error .nilDeref := rfl
@[simp] theorem setColor_node (k : K) (v : V) (l r : Node K V) (c c' : Bool) :
    (node k v l r c).setColor c' = .ok (node k v l r c') := rfl
@[simp] theorem reuse_node (k : K) (v : V) (l r : Node K V) (c : Bool) :
    (node k v l r c).reuse = .ok (node k v nil nil BLACK) := rfl
@[simp] theorem size_nil : (nil : Node K V).size = 0 := rfl
@[simp] theorem size_node (k : K) (v : V) (l r : Node K V) (c : Bool) :
    (node k v l r c).size = l.size + 1 + r.size := rfl
@[simp] theorem toList_nil : (nil : Node K V).toList = [] := rfl
@[simp] theorem toList_node (k : K) (v : V) (l r : Node K V) (c : Bool) :
    (node k v l r c).toList = l.toList ++ (k, v) :: r.toList := rfl

theorem size_eq_length (x : Node K V) : x.size = x.toList.length := by
  induction x with
  | nil => rfl
  | node k v l r c ihl ihr => simp [ihl, ihr]; omega

theorem toList_eq_nil_iff (x : Node K V) : x.toList = [] ↔ x = nil := by
  cases x <;> simp

end Node

open Node

@[simp] theorem isRed_nil : isRed (nil : Node K V) = false := rfl
@[simp] theorem isRed_node (k : K) (v : V) (l r : Node K V) (c : Bool) :
    isRed (node k v l r c) = c := by cases c <;> rfl

@[simp] theorem rotateLeft_node (k : K) (v : V) (l : Node K V) (hk : K) (hv : V)
    (hl hr : Node K V) (hc c : Bool) :
    rotateLeft (node k v l (node hk hv hl hr hc) c)
      = .ok (node hk hv (node k v l hl RED) hr c) := rfl

@[simp] theorem rotateRight_node (k : K) (v : V) (r : Node K V) (hk : K) (hv : V)
    (hl hr : Node K V) (hc c : Bool) :
    rotateRight (node k v (node hk hv hl hr hc) r c)
      = .ok (node hk hv hl (node k v hr r RED) c) := rfl

@[simp] theorem flipColors_node (k : K) (v : V) (lk : K) (lv : V) (ll lr : Node K V) (lc : Bool)
    (rk : K) (rv : V) (rl rr : Node K V) (rc c : Bool) :
    flipColors (node k v (node lk lv ll lr lc) (node rk rv rl rr rc) c)
      = .ok (node k v (node lk lv ll lr (!lc)) (node rk rv rl rr (!rc)) (!c)) := rfl

@[simp] theorem leftLeftRed_nil (k : K) (v : V) (r : Node K V) (c : Bool) :
    leftLeftRed (node k v nil r c) = .ok false := rfl

@[simp] theorem leftLeftRed_node (k : K) (v : V) (lk : K) (lv : V) (ll lr : Node K V) (lc : Bool)
    (r : Node K V) (c : Bool) :
    leftLeftRed (node k v (node lk lv ll lr lc) r c) = .ok (lc && isRed ll) := by
  cases lc <;> simp [leftLeftRed]

@[simp] theorem leftIsTwoNode_nil (k : K) (v : V) (r : Node K V) (c : Bool) :
    leftIsTwoNode (node k v nil r c) = .error .nilDeref := rfl

@[simp] theorem leftIsTwoNode_node (k : K) (v : V) (lk : K) (lv : V) (ll lr : Node K V)
    (lc : Bool) (r : Node K V) (c : Bool) :
    leftIsTwoNode (node k v (node lk lv ll lr lc) r c) = .ok (!lc && !isRed ll) := by
  cases lc <;> simp [leftIsTwoNode]

@[simp] theorem rightIsTwoNode_nil (k : K) (v : V) (l : Node K V) (c : Bool) :
    rightIsTwoNode (node k v l nil c) = .error .nilDeref := rfl

@[simp] theorem rightIsTwoNode_node (k : K) (v : V) (l : Node K V) (rk : K) (rv : V)
    (rl rr : Node K V) (rc c : Bool) :
    rightIsTwoNode (node k v l (node rk rv rl rr rc) c) = .ok (!rc && !isRed rl) := by
  cases rc <;> simp [rightIsTwoNode]

@[simp] theorem bothRed_node (k : K) (v : V) (l r : Node K V) (c : Bool) :
    bothRed (node k v l r c) = .ok (isRed l && isRed r) := by
  cases h : isRed l <;> simp [bothRed, h]

@[simp] theorem noRedChild_node (k : K) (v : V) (l r : Node K V) (c : Bool) :
    noRedChild (node k v l r c) = .ok (!isRed l && !isRed r) := by
  cases h : isRed l <;> simp [noRedChild, h]

/-! ## The red-black invariants -/

@[simp] theorem bh_nil : bh (nil : Node K V) = 0 := rfl
@[simp] theorem bh_node (k : K) (v : V) (l r : Node K V) (c : Bool) :
    bh (node k v l r c) = bh l + (if c then 0 else 1) := rfl
@[simp] theorem balanced_nil : Balanced (nil : Node K V) := trivial
@[simp] theorem balanced_node (k : K) (v : V) (l r : Node K V) (c : Bool) :
    Balanced (node k v l r c) ↔ Balanced l ∧ Balanced r ∧ bh l = bh r := Iff.rfl
@[simp] theorem llrb_nil : Llrb (nil : Node K V) := trivial
@[simp] theorem llrb_node (k : K) (v : V) (l r : Node K V) (c : Bool) :
    Llrb (node k v l r c)
      ↔ Llrb l ∧ Llrb r ∧ isRed r = false ∧ (c = true → isRed l = false) := Iff.rfl

/-- A black-rooted subtree of black height zero is nil. -/
theorem eq_nil_of_bh_zero (x : Node K V) (hx : isRed x = false) (h : bh x = 0) : x = nil := by
  cases x with
  | nil => rfl
  | node k v l r c => simp at hx; subst hx; simp at h

/-- Specification of `balance` on the frames the deletion routines build. -/
theorem balance_spec (k : K) (v : V) (l r : Node K V) (c : Bool)
    (hl : Llrb l) (hr : Llrb r) (bl : Balanced l) (br : Balanced r) (hb : bh l = bh r)
    (hc : c = true → isRed l = false ∧ isRed r = false) :
    ∃ y, balance (node k v l r c) = .ok y ∧ Llrb y ∧ Balanced y
      ∧ bh y = bh (node k v l r c) ∧ toList y = toList (node k v l r c)
      ∧ size y = size (node k v l r c)
      ∧ (c = false → (isRed l = false ∨ isRed r = false) → isRed y = false) := by
  rcases r with _ | ⟨rk, rv, rl, rr, rc⟩
  · rcases l with _ | ⟨lk, lv, ll, lr, lc⟩
    · simp [balance]
    · cases lc
      · simp at hb
      · cases c <;> simp_all [balance]
  · cases rc
    · rcases l with _ | ⟨lk, lv, ll, lr, lc⟩
      · simp at hb
      · cases lc <;> cases c <;> simp_all [balance]
    · rcases l with _ | ⟨lk, lv, ll, lr, lc⟩
      · cases c <;> simp_all [balance]
        omega
      · cases lc <;> cases c <;> simp_all [balance]
        omega


/-! ## Sorted association lists -/

section lists

theorem filter_eq_self_of {α : Type} (p : α → Bool) (L : List α) (h : ∀ a ∈ L, p a = true) :
    L.filter p = L := by
  induction L with
  | nil => rfl
  | cons a t ih =>
    have ha := h a (List.mem_cons_self a t)
    have ht := ih (fun b hb => h b (List.mem_cons_of_mem a hb))
    simp [List.filter, ha, ht]

theorem filter_eq_nil_of {α : Type} (p : α → Bool) (L : List α) (h : ∀ a ∈ L, p a = false) :
    L.filter p = [] := by
  induction L with
  | nil => rfl
  | cons a t ih =>
    have ha := h a (List.mem_cons_self a t)
    have ht := ih (fun b hb => h b (List.mem_cons_of_mem a hb))
    simp [List.filter, ha, ht]

theorem ordered_node [LinearOrder K] (k : K) (v : V) (l r : Node K V) (c : Bool) :
    Ordered (node k v l r c)
      ↔ Ordered l ∧ Ordered r ∧ (∀ p ∈ toList l, p.1 < k) ∧ (∀ p ∈ toList r, k < p.1) := by
  unfold Ordered
  rw [toList_node, List.pairwise_append, List.pairwise_cons]
  constructor
  · rintro ⟨h1, ⟨h2, h3⟩, h4⟩
    exact ⟨h1, h3, fun p hp => h4 p hp (k, v) (List.mem_cons_self _ _), fun p hp => h2 p hp⟩
  · rintro ⟨h1, h2, h3, h4⟩
    refine ⟨h1, ⟨fun p hp => h4 p hp, h2⟩, ?_⟩
    intro a ha b hb
    rcases List.mem_cons.1 hb with rfl | hb
    · exact h3 a ha
    · exact lt_trans (h3 a ha) (h4 b hb)

@[simp] theorem ordered_nil [LinearOrder K] : Ordered (nil : Node K V) := List.Pairwise.nil

theorem insList_lt [LinearOrder K] (key : K) (value : V) (k : K) (v : V) (A B : List (K × V))
    (hk : key < k) (hB : ∀ p ∈ B, k < p.1) :
    insList key value (A ++ (k, v) :: B) = insList key value A ++ (k, v) :: B := by
  have h1 : B.filter (fun p => decide (p.1 < key)) = [] :=
    filter_eq_nil_of _ _ (fun p hp => by
      have := hB p hp
      simp [le_of_lt (lt_trans hk this)])
  have h2 : B.filter (fun p => decide (key < p.1)) = B :=
    filter_eq_self_of _ _ (fun p hp => by
      have := hB p hp
      simp [lt_trans hk this])
  simp [insList, List.filter_append, List.filter_cons, h1, h2, hk, le_of_lt hk, not_lt.2 (le_of_lt hk)]

theorem insList_gt [LinearOrder K] (key : K) (value : V) (k : K) (v : V) (A B : List (K × V))
    (hk : k < key) (hA : ∀ p ∈ A, p.1 < k) :
    insList key value (A ++ (k, v) :: B) = A ++ (k, v) :: insList key value B := by
  have h1 : A.filter (fun p => decide (p.1 < key)) = A :=
    filter_eq_self_of _ _ (fun p hp => by
      have := hA p hp
      simp [lt_trans this hk])
  have h2 : A.filter (fun p => decide (key < p.1)) = [] :=
    filter_eq_nil_of _ _ (fun p hp => by
      have := hA p hp
      simp [le_of_lt (lt_trans this hk)])
  simp [insList, List.filter_append, List.filter_cons, h1, h2, hk, not_lt.2 (le_of_lt hk)]

theorem insList_eq [LinearOrder K] (key : K) (value : V) (v : V) (A B : List (K × V))
    (hA : ∀ p ∈ A, p.1 < key) (hB : ∀ p ∈ B, key < p.1) :
    insList key value (A ++ (key, v) :: B) = A ++ (key, value) :: B := by
  have h1 : A.filter (fun p => decide (p.1 < key)) = A :=
    filter_eq_self_of _ _ (fun p hp => by simp [hA p hp])
  have h2 : A.filter (fun p => decide (key < p.1)) = [] :=
    filter_eq_nil_of _ _ (fun p hp => by simp [le_of_lt (hA p hp)])
  have h3 : B.filter (fun p => decide (p.1 < key)) = [] :=
    filter_eq_nil_of _ _ (fun p hp => by simp [le_of_lt (hB p hp)])
  have h4 : B.filter (fun p => decide (key < p.1)) = B :=
    filter_eq_self_of _ _ (fun p hp => by simp [hB p hp])
  simp [insList, List.filter_append, List.filter_cons, h1, h2, h3, h4]

theorem mem_insList [LinearOrder K] (key : K) (value : V) (L : List (K × V)) (p : K × V) :
    p ∈ insList key value L ↔ p = (key, value) ∨ (p ∈ L ∧ p.1 ≠ key) := by
  simp only [insList, List.mem_append, List.mem_cons, List.mem_filter, decide_eq_true_eq]
  constructor
  · rintro (⟨h1, h2⟩ | h | ⟨h1, h2⟩)
    · exact Or.inr ⟨h1, ne_of_lt h2⟩
    · exact Or.inl h
    · exact Or.inr ⟨h1, ne_of_gt h2⟩
  · rintro (h | ⟨h1, h2⟩)
    · exact Or.inr (Or.inl h)
    · rcases lt_or_gt_of_ne h2 with h | h
      · exact Or.inl ⟨h1, h⟩
      · exact Or.inr (Or.inr ⟨h1, h⟩)

theorem pairwise_insList [LinearOrder K] (key : K) (value : V) (L : List (K × V))
    (h : L.Pairwise (fun a b => a.1 < b.1)) :
    (insList key value L).Pairwise (fun a b => a.1 < b.1) := by
  unfold insList
  rw [List.pairwise_append, List.pairwise_cons]
  refine ⟨h.filter _, ⟨?_, h.filter _⟩, ?_⟩
  · intro p hp
    simpa using (List.mem_filter.1 hp).2
  · intro a ha b hb
    have ha' : a.1 < key := by simpa using (List.mem_filter.1 ha).2
    rcases List.mem_cons.1 hb with rfl | hb
    · exact ha'
    · have hb' : key < b.1 := by simpa using (List.mem_filter.1 hb).2
      exact lt_trans ha' hb'

theorem mem_eraseList [LinearOrder K] (key : K) (L : List (K × V)) (p : K × V) :
    p ∈ eraseList key L ↔ p ∈ L ∧ p.1 ≠ key := by
  simp [eraseList, List.mem_filter]

theorem pairwise_eraseList [LinearOrder K] (key : K) (L : List (K × V))
    (h : L.Pairwise (fun a b => a.1 < b.1)) :
    (eraseList key L).Pairwise (fun a b => a.1 < b.1) :=
  h.filter _

/-- In a strictly increasing association list a key has at most one value. -/
theorem pairwise_value_unique [LinearOrder K] (L : List (K × V)) (h : L.Pairwise (fun a b => a.1 < b.1))
    (k : K) (v w : V) (hv : (k, v) ∈ L) (hw : (k, w) ∈ L) : v = w := by
  induction L with
  | nil => cases hv
  | cons a t ih =>
    rw [List.pairwise_cons] at h
    rcases List.mem_cons.1 hv with hv | hv <;> rcases List.mem_cons.1 hw with hw | hw
    · rw [← hv] at hw; exact (Prod.mk.inj hw).2.symm ▸ rfl
    · exact absurd (h.1 _ hw) (by rw [← hv]; exact lt_irrefl _)
    · exact absurd (h.1 _ hv) (by rw [← hw]; exact lt_irrefl _)
    · exact ih h.2 hv hw

end lists

/-! ## `Get` reads the in-order list -/

section get

theorem getFrom_eq_some_iff [LinearOrder K] (x : Node K V) (hx : Ordered x) (key : K) (w : V) :
    getFrom x key = some w ↔ (key, w) ∈ toList x := by
  induction x with
  | nil => simp [getFrom]
  | node k v l r c ihl ihr =>
    rw [ordered_node] at hx
    obtain ⟨hl, hr, hlk, hrk⟩ := hx
    simp only [getFrom, toList_node, List.mem_append, List.mem_cons, Prod.mk.injEq]
    by_cases h1 : k > key
    · rw [if_pos h1, ihl hl]
      constructor
      · exact Or.inl
      · rintro (h | ⟨h, _⟩ | h)
        · exact h
        · exact absurd h1 (by rw [h]; exact lt_irrefl _)
        · exact absurd (lt_trans (hrk _ h) h1) (lt_irrefl _)
    · rw [if_neg h1]
      by_cases h2 : k < key
      · rw [if_pos h2, ihr hr]
        constructor
        · exact fun h => Or.inr (Or.inr h)
        · rintro (h | ⟨h, _⟩ | h)
          · exact absurd (lt_trans (hlk _ h) h2) (lt_irrefl _)
          · exact absurd h2 (by rw [h]; exact lt_irrefl _)
          · exact h
      · rw [if_neg h2]
        have hk : key = k := le_antisymm (not_lt.1 h2) (not_lt.1 h1)
        subst hk
        simp only [Option.some.injEq, true_and]
        constructor
        · exact fun h => Or.inr (Or.inl h.symm)
        · rintro (h | h | h)
          · exact absurd (hlk _ h) (lt_irrefl _)
          · exact h.symm
          · exact absurd (hrk _ h) (lt_irrefl _)

theorem getFrom_eq_none_iff [LinearOrder K] (x : Node K V) (hx : Ordered x) (key : K) :
    getFrom x key = none ↔ ∀ w, (key, w) ∉ toList x := by
  constructor
  · intro h w hw
    rw [← getFrom_eq_some_iff x hx] at hw
    rw [h] at hw
    cases hw
  · intro h
    cases hg : getFrom x key with
    | none => rfl
    | some w => exact absurd ((getFrom_eq_some_iff x hx key w).1 hg) (h w)

/-- Two ordered trees with the same entries for `key` answer `Get key` alike. -/
theorem getFrom_congr [LinearOrder K] (x y : Node K V) (hx : Ordered x) (hy : Ordered y) (key : K)
    (h : ∀ w, (key, w) ∈ toList y ↔ (key, w) ∈ toList x) :
    getFrom y key = getFrom x key := by
  apply Option.ext
  intro w
  simp only [Option.mem_def]
  rw [getFrom_eq_some_iff y hy, getFrom_eq_some_iff x hx, h]

end get

/-! ## Insertion -/

section insertion

@[simp] theorem almostLlrb_nil : AlmostLlrb (nil : Node K V) := trivial
@[simp] theorem almostLlrb_node (k : K) (v : V) (l r : Node K V) (c : Bool) :
    AlmostLlrb (node k v l r c) ↔ Llrb l ∧ Llrb r ∧ isRed r = false := Iff.rfl

/-- The fix-ups of `put` never dereference nil and keep the in-order list. -/
theorem putFix_ok (k : K) (v : V) (l r : Node K V) (c : Bool) :
    ∃ y, putFix (node k v l r c) = .ok y ∧ y ≠ nil
      ∧ toList y = toList (node k v l r c) := by
  rcases r with _ | ⟨rk, rv, rl, rr, rc⟩
  · rcases l with _ | ⟨lk, lv, ll, lr, lc⟩
    · simp [putFix]
    · rcases ll with _ | ⟨llk, llv, lll, llr, llc⟩
      · cases lc <;> simp [putFix]
      · cases lc <;> cases llc <;> simp [putFix]
  · rcases rr with _ | ⟨rrk, rrv, rrl, rrr, rrc⟩
    · rcases l with _ | ⟨lk, lv, ll, lr, lc⟩
      · cases rc <;> simp [putFix]
      · rcases ll with _ | ⟨llk, llv, lll, llr, llc⟩
        · cases lc <;> cases rc <;> simp [putFix]
        · cases lc <;> cases rc <;> cases llc <;> simp [putFix]
    · rcases l with _ | ⟨lk, lv, ll, lr, lc⟩
      · cases rc <;> cases rrc <;> simp [putFix]
      · rcases ll with _ | ⟨llk, llv, lll, llr, llc⟩
        · cases lc <;> cases rc <;> cases rrc <;> simp [putFix]
        · cases lc <;> cases rc <;> cases llc <;> cases rrc <;> simp [putFix]

set_option maxHeartbeats 4000000 in
/-- The fix-ups of `put` restore the red-black shape above a subtree `put` returned. -/
theorem putFix_spec (k : K) (v : V) (l r : Node K V) (c : Bool)
    (hl : AlmostLlrb l) (hr : Llrb r) (bl : Balanced l) (br : Balanced r) (hb : bh l = bh r)
    (h1 : c = true → Llrb l) (h2 : isRed r = true → Llrb l)
    (h3 : c = true → isRed l = false ∨ isRed r = false) :
    ∃ y, putFix (node k v l r c) = .ok y ∧ AlmostLlrb y ∧ Balanced y
      ∧ bh y = bh (node k v l r c) ∧ (c = false → Llrb y) := by
  rcases r with _ | ⟨rk, rv, rl, rr, rc⟩ <;> rcases l with _ | ⟨lk, lv, ll, lr, lc⟩
  · simp [putFix]
  · rcases ll with _ | ⟨llk, llv, lll, llr, llc⟩
    · cases lc <;> cases c <;>
        first | (exfalso; simp at hb; done) | simp_all [putFix]
    · cases lc <;> cases llc <;> cases c <;>
        first | (exfalso; simp at hb; done) | simp_all [putFix]
  · cases rc <;> cases c <;>
      first | (exfalso; simp at hb; done) | simp_all [putFix]
  · rcases ll with _ | ⟨llk, llv, lll, llr, llc⟩
    · cases lc <;> cases rc <;> cases c <;>
        first | (exfalso; simp at hb; done) | (simp_all [putFix] <;> omega)
    · cases lc <;> cases rc <;> cases llc <;> cases c <;>
        first | (exfalso; simp at hb; done) | (simp_all [putFix] <;> omega)

theorem llrb_almost (x : Node K V) (h : Llrb x) : AlmostLlrb x := by
  cases x with
  | nil => trivial
  | node k v l r c => exact ⟨h.1, h.2.1, h.2.2.1⟩

/-- Method `put` never fails; on an ordered subtree it upserts into the in-order list. -/
theorem put_toList [LinearOrder K] (x : Node K V) (key : K) (value : V) (hx : Ordered x) :
    ∃ y, put x key value = .ok y ∧ y ≠ nil
      ∧ toList y = insList key value (toList x) := by
  induction x with
  | nil => exact ⟨node key value nil nil RED, rfl, by simp, by simp [insList]⟩
  | node k v l r c ihl ihr =>
    rw [ordered_node] at hx
    obtain ⟨hl, hr, hlk, hrk⟩ := hx
    by_cases hk1 : k > key
    · obtain ⟨l', e1, -, t1⟩ := ihl hl
      obtain ⟨y, e2, n2, t2⟩ := putFix_ok k v l' r c
      refine ⟨y, by simp [put, hk1, e1, e2], n2, ?_⟩
      rw [t2, toList_node, toList_node, t1, insList_lt key value k v _ _ hk1 hrk]
    · by_cases hk2 : k < key
      · obtain ⟨r', e1, -, t1⟩ := ihr hr
        obtain ⟨y, e2, n2, t2⟩ := putFix_ok k v l r' c
        refine ⟨y, by simp [put, hk1, hk2, e1, e2], n2, ?_⟩
        rw [t2, toList_node, toList_node, t1, insList_gt key value k v _ _ hk2 hlk]
      · obtain ⟨y, e2, n2, t2⟩ := putFix_ok k value l r c
        have hk : key = k := le_antisymm (not_lt.1 hk2) (not_lt.1 hk1)
        subst hk
        refine ⟨y, by simp [put, e2], n2, ?_⟩
        rw [t2, toList_node, toList_node, insList_eq key value v _ _ hlk hrk]

/-- Method `put` keeps the black height and returns a shape its caller can repair. -/
theorem put_spec [LinearOrder K] (x : Node K V) (key : K) (value : V) (hx : Llrb x) (bx : Balanced x) :
    ∃ y, put x key value = .ok y ∧ AlmostLlrb y ∧ Balanced y ∧ bh y = bh x
      ∧ (isRed x = false → Llrb y) := by
  induction x with
  | nil => exact ⟨node key value nil nil RED, rfl, by simp [AlmostLlrb], by simp, by simp, by simp⟩
  | node k v l r c ihl ihr =>
    rw [llrb_node] at hx
    rw [balanced_node] at bx
    obtain ⟨hl, hr, hrr, hcl⟩ := hx
    obtain ⟨bl, br, hb⟩ := bx
    by_cases hk1 : k > key
    · obtain ⟨l', e1, a1, b1, h1, c1⟩ := ihl hl bl
      obtain ⟨y, e2, a2, b2, h2, c2⟩ := putFix_spec k v l' r c a1 hr b1 br (by omega)
        (fun hc => c1 (hcl hc)) (fun h => by rw [hrr] at h; cases h) (fun _ => Or.inr hrr)
      refine ⟨y, by simp [put, hk1, e1, e2], a2, b2, by simp [h2, h1], ?_⟩
      intro hc
      exact c2 (by simpa using hc)
    · by_cases hk2 : k < key
      · obtain ⟨r', e1, a1, b1, h1, c1⟩ := ihr hr br
        obtain ⟨y, e2, a2, b2, h2, c2⟩ := putFix_spec k v l r' c (llrb_almost l hl) (c1 hrr) bl b1
          (by omega) (fun _ => hl) (fun _ => hl) (fun hc => Or.inl (hcl hc))
        refine ⟨y, by simp [put, hk1, hk2, e1, e2], a2, b2, by simp [h2], ?_⟩
        intro hc
        exact c2 (by simpa using hc)
      · obtain ⟨y, e2, a2, b2, h2, c2⟩ := putFix_spec k value l r c (llrb_almost l hl) hr bl br
          hb (fun _ => hl) (fun _ => hl) (fun hc => Or.inl (hcl hc))
        refine ⟨y, by simp [put, hk1, hk2, e2], a2, b2, by simp [h2], ?_⟩
        intro hc
        exact c2 (by simpa using hc)

end insertion

/-! ## Deletion of the minimum -/

section deleteMin

theorem moveRedLeft_simple (k : K) (v : V) (lk : K) (lv : V) (ll lr : Node K V) (lc : Bool)
    (rk : K) (rv : V) (rl rr : Node K V) (rc c : Bool) (h : isRed rl = false) :
    moveRedLeft (node k v (node lk lv ll lr lc) (node rk rv rl rr rc) c)
      = .ok (node k v (node lk lv ll lr (!lc)) (node rk rv rl rr (!rc)) (!c)) := by
  simp [moveRedLeft, h]

theorem moveRedLeft_borrow (k : K) (v : V) (lk : K) (lv : V) (ll lr : Node K V) (lc : Bool)
    (rk : K) (rv : V) (rlk : K) (rlv : V) (rll rlr : Node K V) (rr : Node K V) (rc c : Bool) :
    moveRedLeft (node k v (node lk lv ll lr lc) (node rk rv (node rlk rlv rll rlr true) rr rc) c)
      = .ok (node rlk rlv (node k v (node lk lv ll lr (!lc)) rll false)
          (node rk rv rlr rr false) c) := by
  simp [moveRedLeft]

theorem moveRedRight_simple (k : K) (v : V) (lk : K) (lv : V) (ll lr : Node K V) (lc : Bool)
    (rk : K) (rv : V) (rl rr : Node K V) (rc c : Bool) (h : isRed ll = false) :
    moveRedRight (node k v (node lk lv ll lr lc) (node rk rv rl rr rc) c)
      = .ok (node k v (node lk lv ll lr (!lc)) (node rk rv rl rr (!rc)) (!c)) := by
  simp [moveRedRight, h]

theorem moveRedRight_borrow (k : K) (v : V) (lk : K) (lv : V) (llk : K) (llv : V)
    (lll llr : Node K V) (lr : Node K V) (lc : Bool)
    (rk : K) (rv : V) (rl rr : Node K V) (rc c : Bool) :
    moveRedRight (node k v (node lk lv (node llk llv lll llr true) lr lc) (node rk rv rl rr rc) c)
      = .ok (node lk lv (node llk llv lll llr false)
          (node k v lr (node rk rv rl rr (!rc)) false) c) := by
  simp [moveRedRight]

theorem isRed_true_elim (x : Node K V) (h : isRed x = true) :
    ∃ k v l r, x = node k v l r true := by
  cases x with
  | nil => simp at h
  | node k v l r c => simp at h; subst h; exact ⟨k, v, l, r, rfl⟩

theorem ne_nil_of_bh_pos (x : Node K V) (h : 0 < bh x) : ∃ k v l r c, x = node k v l r c := by
  cases x with
  | nil => simp at h
  | node k v l r c => exact ⟨k, v, l, r, c, rfl⟩

/-- Method `deleteMin` on a red node, or a black node with a red left child: no nil
dereference, the red-black shape and black height are kept, the first entry is dropped. -/
theorem deleteMin_spec (fuel : Nat) : ∀ (k : K) (v : V) (l r : Node K V) (c : Bool),
    size (node k v l r c) ≤ fuel → Llrb (node k v l r c) → Balanced (node k v l r c) →
    (c = true ∨ isRed l = true) →
    ∃ y, deleteMin fuel (node k v l r c) = .ok y ∧ Llrb y ∧ Balanced y
      ∧ bh y = bh (node k v l r c) ∧ (c = false → isRed y = false)
      ∧ ∀ rest, toList y ++ rest = (toList (node k v l r c) ++ rest).tail := by
  induction fuel with
  | zero => intro k v l r c hs; simp at hs
  | succ n ih =>
    intro k v l r c hs hL hB hred
    rw [llrb_node] at hL
    rw [balanced_node] at hB
    obtain ⟨hLl, hLr, hrr, hcl⟩ := hL
    obtain ⟨hBl, hBr, hb⟩ := hB
    rcases l with _ | ⟨lk, lv, ll, lr, lc⟩
    · have hr : r = nil := eq_nil_of_bh_zero r hrr (by simpa using hb.symm)
      subst hr
      have hc : c = true := by simpa using hred
      subst hc
      exact ⟨nil, by simp [deleteMin], by simp, by simp, by simp, by simp, by simp⟩
    · rw [llrb_node] at hLl
      rw [balanced_node] at hBl
      obtain ⟨hLll, hLlr, hlrr, hlcl⟩ := hLl
      obtain ⟨hBll, hBlr, hlb⟩ := hBl
      simp only [size_node] at hs
      cases lc
      · have hc : c = true := by simpa using hred
        subst hc
        cases hll : isRed ll
        · obtain ⟨rk, rv, rl, rr, rc, hr⟩ := ne_nil_of_bh_pos r (by rw [← hb]; simp)
          subst hr
          simp only [isRed_node] at hrr
          subst hrr
          rw [llrb_node] at hLr
          rw [balanced_node] at hBr
          obtain ⟨hLrl, hLrr, hrrr, -⟩ := hLr
          obtain ⟨hBrl, hBrr, hrb⟩ := hBr
          simp only [bh_node, if_false, Bool.false_eq_true] at hb
          simp only [size_node] at hs
          cases hrl : isRed rl
          · obtain ⟨l', e1, L1, B1, h1, -, t1⟩ := ih lk lv ll lr true
              (by simp; omega) (by simp [*]) (by simp [*]) (Or.inl rfl)
            obtain ⟨y, e2, L2, B2, h2, t2, -, -⟩ := balance_spec k v l' (node rk rv rl rr true) false
              L1 (by simp [*]) B1 (by simp [*]) (by simp [h1]; omega) (by simp)
            refine ⟨y, ?_, L2, B2, ?_, by simp, ?_⟩
            · simp [deleteMin, hll, moveRedLeft_simple _ _ _ _ _ _ _ _ _ _ _ _ _ hrl, e1, e2]
            · simp [h2, h1]
            · intro rest
              have := t1 ((k, v) :: (toList (node rk rv rl rr true) ++ rest))
              simp [t2] at this ⊢
              exact this
          · obtain ⟨rlk, rlv, rll, rlr, hrl'⟩ := isRed_true_elim rl hrl
            subst hrl'
            rw [llrb_node] at hLrl
            rw [balanced_node] at hBrl
            obtain ⟨hLrll, hLrlr, hrlrr, hrlcl⟩ := hLrl
            obtain ⟨hBrll, hBrlr, hrlb⟩ := hBrl
            simp only [size_node] at hs
            simp only [bh_node, if_true] at hb hrb
            obtain ⟨x', e1, L1, B1, h1, c1, t1⟩ := ih k v (node lk lv ll lr true) rll false
              (by simp; omega) (by simp [*]) (by simp [*]; omega) (Or.inr rfl)
            obtain ⟨y, e2, L2, B2, h2, t2, -, -⟩ := balance_spec rlk rlv x' (node rk rv rlr rr false)
              true L1 (by simp [*]) B1 (by simp [*]; omega) (by simp [h1]; omega)
              (by simp [c1])
            refine ⟨y, ?_, L2, B2, ?_, by simp, ?_⟩
            · simp [deleteMin, hll, moveRedLeft_borrow, e1, e2]
            · simp [h2, h1]
            · intro rest
              have := t1 ((rlk, rlv) :: (toList (node rk rv rlr rr false) ++ rest))
              simp [t2] at this ⊢
              exact this
        · obtain ⟨l', e1, L1, B1, h1, c1, t1⟩ := ih lk lv ll lr false
            (by simp; omega) (by simp [*]) (by simp [*]) (Or.inr hll)
          obtain ⟨y, e2, L2, B2, h2, t2, -, -⟩ := balance_spec k v l' r true
            L1 hLr B1 hBr (by rw [h1]; exact hb) (by simp [c1, hrr])
          refine ⟨y, ?_, L2, B2, ?_, by simp, ?_⟩
          · simp [deleteMin, hll, e1, e2]
          · simp [h2, h1]
          · intro rest
            have := t1 ((k, v) :: (toList r ++ rest))
            simp [t2] at this ⊢
            exact this
      · have hc : c = false := by
          cases c
          · rfl
          · simp at hcl
        subst hc
        obtain ⟨l', e1, L1, B1, h1, c1, t1⟩ := ih lk lv ll lr true
          (by simp; omega) (by simp [*]) (by simp [*]) (Or.inl rfl)
        obtain ⟨y, e2, L2, B2, h2, t2, -, c2⟩ := balance_spec k v l' r false
          L1 hLr B1 hBr (by rw [h1]; exact hb) (by simp)
        refine ⟨y, ?_, L2, B2, ?_, fun _ => c2 rfl (Or.inr hrr), ?_⟩
        · simp [deleteMin, e1, e2]
        · simp [h2, h1]
        · intro rest
          have := t1 ((k, v) :: (toList r ++ rest))
          simp [t2] at this ⊢
          exact this

end deleteMin

/-! ## Deletion of the maximum -/

section deleteMax

theorem dropLast_append_singleton {α : Type} (A : List α) (a : α) :
    (A ++ [a]).dropLast = A := by
  simp

/-- Method `deleteMax` on a node of which exactly one of itself and its two children is
red: no nil dereference, the red-black shape and black height are kept, the last entry is
dropped. -/
theorem deleteMax_spec (fuel : Nat) : ∀ (k : K) (v : V) (l r : Node K V) (c : Bool),
    size (node k v l r c) ≤ fuel → Llrb l → Llrb r → Balanced (node k v l r c) →
    ((c = true ∧ isRed l = false ∧ isRed r = false)
      ∨ (c = false ∧ isRed l = true ∧ isRed r = false)
      ∨ (c = false ∧ isRed l = false ∧ isRed r = true)) →
    ∃ y, deleteMax fuel (node k v l r c) = .ok y ∧ Llrb y ∧ Balanced y
      ∧ bh y = bh (node k v l r c) ∧ (c = false → isRed y = false)
      ∧ ∀ pre, pre ++ toList y = (pre ++ toList (node k v l r c)).dropLast := by
  induction fuel with
  | zero => intro k v l r c hs; simp at hs
  | succ n ih =>
    intro k v l r c hs hLl hLr hB hshape
    rw [balanced_node] at hB
    obtain ⟨hBl, hBr, hb⟩ := hB
    simp only [size_node] at hs
    rcases hshape with ⟨hc, hl, hr⟩ | ⟨hc, hl, hr⟩ | ⟨hc, hl, hr⟩
    · -- a red node
      subst hc
      rcases r with _ | ⟨rk, rv, rl, rr, rc⟩
      · have hl' : l = nil := eq_nil_of_bh_zero l hl (by simpa using hb)
        subst hl'
        refine ⟨nil, by simp [deleteMax], by simp, by simp, by simp, by simp, ?_⟩
        intro pre
        simp
      · simp only [isRed_node] at hr
        subst hr
        rw [llrb_node] at hLr
        rw [balanced_node] at hBr
        obtain ⟨hLrl, hLrr, hrrr, -⟩ := hLr
        obtain ⟨hBrl, hBrr, hrb⟩ := hBr
        simp only [size_node] at hs
        cases hrl : isRed rl
        · obtain ⟨lk, lv, ll, lr, lc, hl'⟩ := ne_nil_of_bh_pos l (by rw [hb]; simp)
          subst hl'
          simp only [isRed_node] at hl
          subst hl
          rw [llrb_node] at hLl
          rw [balanced_node] at hBl
          obtain ⟨hLll, hLlr, hlrr, -⟩ := hLl
          obtain ⟨hBll, hBlr, hlb⟩ := hBl
          simp only [bh_node, if_false, Bool.false_eq_true] at hb
          simp only [size_node] at hs
          cases hll : isRed ll
          · obtain ⟨r', e1, L1, B1, h1, -, t1⟩ := ih rk rv rl rr true
              (by simp; omega) hLrl hLrr (by simp [*]) (Or.inl ⟨rfl, hrl, hrrr⟩)
            obtain ⟨y, e2, L2, B2, h2, t2, -, -⟩ := balance_spec k v (node lk lv ll lr true) r'
              false (by simp [*]) L1 (by simp [*]) B1 (by simp [h1]; omega) (by simp)
            refine ⟨y, ?_, L2, B2, ?_, by simp, ?_⟩
            · simp [deleteMax, hrl, moveRedRight_simple _ _ _ _ _ _ _ _ _ _ _ _ _ hll, e1, e2]
            · simp [h2]
            · intro pre
              have := t1 (pre ++ (toList (node lk lv ll lr true) ++ [(k, v)]))
              simp [t2] at this ⊢
              exact this
          · obtain ⟨llk, llv, lll, llr, hll'⟩ := isRed_true_elim ll hll
            subst hll'
            rw [llrb_node] at hLll
            rw [balanced_node] at hBll
            obtain ⟨hLlll, hLllr, hllrr, hllcl⟩ := hLll
            obtain ⟨hBlll, hBllr, hllb⟩ := hBll
            simp only [size_node] at hs
            simp only [bh_node, if_true] at hb hlb
            obtain ⟨x', e1, L1, B1, h1, c1, t1⟩ := ih k v lr (node rk rv rl rr true) false
              (by simp; omega) hLlr (by simp [*]) (by simp [*]; omega)
              (Or.inr (Or.inr ⟨rfl, hlrr, rfl⟩))
            obtain ⟨y, e2, L2, B2, h2, t2, -, -⟩ := balance_spec lk lv (node llk llv lll llr false)
              x' true (by simp [*]) L1 (by simp [*]) B1 (by simp [h1]; omega) (by simp [c1])
            refine ⟨y, ?_, L2, B2, ?_, by simp, ?_⟩
            · simp [deleteMax, hrl, moveRedRight_borrow, e1, e2]
            · simp [h2]
            · intro pre
              have := t1 (pre ++ (toList (node llk llv lll llr false) ++ [(lk, lv)]))
              simp [t2] at this ⊢
              exact this
        · obtain ⟨r', e1, L1, B1, h1, c1, t1⟩ := ih rk rv rl rr false
            (by simp; omega) hLrl hLrr (by simp [*]) (Or.inr (Or.inl ⟨rfl, hrl, hrrr⟩))
          obtain ⟨y, e2, L2, B2, h2, t2, -, -⟩ := balance_spec k v l r' true
            hLl L1 hBl B1 (by rw [h1]; exact hb) (by simp [c1, hl])
          refine ⟨y, ?_, L2, B2, ?_, by simp, ?_⟩
          · simp [deleteMax, hl, hrl, e1, e2]
          · simp [h2]
          · intro pre
            have := t1 (pre ++ (toList l ++ [(k, v)]))
            simp [t2] at this ⊢
            exact this
    · -- a black node with a red left child
      subst hc
      obtain ⟨lk, lv, ll, lr, hl'⟩ := isRed_true_elim l hl
      subst hl'
      rw [llrb_node] at hLl
      rw [balanced_node] at hBl
      obtain ⟨hLll, hLlr, hlrr, hlcl⟩ := hLl
      obtain ⟨hBll, hBlr, hlb⟩ := hBl
      simp only [size_node] at hs
      simp only [bh_node, if_true] at hb
      obtain ⟨x', e1, L1, B1, h1, -, t1⟩ := ih k v lr r true
        (by simp; omega) hLlr hLr (by simp [*]; omega) (Or.inl ⟨rfl, hlrr, hr⟩)
      obtain ⟨y, e2, L2, B2, h2, t2, -, c2⟩ := balance_spec lk lv ll x' false
        hLll L1 hBll B1 (by simp [h1]; omega) (by simp)
      refine ⟨y, ?_, L2, B2, ?_, fun _ => c2 rfl (Or.inl (hlcl rfl)), ?_⟩
      · simp [deleteMax, e1, e2]
      · simp [h2]
      · intro pre
        have := t1 (pre ++ (toList ll ++ [(lk, lv)]))
        simp [t2] at this ⊢
        exact this
    · -- a black node with a red right child
      subst hc
      obtain ⟨rk, rv, rl, rr, hr'⟩ := isRed_true_elim r hr
      subst hr'
      rw [llrb_node] at hLr
      rw [balanced_node] at hBr
      obtain ⟨hLrl, hLrr, hrrr, hrcl⟩ := hLr
      obtain ⟨hBrl, hBrr, hrb⟩ := hBr
      simp only [size_node] at hs
      obtain ⟨r', e1, L1, B1, h1, -, t1⟩ := ih rk rv rl rr true
        (by simp; omega) hLrl hLrr (by simp [*]) (Or.inl ⟨rfl, hrcl rfl, hrrr⟩)
      obtain ⟨y, e2, L2, B2, h2, t2, -, c2⟩ := balance_spec k v l r' false
        hLl L1 hBl B1 (by rw [h1]; exact hb) (by simp)
      refine ⟨y, ?_, L2, B2, ?_, fun _ => c2 rfl (Or.inl hl), ?_⟩
      · simp [deleteMax, hl, e1, e2]
      · simp [h2]
      · intro pre
        have := t1 (pre ++ (toList l ++ [(k, v)]))
        simp [t2] at this ⊢
        exact this

end deleteMax

/-! ## Deletion by key -/

section deleteKey

theorem mem_left_of_lt [LinearOrder K] (L R : List (K × V)) (k : K) (v : V) (key : K) (w : V)
    (h : (L ++ (k, v) :: R).Pairwise (fun a b => a.1 < b.1))
    (hm : (key, w) ∈ L ++ (k, v) :: R) (hk : key < k) : (key, w) ∈ L := by
  rw [List.pairwise_append, List.pairwise_cons] at h
  rcases List.mem_append.1 hm with hm | hm
  · exact hm
  · rcases List.mem_cons.1 hm with hm | hm
    · exact absurd hk (by rw [(Prod.mk.inj hm).1]; exact lt_irrefl _)
    · exact absurd (lt_trans (h.2.1.1 _ hm) hk) (lt_irrefl _)

theorem mem_right_of_ge [LinearOrder K] (L R : List (K × V)) (k : K) (v : V) (key : K) (w : V)
    (h : (L ++ (k, v) :: R).Pairwise (fun a b => a.1 < b.1))
    (hm : (key, w) ∈ L ++ (k, v) :: R) (hk : ¬ key < k) : (key, w) ∈ (k, v) :: R := by
  rw [List.pairwise_append, List.pairwise_cons] at h
  rcases List.mem_append.1 hm with hm | hm
  · exact absurd (h.2.2 _ hm (k, v) (List.mem_cons_self _ _)) hk
  · exact hm

theorem mem_right_of_gt [LinearOrder K] (L R : List (K × V)) (k : K) (v : V) (key : K) (w : V)
    (h : (L ++ (k, v) :: R).Pairwise (fun a b => a.1 < b.1))
    (hm : (key, w) ∈ L ++ (k, v) :: R) (hk : ¬ key < k) (hne : key ≠ k) : (key, w) ∈ R := by
  rcases List.mem_cons.1 (mem_right_of_ge L R k v key w h hm hk) with hm | hm
  · exact absurd (Prod.mk.inj hm).1 hne
  · exact hm

theorem eraseList_left [LinearOrder K] (L R : List (K × V)) (k : K) (v : V) (key : K) (w : V)
    (h : (L ++ (k, v) :: R).Pairwise (fun a b => a.1 < b.1)) (hm : (key, w) ∈ L) :
    eraseList key (L ++ (k, v) :: R) = eraseList key L ++ (k, v) :: R := by
  rw [List.pairwise_append, List.pairwise_cons] at h
  have hk : key < k := h.2.2 _ hm (k, v) (List.mem_cons_self _ _)
  have hR : R.filter (fun p => decide (p.1 ≠ key)) = R :=
    filter_eq_self_of _ _ (fun p hp => by
      have := lt_trans hk (h.2.1.1 p hp)
      simp [ne_of_gt this])
  unfold eraseList
  rw [List.filter_append, List.filter_cons, hR]
  simp [ne_of_gt hk]

theorem eraseList_right [LinearOrder K] (L R : List (K × V)) (k : K) (v : V) (key : K) (w : V)
    (h : (L ++ (k, v) :: R).Pairwise (fun a b => a.1 < b.1)) (hm : (key, w) ∈ R) :
    eraseList key (L ++ (k, v) :: R) = L ++ (k, v) :: eraseList key R := by
  rw [List.pairwise_append, List.pairwise_cons] at h
  have hk : k < key := h.2.1.1 _ hm
  have hL : L.filter (fun p => decide (p.1 ≠ key)) = L :=
    filter_eq_self_of _ _ (fun p hp => by
      have := lt_trans (h.2.2 p hp (k, v) (List.mem_cons_self _ _)) hk
      simp [ne_of_lt this])
  unfold eraseList
  rw [List.filter_append, List.filter_cons, hL]
  simp [ne_of_lt hk]

theorem eraseList_mid [LinearOrder K] (L R : List (K × V)) (key : K) (v : V)
    (h : (L ++ (key, v) :: R).Pairwise (fun a b => a.1 < b.1)) :
    eraseList key (L ++ (key, v) :: R) = L ++ R := by
  rw [List.pairwise_append, List.pairwise_cons] at h
  have hL : L.filter (fun p => decide (p.1 ≠ key)) = L :=
    filter_eq_self_of _ _ (fun p hp => by
      have := h.2.2 p hp (key, v) (List.mem_cons_self _ _)
      simp [ne_of_lt this])
  have hR : R.filter (fun p => decide (p.1 ≠ key)) = R :=
    filter_eq_self_of _ _ (fun p hp => by
      have := h.2.1.1 p hp
      simp [ne_of_gt this])
  unfold eraseList
  rw [List.filter_append, List.filter_cons, hL, hR]
  simp

/-- Method `min` on a non-nil subtree returns the node of the first in-order entry. -/
theorem min_toList (x : Node K V) (hx : x ≠ nil) :
    ∃ hk hv hl hr hc, min x = node hk hv hl hr hc ∧ toList x = (hk, hv) :: (toList x).tail := by
  induction x with
  | nil => exact absurd rfl hx
  | node k v l r c ihl _ =>
    cases l with
    | nil => exact ⟨k, v, nil, r, c, by simp [min], by simp⟩
    | node lk lv ll lr lc =>
      obtain ⟨hk, hv, hl, hr, hc, e, t⟩ := ihl (by simp)
      refine ⟨hk, hv, hl, hr, hc, ?_, ?_⟩
      · rw [← e]; simp [min]
      · rw [toList_node k v, t]; simp

end deleteKey
section deleteKeySpec

theorem erase_via_left [LinearOrder K] (X L R : List (K × V)) (k : K) (v : V) (key : K) (w : V)
    (hX : X.Pairwise (fun a b => a.1 < b.1)) (e : L ++ (k, v) :: R = X) (hm : (key, w) ∈ L) :
    eraseList key L ++ (k, v) :: R = eraseList key X := by
  subst e
  exact (eraseList_left L R k v key w hX hm).symm

theorem erase_via_right [LinearOrder K] (X L R : List (K × V)) (k : K) (v : V) (key : K) (w : V)
    (hX : X.Pairwise (fun a b => a.1 < b.1)) (e : L ++ (k, v) :: R = X) (hm : (key, w) ∈ R) :
    L ++ (k, v) :: eraseList key R = eraseList key X := by
  subst e
  exact (eraseList_right L R k v key w hX hm).symm

theorem erase_via_mid [LinearOrder K] (X L R : List (K × V)) (key : K) (v : V)
    (hX : X.Pairwise (fun a b => a.1 < b.1)) (e : L ++ (key, v) :: R = X) :
    L ++ R = eraseList key X := by
  subst e
  exact (eraseList_mid L R key v hX).symm

theorem pairwise_left_of [LinearOrder K] (X L R : List (K × V)) (k : K) (v : V)
    (hX : X.Pairwise (fun a b => a.1 < b.1)) (e : L ++ (k, v) :: R = X) :
    L.Pairwise (fun a b => a.1 < b.1) := by
  subst e
  exact (List.pairwise_append.1 hX).1

theorem pairwise_right_of [LinearOrder K] (X L R : List (K × V)) (k : K) (v : V)
    (hX : X.Pairwise (fun a b => a.1 < b.1)) (e : L ++ (k, v) :: R = X) :
    R.Pairwise (fun a b => a.1 < b.1) := by
  subst e
  exact (List.pairwise_cons.1 (List.pairwise_append.1 hX).2.1).2

theorem mem_right_via [LinearOrder K] (X L R : List (K × V)) (k : K) (v : V) (key : K) (w : V)
    (hX : X.Pairwise (fun a b => a.1 < b.1)) (e : L ++ (k, v) :: R = X)
    (hm : (key, w) ∈ X) (hk : ¬ key < k) (hne : key ≠ k) : (key, w) ∈ R := by
  subst e
  exact mem_right_of_gt L R k v key w hX hm hk hne

theorem head_cons_tail_eq {α : Type} (L T : List α) (a : α) (h : L = a :: L.tail)
    (hT : T = L.tail) : a :: T = L := by
  rw [hT]; exact h.symm

end deleteKeySpec
section deleteKeyMain

set_option maxHeartbeats 1600000 in
/-- Method `deleteKey` for a key the subtree holds, on a node of which exactly one of
itself and its two children is red (the right child only when the search does not go
left): no nil dereference, the red-black shape and black height are kept, and exactly the
entry of `key` leaves the in-order list. -/
theorem deleteKey_spec [LinearOrder K] (key : K) (fuel : Nat) : ∀ (k : K) (v : V) (l r : Node K V) (c : Bool),
    size (node k v l r c) ≤ fuel → Llrb l → Llrb r → Balanced (node k v l r c) →
    Ordered (node k v l r c) → (∃ w, (key, w) ∈ toList (node k v l r c)) →
    ((c = true ∧ isRed l = false ∧ isRed r = false)
      ∨ (c = false ∧ isRed l = true ∧ isRed r = false)
      ∨ (c = false ∧ isRed l = false ∧ isRed r = true ∧ ¬ key < k)) →
    ∃ y, deleteKey fuel (node k v l r c) key = .ok y ∧ Llrb y ∧ Balanced y
      ∧ bh y = bh (node k v l r c) ∧ (c = false → isRed y = false)
      ∧ toList y = eraseList key (toList (node k v l r c)) := by
  induction fuel with
  | zero => intro k v l r c hs; simp at hs
  | succ n ih =>
    intro k v l r c hs hLl hLr hB hO hmem hshape
    obtain ⟨w, hw⟩ := hmem
    have hX : (toList (node k v l r c)).Pairwise (fun a b => a.1 < b.1) := hO
    obtain ⟨hOl, hOr, hlk, hrk⟩ := (ordered_node k v l r c).1 hO
    rw [balanced_node] at hB
    obtain ⟨hBl, hBr, hb⟩ := hB
    simp only [size_node] at hs
    by_cases hk1 : key < k
    · -- the search goes left
      have hwl : (key, w) ∈ toList l := mem_left_of_lt _ _ k v key w hX hw hk1
      rcases l with _ | ⟨lk, lv, ll, lr, lc⟩
      · simp at hwl
      rw [llrb_node] at hLl
      rw [balanced_node] at hBl
      obtain ⟨hLll, hLlr, hlrr, hlcl⟩ := hLl
      obtain ⟨hBll, hBlr, hlb⟩ := hBl
      simp only [size_node] at hs
      rcases hshape with ⟨hc, hl, hr⟩ | ⟨hc, hl, hr⟩ | ⟨hc, hl, hr, hge⟩
      · subst hc
        simp only [isRed_node] at hl
        subst hl
        cases hll : isRed ll
        · obtain ⟨rk, rv, rl, rr, rc, hr'⟩ := ne_nil_of_bh_pos r (by rw [← hb]; simp)
          subst hr'
          simp only [isRed_node] at hr
          subst hr
          rw [llrb_node] at hLr
          rw [balanced_node] at hBr
          obtain ⟨hLrl, hLrr, hrrr, -⟩ := hLr
          obtain ⟨hBrl, hBrr, hrb⟩ := hBr
          simp only [bh_node, if_false, Bool.false_eq_true] at hb
          simp only [size_node] at hs
          cases hrl : isRed rl
          · have e : toList (node lk lv ll lr true) ++ (k, v) :: toList (node rk rv rl rr true)
                = toList (node k v (node lk lv ll lr false) (node rk rv rl rr false) true) := by
              simp
            obtain ⟨l', e1, L1, B1, h1, -, t1⟩ := ih lk lv ll lr true
              (by simp; omega) hLll hLlr (by simp [*]) (pairwise_left_of _ _ _ _ _ hX e)
              ⟨w, by simpa using hwl⟩ (Or.inl ⟨rfl, hll, hlrr⟩)
            obtain ⟨y, e2, L2, B2, h2, t2, -, -⟩ := balance_spec k v l' (node rk rv rl rr true) false
              L1 (by simp [*]) B1 (by simp [*]) (by simp [h1]; omega) (by simp)
            refine ⟨y, ?_, L2, B2, ?_, by simp, ?_⟩
            · simp [deleteKey, hk1, hll, moveRedLeft_simple _ _ _ _ _ _ _ _ _ _ _ _ _ hrl, e1, e2]
            · simp [h2, h1]
            · rw [t2, toList_node, t1]
              exact erase_via_left _ _ _ k v key w hX e (by simpa using hwl)
          · obtain ⟨rlk, rlv, rll, rlr, hrl'⟩ := isRed_true_elim rl hrl
            subst hrl'
            rw [llrb_node] at hLrl
            rw [balanced_node] at hBrl
            obtain ⟨hLrll, hLrlr, hrlrr, hrlcl⟩ := hLrl
            obtain ⟨hBrll, hBrlr, hrlb⟩ := hBrl
            simp only [size_node] at hs
            simp only [bh_node, if_true] at hb hrb
            have e : toList (node k v (node lk lv ll lr true) rll false)
                  ++ (rlk, rlv) :: toList (node rk rv rlr rr false)
                = toList (node k v (node lk lv ll lr false)
                    (node rk rv (node rlk rlv rll rlr true) rr false) true) := by
              simp
            have hsub := pairwise_left_of _ _ _ _ _ hX e
            obtain ⟨x', e1, L1, B1, h1, c1, t1⟩ := ih k v (node lk lv ll lr true) rll false
              (by simp; omega) (by simp [*]) hLrll (by simp [*]; omega) hsub
              ⟨w, by simp at hwl ⊢; tauto⟩ (Or.inr (Or.inl ⟨rfl, by simp, hrlcl rfl⟩))
            obtain ⟨y, e2, L2, B2, h2, t2, -, -⟩ := balance_spec rlk rlv x'
              (node rk rv rlr rr false) true L1 (by simp [*]) B1 (by simp [*]; omega)
              (by simp [h1]; omega) (by simp [c1])
            refine ⟨y, ?_, L2, B2, ?_, by simp, ?_⟩
            · simp [deleteKey, hk1, hll, moveRedLeft_borrow, e1, e2]
            · simp [h2, h1]
            · rw [t2, toList_node, t1]
              exact erase_via_left _ _ _ rlk rlv key w hX e (by simp at hwl ⊢; tauto)
        · have e : toList (node lk lv ll lr false) ++ (k, v) :: toList r
              = toList (node k v (node lk lv ll lr false) r true) := by
            simp
          obtain ⟨l', e1, L1, B1, h1, c1, t1⟩ := ih lk lv ll lr false
            (by simp; omega) hLll hLlr (by simp [*]) hOl ⟨w, hwl⟩
            (Or.inr (Or.inl ⟨rfl, hll, hlrr⟩))
          obtain ⟨y, e2, L2, B2, h2, t2, -, -⟩ := balance_spec k v l' r true
            L1 hLr B1 hBr (by rw [h1]; exact hb) (by simp [c1, hr])
          refine ⟨y, ?_, L2, B2, ?_, by simp, ?_⟩
          · simp [deleteKey, hk1, hll, e1, e2]
          · simp [h2, h1]
          · rw [t2, toList_node, t1]
            exact erase_via_left _ _ _ k v key w hX e hwl
      · subst hc
        simp only [isRed_node] at hl
        subst hl
        have e : toList (node lk lv ll lr true) ++ (k, v) :: toList r
            = toList (node k v (node lk lv ll lr true) r false) := by
          simp
        obtain ⟨l', e1, L1, B1, h1, -, t1⟩ := ih lk lv ll lr true
          (by simp; omega) hLll hLlr (by simp [*]) hOl ⟨w, hwl⟩
          (Or.inl ⟨rfl, hlcl rfl, hlrr⟩)
        obtain ⟨y, e2, L2, B2, h2, t2, -, c2⟩ := balance_spec k v l' r false
          L1 hLr B1 hBr (by rw [h1]; exact hb) (by simp)
        refine ⟨y, ?_, L2, B2, ?_, fun _ => c2 rfl (Or.inr hr), ?_⟩
        · simp [deleteKey, hk1, e1, e2]
        · simp [h2, h1]
        · rw [t2, toList_node, t1]
          exact erase_via_left _ _ _ k v key w hX e hwl
      · exact absurd hk1 hge
    · -- the search stays here or goes right
      have hwr : (key, w) ∈ (k, v) :: toList r := mem_right_of_ge _ _ k v key w hX hw hk1
      rcases hshape with ⟨hc, hl, hr⟩ | ⟨hc, hl, hr⟩ | ⟨hc, hl, hr, -⟩
      · -- a red node
        subst hc
        rcases r with _ | ⟨rk, rv, rl, rr, rc⟩
        · have hl' : l = nil := eq_nil_of_bh_zero l hl (by simpa using hb)
          subst hl'
          have hke : key = k := by
            simp at hwr
            exact hwr.1
          subst hke
          refine ⟨nil, by simp [deleteKey], by simp, by simp, by simp, by simp, ?_⟩
          simp [eraseList]
        · simp only [isRed_node] at hr
          subst hr
          rw [llrb_node] at hLr
          rw [balanced_node] at hBr
          obtain ⟨hLrl, hLrr, hrrr, -⟩ := hLr
          obtain ⟨hBrl, hBrr, hrb⟩ := hBr
          simp only [size_node] at hs
          cases hrl : isRed rl
          · obtain ⟨lk, lv, ll, lr, lc, hl'⟩ := ne_nil_of_bh_pos l (by rw [hb]; simp)
            subst hl'
            simp only [isRed_node] at hl
            subst hl
            rw [llrb_node] at hLl
            rw [balanced_node] at hBl
            obtain ⟨hLll, hLlr, hlrr, -⟩ := hLl
            obtain ⟨hBll, hBlr, hlb⟩ := hBl
            simp only [bh_node, if_false, Bool.false_eq_true] at hb
            simp only [size_node] at hs
            cases hll : isRed ll
            · have e : toList (node lk lv ll lr true) ++ (k, v) :: toList (node rk rv rl rr true)
                  = toList (node k v (node lk lv ll lr false) (node rk rv rl rr false) true) := by
                simp
              by_cases hke : key = k
              · subst hke
                obtain ⟨r', e1, L1, B1, h1, -, t1⟩ := deleteMin_spec n rk rv rl rr true
                  (by simp; omega) (by simp [*]) (by simp [*]) (Or.inl rfl)
                obtain ⟨mk, mv, ml, mr, mc, em, tm⟩ := min_toList (node rk rv rl rr true) (by simp)
                obtain ⟨y, e2, L2, B2, h2, t2, -, -⟩ := balance_spec mk mv (node lk lv ll lr true) r'
                  false (by simp [*]) L1 (by simp [*]) B1 (by simp [h1]; omega) (by simp)
                refine ⟨y, ?_, L2, B2, ?_, by simp, ?_⟩
                · simp [deleteKey, hrl, moveRedRight_simple _ _ _ _ _ _ _ _ _ _ _ _ _ hll,
                    em, e1, e2]
                · simp [h2]
                · rw [t2, toList_node,
                    head_cons_tail_eq _ _ _ tm (by simpa using t1 [])]
                  exact erase_via_mid _ _ _ key v hX e
              · obtain ⟨r', e1, L1, B1, h1, -, t1⟩ := ih rk rv rl rr true
                  (by simp; omega) hLrl hLrr (by simp [*]) (pairwise_right_of _ _ _ _ _ hX e)
                  ⟨w, by simpa [hke] using hwr⟩ (Or.inl ⟨rfl, hrl, hrrr⟩)
                obtain ⟨y, e2, L2, B2, h2, t2, -, -⟩ := balance_spec k v (node lk lv ll lr true) r'
                  false (by simp [*]) L1 (by simp [*]) B1 (by simp [h1]; omega) (by simp)
                refine ⟨y, ?_, L2, B2, ?_, by simp, ?_⟩
                · simp [deleteKey, hk1, hke, hrl,
                    moveRedRight_simple _ _ _ _ _ _ _ _ _ _ _ _ _ hll, e1, e2]
                · simp [h2]
                · rw [t2, toList_node, t1]
                  exact erase_via_right _ _ _ k v key w hX e (by simpa [hke] using hwr)
            · obtain ⟨llk, llv, lll, llr, hll'⟩ := isRed_true_elim ll hll
              subst hll'
              rw [llrb_node] at hLll
              rw [balanced_node] at hBll
              obtain ⟨hLlll, hLllr, hllrr, hllcl⟩ := hLll
              obtain ⟨hBlll, hBllr, hllb⟩ := hBll
              simp only [size_node] at hs
              simp only [bh_node, if_true] at hb hlb
              have hlkk : lk < k := hlk (lk, lv) (by simp)
              have hne : key ≠ lk := fun h => hk1 (h ▸ hlkk)
              have e : toList (node llk llv lll llr false)
                    ++ (lk, lv) :: toList (node k v lr (node rk rv rl rr true) false)
                  = toList (node k v (node lk lv (node llk llv lll llr true) lr false)
                      (node rk rv rl rr false) true) := by
                simp
              obtain ⟨x', e1, L1, B1, h1, c1, t1⟩ := ih k v lr (node rk rv rl rr true) false
                (by simp; omega) hLlr (by simp [*]) (by simp [*]; omega)
                (pairwise_right_of _ _ _ _ _ hX e)
                ⟨w, by simp at hwr ⊢; tauto⟩ (Or.inr (Or.inr ⟨rfl, hlrr, rfl, hk1⟩))
              obtain ⟨y, e2, L2, B2, h2, t2, -, -⟩ := balance_spec lk lv
                (node llk llv lll llr false) x' true (by simp [*]) L1 (by simp [*]) B1
                (by simp [h1]; omega) (by simp [c1])
              refine ⟨y, ?_, L2, B2, ?_, by simp, ?_⟩
              · simp [deleteKey, hk1, hne, hrl, moveRedRight_borrow, e1, e2]
              · simp [h2]
              · rw [t2, toList_node, t1]
                exact erase_via_right _ _ _ lk lv key w hX e (by simp at hwr ⊢; tauto)
          · have e : toList l ++ (k, v) :: toList (node rk rv rl rr false)
                = toList (node k v l (node rk rv rl rr false) true) := by
              simp
            by_cases hke : key = k
            · subst hke
              obtain ⟨r', e1, L1, B1, h1, c1, t1⟩ := deleteMin_spec n rk rv rl rr false
                (by simp; omega) (by simp [*]) (by simp [*]) (Or.inr hrl)
              obtain ⟨mk, mv, ml, mr, mc, em, tm⟩ := min_toList (node rk rv rl rr false) (by simp)
              obtain ⟨y, e2, L2, B2, h2, t2, -, -⟩ := balance_spec mk mv l r'
                true hLl L1 hBl B1 (by rw [h1]; exact hb) (by simp [c1, hl])
              refine ⟨y, ?_, L2, B2, ?_, by simp, ?_⟩
              · simp [deleteKey, hl, hrl, em, e1, e2]
              · simp [h2]
              · rw [t2, toList_node,
                  head_cons_tail_eq _ _ _ tm (by simpa using t1 [])]
                exact erase_via_mid _ _ _ key v hX e
            · obtain ⟨r', e1, L1, B1, h1, c1, t1⟩ := ih rk rv rl rr false
                (by simp; omega) hLrl hLrr (by simp [*]) hOr
                ⟨w, by simpa [hke] using hwr⟩ (Or.inr (Or.inl ⟨rfl, hrl, hrrr⟩))
              obtain ⟨y, e2, L2, B2, h2, t2, -, -⟩ := balance_spec k v l r'
                true hLl L1 hBl B1 (by rw [h1]; exact hb) (by simp [c1, hl])
              refine ⟨y, ?_, L2, B2, ?_, by simp, ?_⟩
              · simp [deleteKey, hk1, hke, hl, hrl, e1, e2]
              · simp [h2]
              · rw [t2, toList_node, t1]
                exact erase_via_right _ _ _ k v key w hX e (by simpa [hke] using hwr)
      · -- a black node with a red left child
        subst hc
        obtain ⟨lk, lv, ll, lr, hl'⟩ := isRed_true_elim l hl
        subst hl'
        rw [llrb_node] at hLl
        rw [balanced_node] at hBl
        obtain ⟨hLll, hLlr, hlrr, hlcl⟩ := hLl
        obtain ⟨hBll, hBlr, hlb⟩ := hBl
        simp only [size_node] at hs
        simp only [bh_node, if_true] at hb
        have hlkk : lk < k := hlk (lk, lv) (by simp)
        have hne : key ≠ lk := fun h => hk1 (h ▸ hlkk)
        have e : toList ll ++ (lk, lv) :: toList (node k v lr r true)
            = toList (node k v (node lk lv ll lr true) r false) := by
          simp
        obtain ⟨x', e1, L1, B1, h1, -, t1⟩ := ih k v lr r true
          (by simp; omega) hLlr hLr (by simp [*]; omega) (pairwise_right_of _ _ _ _ _ hX e)
          ⟨w, by simp at hwr ⊢; tauto⟩ (Or.inl ⟨rfl, hlrr, hr⟩)
        obtain ⟨y, e2, L2, B2, h2, t2, -, c2⟩ := balance_spec lk lv ll x' false
          hLll L1 hBll B1 (by simp [h1]; omega) (by simp)
        refine ⟨y, ?_, L2, B2, ?_, fun _ => c2 rfl (Or.inl (hlcl rfl)), ?_⟩
        · simp [deleteKey, hk1, hne, e1, e2]
        · simp [h2]
        · rw [t2, toList_node, t1]
          exact erase_via_right _ _ _ lk lv key w hX e (by simp at hwr ⊢; tauto)
      · -- a black node with a red right child
        subst hc
        obtain ⟨rk, rv, rl, rr, hr'⟩ := isRed_true_elim r hr
        subst hr'
        rw [llrb_node] at hLr
        rw [balanced_node] at hBr
        obtain ⟨hLrl, hLrr, hrrr, hrcl⟩ := hLr
        obtain ⟨hBrl, hBrr, hrb⟩ := hBr
        simp only [size_node] at hs
        have e : toList l ++ (k, v) :: toList (node rk rv rl rr true)
            = toList (node k v l (node rk rv rl rr true) false) := by
          simp
        by_cases hke : key = k
        · subst hke
          obtain ⟨r', e1, L1, B1, h1, -, t1⟩ := deleteMin_spec n rk rv rl rr true
            (by simp; omega) (by simp [*]) (by simp [*]) (Or.inl rfl)
          obtain ⟨mk, mv, ml, mr, mc, em, tm⟩ := min_toList (node rk rv rl rr true) (by simp)
          obtain ⟨y, e2, L2, B2, h2, t2, -, c2⟩ := balance_spec mk mv l r'
            false hLl L1 hBl B1 (by rw [h1]; exact hb) (by simp)
          refine ⟨y, ?_, L2, B2, ?_, fun _ => c2 rfl (Or.inl hl), ?_⟩
          · simp [deleteKey, hl, em, e1, e2]
          · simp [h2]
          · rw [t2, toList_node,
              head_cons_tail_eq _ _ _ tm (by simpa using t1 [])]
            exact erase_via_mid _ _ _ key v hX e
        · obtain ⟨r', e1, L1, B1, h1, -, t1⟩ := ih rk rv rl rr true
            (by simp; omega) hLrl hLrr (by simp [*]) hOr
            ⟨w, by simpa [hke] using hwr⟩ (Or.inl ⟨rfl, hrcl rfl, hrrr⟩)
          obtain ⟨y, e2, L2, B2, h2, t2, -, c2⟩ := balance_spec k v l r'
            false hLl L1 hBl B1 (by rw [h1]; exact hb) (by simp)
          refine ⟨y, ?_, L2, B2, ?_, fun _ => c2 rfl (Or.inl hl), ?_⟩
          · simp [deleteKey, hk1, hke, hl, e1, e2]
          · simp [h2]
          · rw [t2, toList_node, t1]
            exact erase_via_right _ _ _ k v key w hX e (by simpa [hke] using hwr)

end deleteKeyMain

/-! ## The public operations -/

section publicOps

open RedBlackTree

theorem root_cases [LinearOrder K] (t : RedBlackTree K V) (h : Inv t) :
    t.root = nil ∨ ∃ k v l r, t.root = node k v l r false := by
  obtain ⟨-, -, -, hr⟩ := h
  cases ht : t.root with
  | nil => exact Or.inl rfl
  | node k v l r c =>
    rw [ht] at hr
    simp at hr
    subst hr
    exact Or.inr ⟨k, v, l, r, rfl⟩

theorem inv_empty [LinearOrder K] : Inv (NewRedBlackTree : RedBlackTree K V) := by
  simp [Inv, NewRedBlackTree]

/-- Method `Put` on a valid tree: it returns a valid tree holding the upserted list. -/
theorem Put_spec [LinearOrder K] (t : RedBlackTree K V) (h : Inv t) (key : K) (value : V) :
    ∃ t', Put t key value = .ok t' ∧ Inv t'
      ∧ toList t'.root = insList key value (toList t.root) := by
  obtain ⟨hO, hL, hB, hR⟩ := h
  obtain ⟨y, e1, hn, t1⟩ := put_toList t.root key value hO
  obtain ⟨y', e1', A1, B1, -, L1⟩ := put_spec t.root key value hL hB
  rw [e1] at e1'
  cases e1'
  cases y with
  | nil => exact absurd rfl hn
  | node k v l r c =>
    have hL1 := L1 hR
    rw [llrb_node] at hL1
    rw [balanced_node] at B1
    refine ⟨⟨node k v l r false⟩, by simp [Put, e1], ⟨?_, ?_, ?_, by simp⟩, by simpa using t1⟩
    · have : Ordered (node k v l r c) := by
        unfold Ordered
        rw [t1]
        exact pairwise_insList key value _ hO
      exact this
    · simp [hL1.1, hL1.2.1, hL1.2.2.1]
    · simp [B1.1, B1.2.1, B1.2.2]

theorem llrb_blacken (k : K) (v : V) (l r : Node K V) (c : Bool) (h : Llrb (node k v l r c)) :
    Llrb (node k v l r false) := by
  rw [llrb_node] at h ⊢
  exact ⟨h.1, h.2.1, h.2.2.1, by simp⟩

/-- The last step of the three deletions: a non-nil root is colored black. -/
theorem blacken_inv [LinearOrder K] (y : Node K V) (hO : Ordered y) (hL : Llrb y) (hB : Balanced y) :
    ∃ y', (if (!y.isNil) = true then y.setColor BLACK else Except.ok y) = .ok y'
      ∧ Inv ⟨y'⟩ ∧ toList y' = toList y := by
  cases y with
  | nil => exact ⟨nil, by simp, by simp [Inv], rfl⟩
  | node k v l r c =>
    refine ⟨node k v l r false, by simp, ⟨hO, llrb_blacken k v l r c hL, ?_, by simp⟩, by simp⟩
    rw [balanced_node] at hB ⊢
    exact hB

theorem contains_iff [LinearOrder K] (t : RedBlackTree K V) (hO : Ordered t.root) (key : K) :
    Contains t key = true ↔ ∃ w, (key, w) ∈ toList t.root := by
  unfold Contains Get
  cases hg : getFrom t.root key with
  | none =>
    simp only [Option.isNone_none, Bool.not_true, Bool.false_eq_true, false_iff]
    rintro ⟨w, hw⟩
    exact (getFrom_eq_none_iff t.root hO key).1 hg w hw
  | some w =>
    simp only [Option.isNone_some, Bool.not_false, true_iff]
    exact ⟨w, (getFrom_eq_some_iff t.root hO key w).1 hg⟩

theorem eraseList_absent [LinearOrder K] (key : K) (L : List (K × V)) (h : ∀ w, (key, w) ∉ L) :
    eraseList key L = L := by
  unfold eraseList
  apply filter_eq_self_of
  intro p hp
  simp only [ne_eq, decide_not, Bool.not_eq_true', decide_eq_false_iff_not]
  intro hk
  exact h p.2 (by rw [← hk]; exact hp)

/-- Method `Delete` on a valid tree: it returns a valid tree without the entry of `key`. -/
theorem Delete_spec [LinearOrder K] (t : RedBlackTree K V) (h : Inv t) (key : K) :
    ∃ t', Delete t key = .ok t' ∧ Inv t'
      ∧ toList t'.root = eraseList key (toList t.root) := by
  by_cases hc : Contains t key = true
  · obtain ⟨hO, hL, hB, hR⟩ := h
    have hmem := (contains_iff t hO key).1 hc
    obtain ⟨root⟩ := t
    simp only at hO hL hB hR hmem
    cases root with
    | nil => obtain ⟨w, hw⟩ := hmem; simp at hw
    | node k v l r c =>
      simp only [isRed_node] at hR
      subst hR
      rw [llrb_node] at hL
      obtain ⟨hLl, hLr, hrr, -⟩ := hL
      cases hl : isRed l
      · obtain ⟨y, e1, L1, B1, -, -, t1⟩ := deleteKey_spec key (size (node k v l r true))
          k v l r true (le_refl _) hLl hLr (by simpa using hB) hO hmem (Or.inl ⟨rfl, hl, hrr⟩)
        have hOy : Ordered y := by
          unfold Ordered
          rw [t1]
          exact pairwise_eraseList key _ hO
        obtain ⟨y', e2, I2, t2⟩ := blacken_inv y hOy L1 B1
        refine ⟨⟨y'⟩, ?_, I2, by rw [t2, t1]; rfl⟩
        simp only [size_node] at e1
        cases y <;> (simp at e2; subst e2; simp [Delete, isEmpty, hc, hl, hrr, e1])
      · obtain ⟨y, e1, L1, B1, -, -, t1⟩ := deleteKey_spec key (size (node k v l r false))
          k v l r false (le_refl _) hLl hLr hB hO hmem (Or.inr (Or.inl ⟨rfl, hl, hrr⟩))
        have hOy : Ordered y := by
          unfold Ordered
          rw [t1]
          exact pairwise_eraseList key _ hO
        obtain ⟨y', e2, I2, t2⟩ := blacken_inv y hOy L1 B1
        refine ⟨⟨y'⟩, ?_, I2, by rw [t2, t1]⟩
        simp only [size_node] at e1
        cases y <;> (simp at e2; subst e2; simp [Delete, isEmpty, hc, hl, e1])
  · refine ⟨t, by simp [Delete, hc], h, ?_⟩
    rw [eraseList_absent]
    intro w hw
    exact hc ((contains_iff t h.1 key).2 ⟨w, hw⟩)

/-- Method `DeleteMin` on a valid tree: it returns a valid tree without the first entry. -/
theorem DeleteMin_spec [LinearOrder K] (t : RedBlackTree K V) (h : Inv t) :
    ∃ t', DeleteMin t = .ok t' ∧ Inv t' ∧ toList t'.root = (toList t.root).tail := by
  obtain ⟨hO, hL, hB, hR⟩ := h
  obtain ⟨root⟩ := t
  simp only at hO hL hB hR
  cases root with
  | nil => exact ⟨⟨nil⟩, by simp [DeleteMin, isEmpty], by simp [Inv], by simp⟩
  | node k v l r c =>
    simp only [isRed_node] at hR
    subst hR
    have hL' := hL
    rw [llrb_node] at hL
    obtain ⟨hLl, hLr, hrr, -⟩ := hL
    cases hl : isRed l
    · obtain ⟨y, e1, L1, B1, -, -, t1⟩ := deleteMin_spec (size (node k v l r true))
        k v l r true (le_refl _) (by simp [*]) (by simpa using hB) (Or.inl rfl)
      have t1' : toList y = (toList (node k v l r true)).tail := by simpa using t1 []
      have hOy : Ordered y := by
        unfold Ordered
        rw [t1']
        exact List.Pairwise.sublist (List.tail_sublist _) hO
      obtain ⟨y', e2, I2, t2⟩ := blacken_inv y hOy L1 B1
      refine ⟨⟨y'⟩, ?_, I2, by rw [t2, t1']; rfl⟩
      simp only [size_node] at e1
      cases y <;> (simp at e2; subst e2; simp [DeleteMin, isEmpty, hl, hrr, e1])
    · obtain ⟨y, e1, L1, B1, -, -, t1⟩ := deleteMin_spec (size (node k v l r false))
        k v l r false (le_refl _) hL' hB (Or.inr hl)
      have t1' : toList y = (toList (node k v l r false)).tail := by simpa using t1 []
      have hOy : Ordered y := by
        unfold Ordered
        rw [t1']
        exact List.Pairwise.sublist (List.tail_sublist _) hO
      obtain ⟨y', e2, I2, t2⟩ := blacken_inv y hOy L1 B1
      refine ⟨⟨y'⟩, ?_, I2, by rw [t2, t1']⟩
      simp only [size_node] at e1
      cases y <;> (simp at e2; subst e2; simp [DeleteMin, isEmpty, hl, e1])

/-- Method `DeleteMax` on a valid tree: it returns a valid tree without the last entry. -/
theorem DeleteMax_spec [LinearOrder K] (t : RedBlackTree K V) (h : Inv t) :
    ∃ t', DeleteMax t = .ok t' ∧ Inv t' ∧ toList t'.root = (toList t.root).dropLast := by
  obtain ⟨hO, hL, hB, hR⟩ := h
  obtain ⟨root⟩ := t
  simp only at hO hL hB hR
  cases root with
  | nil => exact ⟨⟨nil⟩, by simp [DeleteMax, isEmpty], by simp [Inv], by simp⟩
  | node k v l r c =>
    simp only [isRed_node] at hR
    subst hR
    rw [llrb_node] at hL
    obtain ⟨hLl, hLr, hrr, -⟩ := hL
    cases hl : isRed l
    · obtain ⟨y, e1, L1, B1, -, -, t1⟩ := deleteMax_spec (size (node k v l r true))
        k v l r true (le_refl _) hLl hLr (by simpa using hB) (Or.inl ⟨rfl, hl, hrr⟩)
      have t1' : toList y = (toList (node k v l r true)).dropLast := by simpa using t1 []
      have hOy : Ordered y := by
        unfold Ordered
        rw [t1']
        exact List.Pairwise.sublist (List.dropLast_sublist _) hO
      obtain ⟨y', e2, I2, t2⟩ := blacken_inv y hOy L1 B1
      refine ⟨⟨y'⟩, ?_, I2, by rw [t2, t1']; rfl⟩
      simp only [size_node] at e1
      cases y <;> (simp at e2; subst e2; simp [DeleteMax, isEmpty, hl, hrr, e1])
    · obtain ⟨y, e1, L1, B1, -, -, t1⟩ := deleteMax_spec (size (node k v l r false))
        k v l r false (le_refl _) hLl hLr hB (Or.inr (Or.inl ⟨rfl, hl, hrr⟩))
      have t1' : toList y = (toList (node k v l r false)).dropLast := by simpa using t1 []
      have hOy : Ordered y := by
        unfold Ordered
        rw [t1']
        exact List.Pairwise.sublist (List.dropLast_sublist _) hO
      obtain ⟨y', e2, I2, t2⟩ := blacken_inv y hOy L1 B1
      refine ⟨⟨y'⟩, ?_, I2, by rw [t2, t1']⟩
      simp only [size_node] at e1
      cases y <;> (simp at e2; subst e2; simp [DeleteMax, isEmpty, hl, e1])

/-- Every tree built by the public operations satisfies the invariant. -/
theorem reachable_inv [LinearOrder K] (t : RedBlackTree K V) (h : Reachable t) : Inv t := by
  induction h with
  | empty => exact inv_empty
  | put t t' key value _ e ih =>
    obtain ⟨t'', e', I, -⟩ := Put_spec t ih key value
    rw [e] at e'
    cases e'
    exact I
  | delete t t' key _ e ih =>
    obtain ⟨t'', e', I, -⟩ := Delete_spec t ih key
    rw [e] at e'
    cases e'
    exact I
  | deleteMin t t' _ e ih =>
    obtain ⟨t'', e', I, -⟩ := DeleteMin_spec t ih
    rw [e] at e'
    cases e'
    exact I
  | deleteMax t t' _ e ih =>
    obtain ⟨t'', e', I, -⟩ := DeleteMax_spec t ih
    rw [e] at e'
    cases e'
    exact I

end publicOps

/-! ## Auxiliary facts for the contract -/

section aux

open RedBlackTree

theorem holds_iff_mem (x : Node K V) (key : K) (value : V) :
    x.Holds key value ↔ (key, value) ∈ toList x := by
  induction x with
  | nil => simp [Node.Holds]
  | node k v l r c ihl ihr =>
    simp only [Node.Holds, ihl, ihr, toList_node, List.mem_append, List.mem_cons,
      Prod.mk.injEq]
    constructor
    · rintro (⟨h1, h2⟩ | h | h)
      · exact Or.inr (Or.inl ⟨h1.symm, h2.symm⟩)
      · exact Or.inl h
      · exact Or.inr (Or.inr h)
    · rintro (h | ⟨h1, h2⟩ | h)
      · exact Or.inr (Or.inl h)
      · exact Or.inl ⟨h1.symm, h2.symm⟩
      · exact Or.inr (Or.inr h)

/-- On any tree, ordered or not, `Get` only returns what some node holds. -/
theorem getFrom_holds [LinearOrder K] (x : Node K V) (key : K) (w : V) (h : getFrom x key = some w) :
    x.Holds key w := by
  induction x with
  | nil => simp [getFrom] at h
  | node k v l r c ihl ihr =>
    simp only [getFrom] at h
    by_cases h1 : k > key
    · rw [if_pos h1] at h
      exact Or.inr (Or.inl (ihl h))
    · rw [if_neg h1] at h
      by_cases h2 : k < key
      · rw [if_pos h2] at h
        exact Or.inr (Or.inr (ihr h))
      · rw [if_neg h2] at h
        have hk : k = key := le_antisymm (not_lt.1 h1) (not_lt.1 h2)
        exact Or.inl ⟨hk, Option.some.inj h⟩

/-- Method `max` on a non-nil subtree returns the node of the last in-order entry. -/
theorem max_toList (x : Node K V) (hx : x ≠ nil) :
    ∃ hk hv hl hr hc, max x = node hk hv hl hr hc
      ∧ toList x = (toList x).dropLast ++ [(hk, hv)] := by
  induction x with
  | nil => exact absurd rfl hx
  | node k v l r c _ ihr =>
    cases r with
    | nil => exact ⟨k, v, l, nil, c, by simp [max], by simp⟩
    | node rk rv rl rr rc =>
      obtain ⟨hk, hv, hl, hr, hc, e, t⟩ := ihr (by simp)
      refine ⟨hk, hv, hl, hr, hc, ?_, ?_⟩
      · rw [← e]; simp [max]
      · rw [toList_node k v]
        generalize toList (node rk rv rl rr rc) = R at t
        have e2 : toList l ++ (k, v) :: R
            = (toList l ++ (k, v) :: R.dropLast) ++ [(hk, hv)] := by
          rw [List.append_assoc, List.cons_append, ← t]
        calc toList l ++ (k, v) :: R
            = (toList l ++ (k, v) :: R.dropLast) ++ [(hk, hv)] := e2
          _ = ((toList l ++ (k, v) :: R.dropLast) ++ [(hk, hv)]).dropLast ++ [(hk, hv)] := by
              rw [dropLast_append_singleton]
          _ = (toList l ++ (k, v) :: R).dropLast ++ [(hk, hv)] := by rw [← e2]

theorem isEmpty_false_iff (t : RedBlackTree K V) : t.isEmpty = false ↔ toList t.root ≠ [] := by
  unfold isEmpty
  cases t.root <;> simp

theorem root_nil_iff (t : RedBlackTree K V) : t.root = nil ↔ toList t.root = [] :=
  (toList_eq_nil_iff t.root).symm

theorem length_insList_absent [LinearOrder K] (key : K) (value : V) (L : List (K × V))
    (h : ∀ p ∈ L, p.1 ≠ key) : (insList key value L).length = L.length + 1 := by
  induction L with
  | nil => simp [insList]
  | cons a t ih =>
    have ha : a.1 ≠ key := h a (List.mem_cons_self _ _)
    have iht := ih (fun p hp => h p (List.mem_cons_of_mem _ hp))
    simp only [insList, List.length_append, List.length_cons] at iht ⊢
    rcases lt_or_gt_of_ne ha with hlt | hgt
    · have h2 : ¬ key < a.1 := not_lt.2 (le_of_lt hlt)
      simp only [List.filter_cons, hlt, h2, decide_True, decide_False, if_true, if_false,
        List.length_cons, Bool.false_eq_true]
      omega
    · have h2 : ¬ a.1 < key := not_lt.2 (le_of_lt hgt)
      simp only [List.filter_cons, hgt, h2, decide_True, decide_False, if_true, if_false,
        List.length_cons, Bool.false_eq_true]
      omega

/-- A run of `Put` on a valid tree succeeds and folds the upserts over the in-order list. -/
theorem PutAll_spec [LinearOrder K] (kvs : List (K × V)) : ∀ (t : RedBlackTree K V), Inv t →
    ∃ t', PutAll t kvs = .ok t' ∧ Inv t'
      ∧ toList t'.root = kvs.foldl (fun L p => insList p.1 p.2 L) (toList t.root) := by
  induction kvs with
  | nil => intro t h; exact ⟨t, rfl, h, rfl⟩
  | cons p rest ih =>
    intro t h
    obtain ⟨t1, e1, I1, l1⟩ := Put_spec t h p.1 p.2
    obtain ⟨t2, e2, I2, l2⟩ := ih t1 I1
    exact ⟨t2, by simp [PutAll, e1, e2], I2, by rw [l2, l1]; rfl⟩

theorem foldl_insList_mem [LinearOrder K] (kvs : List (K × V)) : ∀ (L : List (K × V)) (key : K),
    (∃ w, (key, w) ∈ kvs.foldl (fun L p => insList p.1 p.2 L) L)
      ↔ (∃ w, (key, w) ∈ L) ∨ key ∈ kvs.map Prod.fst := by
  induction kvs with
  | nil => intro L key; simp
  | cons p rest ih =>
    intro L key
    simp only [List.foldl_cons, List.map_cons, List.mem_cons]
    rw [ih]
    constructor
    · rintro (⟨w, hw⟩ | h)
      · rcases (mem_insList p.1 p.2 L (key, w)).1 hw with h | ⟨h, -⟩
        · exact Or.inr (Or.inl (Prod.mk.inj h).1)
        · exact Or.inl ⟨w, h⟩
      · exact Or.inr (Or.inr h)
    · rintro (⟨w, hw⟩ | h | h)
      · by_cases hk : key = p.1
        · exact Or.inl ⟨p.2, (mem_insList p.1 p.2 L (key, p.2)).2 (Or.inl (by rw [hk]))⟩
        · exact Or.inl ⟨w, (mem_insList p.1 p.2 L (key, w)).2 (Or.inr ⟨hw, hk⟩)⟩
      · exact Or.inl ⟨p.2, (mem_insList p.1 p.2 L (key, p.2)).2 (Or.inl (by rw [h]))⟩
      · exact Or.inr h

theorem foldl_insList_length [LinearOrder K] (kvs : List (K × V)) : ∀ (L : List (K × V)),
    (kvs.map Prod.fst).Nodup → (∀ p ∈ L, p.1 ∉ kvs.map Prod.fst) →
    (kvs.foldl (fun L p => insList p.1 p.2 L) L).length = L.length + kvs.length := by
  induction kvs with
  | nil => intro L _ _; simp
  | cons p rest ih =>
    intro L hnd hdis
    simp only [List.map_cons, List.nodup_cons] at hnd
    simp only [List.foldl_cons, List.length_cons]
    rw [ih (insList p.1 p.2 L) hnd.2]
    · rw [length_insList_absent p.1 p.2 L]
      · omega
      · intro q hq hk
        exact hdis q hq (by simp [hk])
    · intro q hq
      rcases (mem_insList p.1 p.2 L q).1 hq with h | ⟨h, -⟩
      · rw [h]; exact hnd.1
      · intro hin
        exact hdis q h (by simp [hin])

/-- A run of `Delete` on a valid tree succeeds and filters the in-order list. -/
theorem DeleteAll_spec [LinearOrder K] (ks : List K) : ∀ (t : RedBlackTree K V), Inv t →
    ∃ t', DeleteAll t ks = .ok t' ∧ Inv t'
      ∧ toList t'.root = (toList t.root).filter (fun p => decide (p.1 ∉ ks)) := by
  induction ks with
  | nil =>
    intro t h
    exact ⟨t, rfl, h, by simp⟩
  | cons key rest ih =>
    intro t h
    obtain ⟨t1, e1, I1, l1⟩ := Delete_spec t h key
    obtain ⟨t2, e2, I2, l2⟩ := ih t1 I1
    refine ⟨t2, by simp [DeleteAll, e1, e2], I2, ?_⟩
    rw [l2, l1, eraseList, List.filter_filter]
    congr 1
    funext p
    by_cases hk : p.1 = key <;> simp [hk]

/-- A run of `DeleteMin` on a valid tree succeeds and shortens the in-order list. -/
theorem DeleteMinTimes_spec [LinearOrder K] (n : Nat) : ∀ (t : RedBlackTree K V), Inv t →
    ∃ t', DeleteMinTimes n t = .ok t' ∧ Inv t'
      ∧ (toList t'.root).length = (toList t.root).length - n := by
  induction n with
  | zero => intro t h; exact ⟨t, rfl, h, rfl⟩
  | succ n ih =>
    intro t h
    obtain ⟨t1, e1, I1, l1⟩ := DeleteMin_spec t h
    obtain ⟨t2, e2, I2, l2⟩ := ih t1 I1
    refine ⟨t2, by simp [DeleteMinTimes, e1, e2], I2, ?_⟩
    rw [l2, l1, List.length_tail]
    omega

/-- A run of `DeleteMax` on a valid tree succeeds and shortens the in-order list. -/
theorem DeleteMaxTimes_spec [LinearOrder K] (n : Nat) : ∀ (t : RedBlackTree K V), Inv t →
    ∃ t', DeleteMaxTimes n t = .ok t' ∧ Inv t'
      ∧ (toList t'.root).length = (toList t.root).length - n := by
  induction n with
  | zero => intro t h; exact ⟨t, rfl, h, rfl⟩
  | succ n ih =>
    intro t h
    obtain ⟨t1, e1, I1, l1⟩ := DeleteMax_spec t h
    obtain ⟨t2, e2, I2, l2⟩ := ih t1 I1
    refine ⟨t2, by simp [DeleteMaxTimes, e1, e2], I2, ?_⟩
    rw [l2, l1, List.length_dropLast]
    omega

theorem not_mem_take_of_nodup (ks : List K) (h : ks.Nodup) (i : Nat) (hi : i < ks.length) :
    ks[i] ∉ ks.take i := by
  intro hin
  have hsplit : ks = ks.take i ++ ks[i] :: ks.drop (i + 1) := by
    rw [← List.drop_eq_getElem_cons hi, List.take_append_drop]
  rw [hsplit, List.nodup_append] at h
  exact h.2.2 hin (List.mem_cons_self _ _)

theorem length_eraseList_present [LinearOrder K] (key : K) (w : V) (L : List (K × V))
    (h : L.Pairwise (fun a b => a.1 < b.1)) (hm : (key, w) ∈ L) :
    (eraseList key L).length + 1 = L.length := by
  induction L with
  | nil => cases hm
  | cons a t ih =>
    rw [List.pairwise_cons] at h
    by_cases ha : a.1 = key
    · have ht : eraseList key t = t := by
        apply eraseList_absent
        intro w' hw'
        have := h.1 _ hw'
        rw [ha] at this
        exact lt_irrefl _ this
      have : eraseList key (a :: t) = eraseList key t := by
        simp [eraseList, List.filter_cons, ha]
      rw [this, ht, List.length_cons]
    · have hmt : (key, w) ∈ t := by
        rcases List.mem_cons.1 hm with hm | hm
        · exact absurd (by rw [← hm]) ha
        · exact hm
      have : eraseList key (a :: t) = a :: eraseList key t := by
        simp [eraseList, List.filter_cons, ha]
      rw [this, List.length_cons, List.length_cons, ih h.2 hmt]

end aux

/-! ## The contract of the public operations -/

section contract

open RedBlackTree

theorem sampleTree_reachable : Reachable sampleTree :=
  Reachable.put
    ⟨node 2 20 (node 1 10 nil nil false)
      (node 4 40 (node 3 30 nil nil true) nil false) false⟩ _ 5 50
    (Reachable.put
      ⟨node 2 20 (node 1 10 nil nil false) (node 3 30 nil nil false) false⟩ _ 4 40
      (Reachable.put ⟨node 2 20 (node 1 10 nil nil true) nil false⟩ _ 3 30
        (Reachable.put ⟨node 1 10 nil nil false⟩ _ 2 20
          (Reachable.put NewRedBlackTree _ 1 10 Reachable.empty rfl) rfl) rfl) rfl) rfl

/-- C1: on every tree built by the public operations, `Put(K, V)` succeeds and `Get(K)`
called right after it returns `V` with no error. -/
theorem put_then_get [LinearOrder K] (t : RedBlackTree K V) (h : Reachable t) (key : K) (value : V) :
    ∃ t', Put t key value = .ok t' ∧ Get t' key = some value := by
  obtain ⟨t', e, I, l⟩ := Put_spec t (reachable_inv t h) key value
  refine ⟨t', e, ?_⟩
  unfold Get
  rw [getFrom_eq_some_iff t'.root I.1, l]
  exact (mem_insList key value _ _).2 (Or.inl rfl)

theorem put_then_get_witness :
    Reachable sampleTree ∧ ∃ t', Put sampleTree 3 33 = .ok t' ∧ Get t' 3 = some 33 :=
  ⟨sampleTree_reachable, put_then_get sampleTree sampleTree_reachable 3 33⟩

/-- Totally ordered keys: on every tree built by the public operations, `Delete(K)` of a key the tree
contains succeeds, afterwards `Get(K)` is `ErrNotFound`, `Get(K')` of every other key
returns what it returned before, and the tree has exactly one node less. -/
theorem delete_removes_exactly [LinearOrder K] (t : RedBlackTree K V) (h : Reachable t) (key : K)
    (hc : Contains t key = true) :
    ∃ t', Delete t key = .ok t' ∧ Get t' key = none
      ∧ (∀ key', key' ≠ key → Get t' key' = Get t key')
      ∧ size t'.root + 1 = size t.root := by
  have I := reachable_inv t h
  obtain ⟨t', e, I', l⟩ := Delete_spec t I key
  obtain ⟨w, hw⟩ := (contains_iff t I.1 key).1 hc
  refine ⟨t', e, ?_, ?_, ?_⟩
  rotate_left 2
  · rw [size_eq_length, size_eq_length, l]
    exact length_eraseList_present key w _ I.1 hw
  · unfold Get
    rw [getFrom_eq_none_iff t'.root I'.1, l]
    intro w hw
    exact ((mem_eraseList key _ _).1 hw).2 rfl
  · intro key' hne
    unfold Get
    apply getFrom_congr t.root t'.root I.1 I'.1
    intro w
    rw [l, mem_eraseList]
    exact ⟨fun hw => hw.1, fun hw => ⟨hw, hne⟩⟩

theorem delete_removes_exactly_witness :
    Reachable sampleTree ∧ Contains sampleTree 4 = true
      ∧ ∃ t', Delete sampleTree 4 = .ok t' ∧ Get t' 4 = none
        ∧ (∀ key', key' ≠ 4 → Get t' key' = Get sampleTree key')
        ∧ size t'.root + 1 = size sampleTree.root :=
  ⟨sampleTree_reachable, by decide,
    delete_removes_exactly sampleTree sampleTree_reachable 4 (by decide)⟩

/-- Totally ordered keys: on every tree built by the public operations, `Put(K, V)` leaves `Get(K')`
unchanged for every key `K'` other than `K`; and after any run of `Put` calls `Contains`
is true for every inserted key. -/
theorem put_frame [LinearOrder K] (t : RedBlackTree K V) (h : Reachable t) :
    (∀ (key : K) (value : V) (key' : K), key' ≠ key →
      ∃ t', Put t key value = .ok t' ∧ Get t' key' = Get t key')
    ∧ ∀ kvs : List (K × V), ∃ t', PutAll t kvs = .ok t'
        ∧ ∀ p ∈ kvs, Contains t' p.1 = true := by
  have I := reachable_inv t h
  constructor
  · intro key value key' hne
    obtain ⟨t', e, I', l⟩ := Put_spec t I key value
    refine ⟨t', e, ?_⟩
    unfold Get
    apply getFrom_congr t.root t'.root I.1 I'.1
    intro w
    rw [l, mem_insList]
    constructor
    · rintro (hw | hw)
      · exact absurd (Prod.mk.inj hw).1 hne
      · exact hw.1
    · exact fun hw => Or.inr ⟨hw, hne⟩
  · intro kvs
    obtain ⟨t', e, I', l⟩ := PutAll_spec kvs t I
    refine ⟨t', e, ?_⟩
    intro p hp
    rw [contains_iff t' I'.1, l, foldl_insList_mem]
    exact Or.inr (List.mem_map_of_mem Prod.fst hp)

theorem put_frame_witness :
    Reachable sampleTree
      ∧ (∀ (key : Nat) (value : Nat) (key' : Nat), key' ≠ key →
          ∃ t', Put sampleTree key value = .ok t' ∧ Get t' key' = Get sampleTree key')
      ∧ ∀ kvs : List (Nat × Nat), ∃ t', PutAll sampleTree kvs = .ok t'
          ∧ ∀ p ∈ kvs, Contains t' p.1 = true :=
  ⟨sampleTree_reachable, put_frame sampleTree sampleTree_reachable⟩

/-- C4: on every tree built by the public operations, after `Put(K, V1); Put(K, V2)` the
call `Get(K)` returns `V2`, and the tree has as many nodes after the second `Put` as after
the first. -/
theorem put_upsert [LinearOrder K] (t : RedBlackTree K V) (h : Reachable t) (key : K) (v1 v2 : V) :
    ∃ t1 t2, Put t key v1 = .ok t1 ∧ Put t1 key v2 = .ok t2 ∧ Get t2 key = some v2
      ∧ size t2.root = size t1.root := by
  have I := reachable_inv t h
  obtain ⟨t1, e1, I1, l1⟩ := Put_spec t I key v1
  obtain ⟨t2, e2, I2, l2⟩ := Put_spec t1 I1 key v2
  refine ⟨t1, t2, e1, e2, ?_, ?_⟩
  · unfold Get
    rw [getFrom_eq_some_iff t2.root I2.1, l2]
    exact (mem_insList key v2 _ _).2 (Or.inl rfl)
  · rw [size_eq_length, size_eq_length, l2, l1]
    have hA : ∀ p ∈ (toList t.root).filter (fun p => decide (p.1 < key)), p.1 < key :=
      fun p hp => by simpa using (List.mem_filter.1 hp).2
    have hB : ∀ p ∈ (toList t.root).filter (fun p => decide (key < p.1)), key < p.1 :=
      fun p hp => by simpa using (List.mem_filter.1 hp).2
    have := insList_eq key v2 v1 _ _ hA hB
    unfold insList at this ⊢
    rw [this]
    simp

theorem put_upsert_witness :
    Reachable sampleTree
      ∧ ∃ t1 t2, Put sampleTree 3 31 = .ok t1 ∧ Put t1 3 32 = .ok t2 ∧ Get t2 3 = some 32
        ∧ size t2.root = size t1.root :=
  ⟨sampleTree_reachable, put_upsert sampleTree sampleTree_reachable 3 31 32⟩

/-- Totally ordered keys: on every tree built by the public operations, a further `Put`, `Delete`,
`DeleteMin` or `DeleteMax` runs to completion: no field of a nil node is read or written
(and the fuel of the recursion suffices). -/
theorem mutations_never_fail [LinearOrder K] (t : RedBlackTree K V) (h : Reachable t) (key : K) (value : V) :
    (∃ t', Put t key value = .ok t') ∧ (∃ t', Delete t key = .ok t')
      ∧ (∃ t', DeleteMin t = .ok t') ∧ (∃ t', DeleteMax t = .ok t') := by
  have I := reachable_inv t h
  obtain ⟨t1, e1, -, -⟩ := Put_spec t I key value
  obtain ⟨t2, e2, -, -⟩ := Delete_spec t I key
  obtain ⟨t3, e3, -, -⟩ := DeleteMin_spec t I
  obtain ⟨t4, e4, -, -⟩ := DeleteMax_spec t I
  exact ⟨⟨t1, e1⟩, ⟨t2, e2⟩, ⟨t3, e3⟩, ⟨t4, e4⟩⟩

theorem mutations_never_fail_witness :
    Reachable sampleTree
      ∧ (∃ t', Put sampleTree 7 70 = .ok t') ∧ (∃ t', Delete sampleTree 7 = .ok t')
      ∧ (∃ t', DeleteMin sampleTree = .ok t') ∧ (∃ t', DeleteMax sampleTree = .ok t') :=
  ⟨sampleTree_reachable, mutations_never_fail sampleTree sampleTree_reachable 7 70⟩

/-- Totally ordered keys: on every tree built by the public operations, `Get(K)` returns `v` exactly when
some node holds key `K` with value `v`, and `ErrNotFound` exactly when no node holds `K`
(so for every key on the empty tree); `Contains(K)` is true exactly when `Get(K)` does not
return `ErrNotFound`. -/
theorem get_sound_complete [LinearOrder K] (t : RedBlackTree K V) (h : Reachable t) (key : K) :
    (∀ v, Get t key = some v ↔ t.root.Holds key v)
      ∧ (Get t key = none ↔ ∀ v, ¬ t.root.Holds key v)
      ∧ Get (NewRedBlackTree : RedBlackTree K V) key = none
      ∧ (Contains t key = true ↔ Get t key ≠ none) := by
  have I := reachable_inv t h
  refine ⟨?_, ?_, rfl, ?_⟩
  · intro v
    unfold Get
    rw [getFrom_eq_some_iff t.root I.1, holds_iff_mem]
  · unfold Get
    rw [getFrom_eq_none_iff t.root I.1]
    constructor
    · intro hn v hv
      exact hn v ((holds_iff_mem _ _ _).1 hv)
    · intro hn v hv
      exact hn v ((holds_iff_mem _ _ _).2 hv)
  · unfold Contains
    cases Get t key <;> simp

theorem get_sound_complete_witness :
    Reachable sampleTree
      ∧ (∀ v, Get sampleTree 3 = some v ↔ sampleTree.root.Holds 3 v)
      ∧ (Get sampleTree 3 = none ↔ ∀ v, ¬ sampleTree.root.Holds 3 v)
      ∧ Get (NewRedBlackTree : RedBlackTree Nat Nat) 3 = none
      ∧ (Contains sampleTree 3 = true ↔ Get sampleTree 3 ≠ none) :=
  ⟨sampleTree_reachable, get_sound_complete sampleTree sampleTree_reachable 3⟩

/-- Totally ordered keys: on every non-empty tree built by the public operations, if `Min()` returns key
`m` then `DeleteMin()` succeeds, afterwards `Get(m)` is `ErrNotFound`, `Get(K)` of every
other key returns what it returned before, and the tree has exactly one node less. -/
theorem deleteMin_removes_min [LinearOrder K] (t : RedBlackTree K V) (h : Reachable t)
    (hne : t.isEmpty = false) (m : K) (mv : V) (hm : t.Min = some (m, mv)) :
    ∃ t', DeleteMin t = .ok t' ∧ Get t' m = none
      ∧ (∀ key, key ≠ m → Get t' key = Get t key)
      ∧ size t'.root + 1 = size t.root := by
  have I := reachable_inv t h
  obtain ⟨t', e, I', l⟩ := DeleteMin_spec t I
  have hroot : t.root ≠ nil := by
    intro hr
    rw [isEmpty, hr] at hne
    simp at hne
  obtain ⟨hk, hv, hl, hr, hc, em, tm⟩ := min_toList t.root hroot
  have hpair : (hk, hv) = (m, mv) := by
    unfold RedBlackTree.Min at hm
    rw [em] at hm
    exact Option.some.inj hm
  rw [hpair] at tm
  have hO : (toList t.root).Pairwise (fun a b => a.1 < b.1) := I.1
  rw [tm, List.pairwise_cons] at hO
  refine ⟨t', e, ?_, ?_, ?_⟩
  · unfold Get
    rw [getFrom_eq_none_iff t'.root I'.1, l]
    intro w hw
    exact lt_irrefl _ (hO.1 (m, w) hw)
  · intro key hkey
    unfold Get
    apply getFrom_congr t.root t'.root I.1 I'.1
    intro w
    rw [l]
    constructor
    · intro hw
      rw [tm]
      exact List.mem_cons_of_mem _ hw
    · intro hw
      rw [tm] at hw
      rcases List.mem_cons.1 hw with hw | hw
      · exact absurd (Prod.mk.inj hw).1 hkey
      · exact hw
  · rw [size_eq_length, size_eq_length, l, tm]
    simp

theorem deleteMin_removes_min_witness :
    Reachable sampleTree ∧ sampleTree.isEmpty = false ∧ sampleTree.Min = some (1, 10)
      ∧ ∃ t', DeleteMin sampleTree = .ok t' ∧ Get t' 1 = none
        ∧ (∀ key, key ≠ 1 → Get t' key = Get sampleTree key)
        ∧ size t'.root + 1 = size sampleTree.root :=
  ⟨sampleTree_reachable, rfl, rfl,
    deleteMin_removes_min sampleTree sampleTree_reachable rfl 1 10 rfl⟩

/-- Totally ordered keys: on every non-empty tree built by the public operations, if `Max()` returns key
`m` then `DeleteMax()` succeeds, afterwards `Get(m)` is `ErrNotFound`, `Get(K)` of every
other key returns what it returned before, and the tree has exactly one node less. -/
theorem deleteMax_removes_max [LinearOrder K] (t : RedBlackTree K V) (h : Reachable t)
    (hne : t.isEmpty = false) (m : K) (mv : V) (hm : t.Max = some (m, mv)) :
    ∃ t', DeleteMax t = .ok t' ∧ Get t' m = none
      ∧ (∀ key, key ≠ m → Get t' key = Get t key)
      ∧ size t'.root + 1 = size t.root := by
  have I := reachable_inv t h
  obtain ⟨t', e, I', l⟩ := DeleteMax_spec t I
  have hroot : t.root ≠ nil := by
    intro hr
    rw [isEmpty, hr] at hne
    simp at hne
  obtain ⟨hk, hv, hl, hr, hc, em, tm⟩ := max_toList t.root hroot
  have hpair : (hk, hv) = (m, mv) := by
    unfold RedBlackTree.Max at hm
    rw [em] at hm
    exact Option.some.inj hm
  rw [hpair] at tm
  have hO : (toList t.root).Pairwise (fun a b => a.1 < b.1) := I.1
  rw [tm, List.pairwise_append] at hO
  refine ⟨t', e, ?_, ?_, ?_⟩
  · unfold Get
    rw [getFrom_eq_none_iff t'.root I'.1, l]
    intro w hw
    exact lt_irrefl _ (hO.2.2 (m, w) hw (m, mv) (List.mem_singleton_self _))
  · intro key hkey
    unfold Get
    apply getFrom_congr t.root t'.root I.1 I'.1
    intro w
    rw [l]
    constructor
    · intro hw
      rw [tm]
      exact List.mem_append_left _ hw
    · intro hw
      rw [tm] at hw
      rcases List.mem_append.1 hw with hw | hw
      · exact hw
      · exact absurd (Prod.mk.inj (List.mem_singleton.1 hw)).1 hkey
  · rw [size_eq_length, size_eq_length, l]
    conv_rhs => rw [tm]
    simp

theorem deleteMax_removes_max_witness :
    Reachable sampleTree ∧ sampleTree.isEmpty = false ∧ sampleTree.Max = some (5, 50)
      ∧ ∃ t', DeleteMax sampleTree = .ok t' ∧ Get t' 5 = none
        ∧ (∀ key, key ≠ 5 → Get t' key = Get sampleTree key)
        ∧ size t'.root + 1 = size sampleTree.root :=
  ⟨sampleTree_reachable, rfl, rfl,
    deleteMax_removes_max sampleTree sampleTree_reachable rfl 5 50 rfl⟩

/-- Totally ordered keys: on every tree whatsoever, `Delete(K)` of a key the tree does not contain (`Contains`
is false, in particular when no node holds `K`) returns the very same tree; and on the
empty tree `Delete`, `DeleteMin` and `DeleteMax` return the empty tree without error. -/
theorem delete_absent_noop [LinearOrder K] (t : RedBlackTree K V) (key : K) :
    (Contains t key = false → Delete t key = .ok t)
      ∧ ((∀ v, ¬ t.root.Holds key v) → Delete t key = .ok t)
      ∧ Delete (NewRedBlackTree : RedBlackTree K V) key = .ok NewRedBlackTree
      ∧ DeleteMin (NewRedBlackTree : RedBlackTree K V) = .ok NewRedBlackTree
      ∧ DeleteMax (NewRedBlackTree : RedBlackTree K V) = .ok NewRedBlackTree := by
  have h1 : Contains t key = false → Delete t key = .ok t := by
    intro hc
    simp [Delete, hc]
  refine ⟨h1, ?_, rfl, rfl, rfl⟩
  intro hn
  apply h1
  unfold Contains Get
  cases hg : getFrom t.root key with
  | none => rfl
  | some w => exact absurd (getFrom_holds t.root key w hg) (hn w)

theorem delete_absent_noop_witness :
    Contains sampleTree 9 = false ∧ (∀ v, ¬ sampleTree.root.Holds 9 v)
      ∧ (Contains sampleTree 9 = false → Delete sampleTree 9 = .ok sampleTree)
      ∧ ((∀ v, ¬ sampleTree.root.Holds 9 v) → Delete sampleTree 9 = .ok sampleTree)
      ∧ Delete (NewRedBlackTree : RedBlackTree Nat Nat) 9 = .ok NewRedBlackTree
      ∧ DeleteMin (NewRedBlackTree : RedBlackTree Nat Nat) = .ok NewRedBlackTree
      ∧ DeleteMax (NewRedBlackTree : RedBlackTree Nat Nat) = .ok NewRedBlackTree :=
  ⟨by decide, by intro v; simp [sampleTree, Node.Holds], delete_absent_noop sampleTree 9⟩

/-- Totally ordered keys: after `Put` of N pairs with pairwise distinct keys into the empty tree, deleting
the N keys with `Delete` in any order, or calling `DeleteMin` N times, or calling
`DeleteMax` N times, ends with the empty tree (root nil), and the tree is non-empty before
each of these N deletions. -/
theorem delete_all_converges [LinearOrder K] (kvs : List (K × V)) (hnd : (kvs.map Prod.fst).Nodup) :
    ∃ t, PutAll NewRedBlackTree kvs = .ok t
      ∧ (∀ ks : List K, ks.Perm (kvs.map Prod.fst) →
          (∃ t', DeleteAll t ks = .ok t' ∧ t'.root = nil)
          ∧ ∀ i, i < kvs.length →
              ∃ ti, DeleteAll t (ks.take i) = .ok ti ∧ ti.isEmpty = false)
      ∧ ((∃ t', DeleteMinTimes kvs.length t = .ok t' ∧ t'.root = nil)
          ∧ ∀ i, i < kvs.length → ∃ ti, DeleteMinTimes i t = .ok ti ∧ ti.isEmpty = false)
      ∧ ((∃ t', DeleteMaxTimes kvs.length t = .ok t' ∧ t'.root = nil)
          ∧ ∀ i, i < kvs.length → ∃ ti, DeleteMaxTimes i t = .ok ti ∧ ti.isEmpty = false) := by
  obtain ⟨t, e, I, l⟩ := PutAll_spec kvs (NewRedBlackTree : RedBlackTree K V) inv_empty
  have l' : toList t.root = kvs.foldl (fun L p => insList p.1 p.2 L) [] := l
  have hmem : ∀ key, (∃ w, (key, w) ∈ toList t.root) ↔ key ∈ kvs.map Prod.fst := by
    intro key
    rw [l', foldl_insList_mem]
    simp
  have hlen : (toList t.root).length = kvs.length := by
    rw [l', foldl_insList_length kvs [] hnd (by simp)]
    simp
  refine ⟨t, e, ?_, ⟨?_, ?_⟩, ⟨?_, ?_⟩⟩
  · intro ks hperm
    constructor
    · obtain ⟨t', e', -, l1⟩ := DeleteAll_spec ks t I
      refine ⟨t', e', ?_⟩
      rw [root_nil_iff, l1]
      apply filter_eq_nil_of
      intro p hp
      have : p.1 ∈ ks := hperm.mem_iff.2 ((hmem p.1).1 ⟨p.2, hp⟩)
      simp [this]
    · intro i hi
      obtain ⟨ti, e', -, l1⟩ := DeleteAll_spec (ks.take i) t I
      refine ⟨ti, e', ?_⟩
      have hlk : ks.length = kvs.length := by
        rw [hperm.length_eq, List.length_map]
      have hi' : i < ks.length := by omega
      have hks : ks.Nodup := hperm.nodup_iff.2 hnd
      obtain ⟨w, hw⟩ := (hmem ks[i]).2 (hperm.mem_iff.1 (List.getElem_mem _))
      rw [isEmpty_false_iff, l1]
      apply List.ne_nil_of_mem
      rw [List.mem_filter]
      exact ⟨hw, by simpa using not_mem_take_of_nodup ks hks i hi'⟩
  · obtain ⟨t', e', -, l1⟩ := DeleteMinTimes_spec kvs.length t I
    refine ⟨t', e', ?_⟩
    rw [root_nil_iff, ← List.length_eq_zero, l1]
    omega
  · intro i hi
    obtain ⟨ti, e', -, l1⟩ := DeleteMinTimes_spec i t I
    refine ⟨ti, e', ?_⟩
    rw [isEmpty_false_iff, ← List.length_pos, l1]
    omega
  · obtain ⟨t', e', -, l1⟩ := DeleteMaxTimes_spec kvs.length t I
    refine ⟨t', e', ?_⟩
    rw [root_nil_iff, ← List.length_eq_zero, l1]
    omega
  · intro i hi
    obtain ⟨ti, e', -, l1⟩ := DeleteMaxTimes_spec i t I
    refine ⟨ti, e', ?_⟩
    rw [isEmpty_false_iff, ← List.length_pos, l1]
    omega

theorem delete_all_converges_witness :
    ([(2, 20), (1, 10), (3, 30)].map Prod.fst).Nodup
      ∧ ∃ t, PutAll (NewRedBlackTree : RedBlackTree Nat Nat) [(2, 20), (1, 10), (3, 30)] = .ok t
        ∧ (∀ ks : List Nat, ks.Perm ([(2, 20), (1, 10), (3, 30)].map Prod.fst) →
            (∃ t', DeleteAll t ks = .ok t' ∧ t'.root = nil)
            ∧ ∀ i, i < [(2, 20), (1, 10), (3, 30)].length →
                ∃ ti, DeleteAll t (ks.take i) = .ok ti ∧ ti.isEmpty = false)
        ∧ ((∃ t', DeleteMinTimes [(2, 20), (1, 10), (3, 30)].length t = .ok t' ∧ t'.root = nil)
            ∧ ∀ i, i < [(2, 20), (1, 10), (3, 30)].length →
                ∃ ti, DeleteMinTimes i t = .ok ti ∧ ti.isEmpty = false)
        ∧ ((∃ t', DeleteMaxTimes [(2, 20), (1, 10), (3, 30)].length t = .ok t' ∧ t'.root = nil)
            ∧ ∀ i, i < [(2, 20), (1, 10), (3, 30)].length →
                ∃ ti, DeleteMaxTimes i t = .ok ti ∧ ti.isEmpty = false) :=
  ⟨by decide, delete_all_converges [(2, 20), (1, 10), (3, 30)] (by decide)⟩

end contract

/-! ## Order queries -/

section queries

open RedBlackTree

/-- Method `floor` on an ordered subtree: nil exactly when every key is above `key`,
otherwise the node of the largest key not above `key`. -/
theorem floor_spec [LinearOrder K] (x : Node K V) (hx : Ordered x) (key : K) :
    (floor x key = nil → ∀ p ∈ toList x, key < p.1)
      ∧ ∀ k v l r c, floor x key = node k v l r c →
          (k, v) ∈ toList x ∧ k ≤ key ∧ ∀ p ∈ toList x, p.1 ≤ key → p.1 ≤ k := by
  induction x with
  | nil => simp [floor]
  | node xk xv xl xr xc ihl ihr =>
    obtain ⟨hl, hr, hlk, hrk⟩ := (ordered_node xk xv xl xr xc).1 hx
    obtain ⟨il1, il2⟩ := ihl hl
    obtain ⟨ir1, ir2⟩ := ihr hr
    by_cases h1 : key = xk
    · subst h1
      simp only [floor, if_true]
      refine ⟨fun h => (by cases h), ?_⟩
      intro k v l r c h
      cases h
      refine ⟨by simp, le_refl _, fun p _ hp => hp⟩
    · by_cases h2 : xk > key
      · simp only [floor, if_neg h1, if_pos h2]
        constructor
        · intro h p hp
          rw [toList_node] at hp
          rcases List.mem_append.1 hp with hp | hp
          · exact il1 h p hp
          · rcases List.mem_cons.1 hp with hp | hp
            · rw [hp]; exact h2
            · exact lt_trans h2 (hrk p hp)
        · intro k v l r c h
          obtain ⟨m1, m2, m3⟩ := il2 k v l r c h
          refine ⟨by simp [m1], m2, ?_⟩
          intro p hp hle
          rw [toList_node] at hp
          rcases List.mem_append.1 hp with hp | hp
          · exact m3 p hp hle
          · rcases List.mem_cons.1 hp with hp | hp
            · rw [hp] at hle; exact absurd h2 (not_lt.2 hle)
            · exact absurd (lt_trans h2 (hrk p hp)) (not_lt.2 hle)
      · have h3 : xk < key := lt_of_le_of_ne (not_lt.1 h2) (Ne.symm h1)
        simp only [floor, if_neg h1, if_neg h2]
        cases hf : floor xr key with
        | nil =>
          simp only [isNil_nil, if_true]
          refine ⟨fun h => (by cases h), ?_⟩
          intro k v l r c h
          cases h
          refine ⟨by simp, le_of_lt h3, ?_⟩
          intro p hp hle
          rw [toList_node] at hp
          rcases List.mem_append.1 hp with hp | hp
          · exact le_of_lt (hlk p hp)
          · rcases List.mem_cons.1 hp with hp | hp
            · rw [hp]
            · exact absurd (ir1 hf p hp) (not_lt.2 hle)
        | node fk fv fl fr fc =>
          simp only [isNil_node, Bool.false_eq_true, if_false]
          refine ⟨fun h => (by cases h), ?_⟩
          intro k v l r c h
          cases h
          obtain ⟨m1, m2, m3⟩ := ir2 fk fv fl fr fc hf
          refine ⟨by simp [m1], m2, ?_⟩
          intro p hp hle
          have hk : xk < fk := hrk (fk, fv) m1
          rw [toList_node] at hp
          rcases List.mem_append.1 hp with hp | hp
          · exact le_of_lt (lt_trans (hlk p hp) hk)
          · rcases List.mem_cons.1 hp with hp | hp
            · rw [hp]; exact le_of_lt hk
            · exact m3 p hp hle

/-- Method `ceil` on an ordered subtree: nil exactly when every key is below `key`,
otherwise the node of the smallest key not below `key`. -/
theorem ceil_spec [LinearOrder K] (x : Node K V) (hx : Ordered x) (key : K) :
    (ceil x key = nil → ∀ p ∈ toList x, p.1 < key)
      ∧ ∀ k v l r c, ceil x key = node k v l r c →
          (k, v) ∈ toList x ∧ key ≤ k ∧ ∀ p ∈ toList x, key ≤ p.1 → k ≤ p.1 := by
  induction x with
  | nil => simp [ceil]
  | node xk xv xl xr xc ihl ihr =>
    obtain ⟨hl, hr, hlk, hrk⟩ := (ordered_node xk xv xl xr xc).1 hx
    obtain ⟨il1, il2⟩ := ihl hl
    obtain ⟨ir1, ir2⟩ := ihr hr
    by_cases h1 : key = xk
    · subst h1
      simp only [ceil, if_true]
      refine ⟨fun h => (by cases h), ?_⟩
      intro k v l r c h
      cases h
      refine ⟨by simp, le_refl _, fun p _ hp => hp⟩
    · by_cases h2 : key > xk
      · simp only [ceil, if_neg h1, if_pos h2]
        constructor
        · intro h p hp
          rw [toList_node] at hp
          rcases List.mem_append.1 hp with hp | hp
          · exact lt_trans (hlk p hp) h2
          · rcases List.mem_cons.1 hp with hp | hp
            · rw [hp]; exact h2
            · exact ir1 h p hp
        · intro k v l r c h
          obtain ⟨m1, m2, m3⟩ := ir2 k v l r c h
          refine ⟨by simp [m1], m2, ?_⟩
          intro p hp hle
          rw [toList_node] at hp
          rcases List.mem_append.1 hp with hp | hp
          · exact absurd (lt_trans (hlk p hp) h2) (not_lt.2 hle)
          · rcases List.mem_cons.1 hp with hp | hp
            · rw [hp] at hle; exact absurd h2 (not_lt.2 hle)
            · exact m3 p hp hle
      · have h3 : key < xk := lt_of_le_of_ne (not_lt.1 h2) h1
        simp only [ceil, if_neg h1, if_neg h2]
        cases hf : ceil xl key with
        | nil =>
          simp only [isNil_nil, if_true]
          refine ⟨fun h => (by cases h), ?_⟩
          intro k v l r c h
          cases h
          refine ⟨by simp, le_of_lt h3, ?_⟩
          intro p hp hle
          rw [toList_node] at hp
          rcases List.mem_append.1 hp with hp | hp
          · exact absurd (il1 hf p hp) (not_lt.2 hle)
          · rcases List.mem_cons.1 hp with hp | hp
            · rw [hp]
            · exact le_of_lt (hrk p hp)
        | node fk fv fl fr fc =>
          simp only [isNil_node, Bool.false_eq_true, if_false]
          refine ⟨fun h => (by cases h), ?_⟩
          intro k v l r c h
          cases h
          obtain ⟨m1, m2, m3⟩ := il2 fk fv fl fr fc hf
          refine ⟨by simp [m1], m2, ?_⟩
          intro p hp hle
          have hk : fk < xk := hlk (fk, fv) m1
          rw [toList_node] at hp
          rcases List.mem_append.1 hp with hp | hp
          · exact m3 p hp hle
          · rcases List.mem_cons.1 hp with hp | hp
            · rw [hp]; exact le_of_lt hk
            · exact le_of_lt (lt_trans hk (hrk p hp))

end queries
section queryClaims

open RedBlackTree

/-- Totally ordered keys: on every tree built by the public operations, `Floor(K)` returns the value stored
under the largest key not above `K` when the tree holds such a key, and `ErrNotFound` when
it holds none (empty tree, or `K` below every key). -/
theorem floor_largest_below [LinearOrder K] (t : RedBlackTree K V) (h : Reachable t) (key : K) :
    ((∃ k v, t.root.Holds k v ∧ k ≤ key) →
        ∃ k v, t.Floor key = some v ∧ t.root.Holds k v ∧ k ≤ key
          ∧ ∀ k' v', t.root.Holds k' v' → k' ≤ key → k' ≤ k)
      ∧ ((∀ k v, t.root.Holds k v → key < k) → t.Floor key = none)
      ∧ (NewRedBlackTree : RedBlackTree K V).Floor key = none := by
  have I := reachable_inv t h
  obtain ⟨s1, s2⟩ := floor_spec t.root I.1 key
  refine ⟨?_, ?_, rfl⟩
  · rintro ⟨k0, v0, h0, hle⟩
    cases hf : floor t.root key with
    | nil =>
      exact absurd (s1 hf (k0, v0) ((holds_iff_mem _ _ _).1 h0)) (not_lt.2 hle)
    | node k v l r c =>
      obtain ⟨m1, m2, m3⟩ := s2 k v l r c hf
      refine ⟨k, v, by simp [Floor, hf], (holds_iff_mem _ _ _).2 m1, m2, ?_⟩
      intro k' v' hh hk
      exact m3 (k', v') ((holds_iff_mem _ _ _).1 hh) hk
  · intro hall
    cases hf : floor t.root key with
    | nil => simp [Floor, hf]
    | node k v l r c =>
      obtain ⟨m1, m2, -⟩ := s2 k v l r c hf
      exact absurd (hall k v ((holds_iff_mem _ _ _).2 m1)) (not_lt.2 m2)

theorem floor_largest_below_witness :
    Reachable sampleTree ∧ (∃ k v, sampleTree.root.Holds k v ∧ k ≤ 7)
      ∧ ∃ k v, sampleTree.Floor 7 = some v ∧ sampleTree.root.Holds k v ∧ k ≤ 7
          ∧ ∀ k' v', sampleTree.root.Holds k' v' → k' ≤ 7 → k' ≤ k :=
  ⟨sampleTree_reachable, ⟨5, 50, by simp [sampleTree, Node.Holds], by decide⟩,
    (floor_largest_below sampleTree sampleTree_reachable 7).1
      ⟨5, 50, by simp [sampleTree, Node.Holds], by decide⟩⟩

/-- Totally ordered keys: on every tree built by the public operations, `Ceil(K)` returns the value stored
under the smallest key not below `K` when the tree holds such a key, and `ErrNotFound` when
it holds none (empty tree, or `K` above every key). -/
theorem ceil_smallest_above [LinearOrder K] (t : RedBlackTree K V) (h : Reachable t) (key : K) :
    ((∃ k v, t.root.Holds k v ∧ key ≤ k) →
        ∃ k v, t.Ceil key = some v ∧ t.root.Holds k v ∧ key ≤ k
          ∧ ∀ k' v', t.root.Holds k' v' → key ≤ k' → k ≤ k')
      ∧ ((∀ k v, t.root.Holds k v → k < key) → t.Ceil key = none)
      ∧ (NewRedBlackTree : RedBlackTree K V).Ceil key = none := by
  have I := reachable_inv t h
  obtain ⟨s1, s2⟩ := ceil_spec t.root I.1 key
  refine ⟨?_, ?_, rfl⟩
  · rintro ⟨k0, v0, h0, hle⟩
    cases hf : ceil t.root key with
    | nil =>
      exact absurd (s1 hf (k0, v0) ((holds_iff_mem _ _ _).1 h0)) (not_lt.2 hle)
    | node k v l r c =>
      obtain ⟨m1, m2, m3⟩ := s2 k v l r c hf
      refine ⟨k, v, by simp [Ceil, hf], (holds_iff_mem _ _ _).2 m1, m2, ?_⟩
      intro k' v' hh hk
      exact m3 (k', v') ((holds_iff_mem _ _ _).1 hh) hk
  · intro hall
    cases hf : ceil t.root key with
    | nil => simp [Ceil, hf]
    | node k v l r c =>
      obtain ⟨m1, m2, -⟩ := s2 k v l r c hf
      exact absurd (hall k v ((holds_iff_mem _ _ _).2 m1)) (not_lt.2 m2)

theorem ceil_smallest_above_witness :
    Reachable sampleTree ∧ (∃ k v, sampleTree.root.Holds k v ∧ 0 ≤ k)
      ∧ ∃ k v, sampleTree.Ceil 0 = some v ∧ sampleTree.root.Holds k v ∧ 0 ≤ k
          ∧ ∀ k' v', sampleTree.root.Holds k' v' → 0 ≤ k' → k ≤ k' :=
  ⟨sampleTree_reachable, ⟨1, 10, by simp [sampleTree, Node.Holds], by decide⟩,
    (ceil_smallest_above sampleTree sampleTree_reachable 0).1
      ⟨1, 10, by simp [sampleTree, Node.Holds], by decide⟩⟩

theorem min_eq_nil_iff (x : Node K V) : min x = nil ↔ x = nil := by
  constructor
  · intro h
    by_contra hx
    obtain ⟨hk, hv, hl, hr, hc, e, -⟩ := min_toList x hx
    rw [e] at h
    cases h
  · intro h
    rw [h]
    rfl

theorem max_eq_nil_iff (x : Node K V) : max x = nil ↔ x = nil := by
  constructor
  · intro h
    by_contra hx
    obtain ⟨hk, hv, hl, hr, hc, e, -⟩ := max_toList x hx
    rw [e] at h
    cases h
  · intro h
    rw [h]
    rfl

/-- C13: on every tree built by the public operations, `Min()` is `ErrNotFound` exactly on
the empty tree and otherwise returns the smallest key held with its value; `Max()` is
`ErrNotFound` exactly on the empty tree and otherwise returns the largest key held with its
value. -/
theorem min_max_extremes [LinearOrder K] (t : RedBlackTree K V) (h : Reachable t) :
    (t.Min = none ↔ t.isEmpty = true)
      ∧ (t.isEmpty = false → ∃ k v, t.Min = some (k, v) ∧ t.root.Holds k v
          ∧ ∀ k' v', t.root.Holds k' v' → k ≤ k')
      ∧ (t.Max = none ↔ t.isEmpty = true)
      ∧ (t.isEmpty = false → ∃ k v, t.Max = some (k, v) ∧ t.root.Holds k v
          ∧ ∀ k' v', t.root.Holds k' v' → k' ≤ k) := by
  have I := reachable_inv t h
  have hO : (toList t.root).Pairwise (fun a b => a.1 < b.1) := I.1
  refine ⟨?_, ?_, ?_, ?_⟩
  · unfold RedBlackTree.Min isEmpty
    rw [isNil_iff, ← min_eq_nil_iff]
    cases min t.root <;> simp
  · intro hne
    have hroot : t.root ≠ nil := (isNil_false_iff _).1 hne
    obtain ⟨k, v, l, r, c, e, tm⟩ := min_toList t.root hroot
    rw [tm, List.pairwise_cons] at hO
    refine ⟨k, v, by simp [RedBlackTree.Min, e], ?_, ?_⟩
    · rw [holds_iff_mem, tm]
      exact List.mem_cons_self _ _
    · intro k' v' hh
      rw [holds_iff_mem, tm] at hh
      rcases List.mem_cons.1 hh with hh | hh
      · rw [(Prod.mk.inj hh).1]
      · exact le_of_lt (hO.1 _ hh)
  · unfold RedBlackTree.Max isEmpty
    rw [isNil_iff, ← max_eq_nil_iff]
    cases max t.root <;> simp
  · intro hne
    have hroot : t.root ≠ nil := (isNil_false_iff _).1 hne
    obtain ⟨k, v, l, r, c, e, tm⟩ := max_toList t.root hroot
    rw [tm, List.pairwise_append] at hO
    refine ⟨k, v, by simp [RedBlackTree.Max, e], ?_, ?_⟩
    · rw [holds_iff_mem, tm]
      exact List.mem_append_right _ (List.mem_singleton_self _)
    · intro k' v' hh
      rw [holds_iff_mem, tm] at hh
      rcases List.mem_append.1 hh with hh | hh
      · exact le_of_lt (hO.2.2 _ hh (k, v) (List.mem_singleton_self _))
      · rw [(Prod.mk.inj (List.mem_singleton.1 hh)).1]

theorem min_max_extremes_witness :
    Reachable sampleTree ∧ sampleTree.isEmpty = false
      ∧ (∃ k v, sampleTree.Min = some (k, v) ∧ sampleTree.root.Holds k v
          ∧ ∀ k' v', sampleTree.root.Holds k' v' → k ≤ k')
      ∧ (∃ k v, sampleTree.Max = some (k, v) ∧ sampleTree.root.Holds k v
          ∧ ∀ k' v', sampleTree.root.Holds k' v' → k' ≤ k) :=
  ⟨sampleTree_reachable, rfl,
    (min_max_extremes sampleTree sampleTree_reachable).2.1 rfl,
    (min_max_extremes sampleTree sampleTree_reachable).2.2.2 rfl⟩

end queryClaims

/-! ## The invariants, node by node -/

section invariantClaims

open RedBlackTree

theorem allKeys_iff (p : K → Prop) (x : Node K V) :
    Node.AllKeys p x ↔ ∀ q ∈ toList x, p q.1 := by
  induction x with
  | nil => simp [Node.AllKeys]
  | node k v l r c ihl ihr =>
    simp only [Node.AllKeys, ihl, ihr, toList_node, List.mem_append, List.mem_cons]
    constructor
    · rintro ⟨h1, h2, h3⟩ q (hq | hq | hq)
      · exact h2 q hq
      · rw [hq]; exact h1
      · exact h3 q hq
    · intro h
      exact ⟨h (k, v) (Or.inr (Or.inl rfl)), fun q hq => h q (Or.inl hq),
        fun q hq => h q (Or.inr (Or.inr hq))⟩

theorem bst_of_ordered [LinearOrder K] (x : Node K V) (h : Ordered x) : Bst x := by
  induction x with
  | nil => trivial
  | node k v l r c ihl ihr =>
    obtain ⟨hl, hr, hlk, hrk⟩ := (ordered_node k v l r c).1 h
    exact ⟨(allKeys_iff _ l).2 hlk, (allKeys_iff _ r).2 hrk, ihl hl, ihr hr⟩

/-- C14: in every tree built by the public operations, at every node all keys of the left
subtree are strictly below the node's key and all keys of the right subtree strictly above
it; so the keys of the tree are pairwise distinct. -/
theorem bst_order_invariant [LinearOrder K] (t : RedBlackTree K V) (h : Reachable t) :
    Bst t.root ∧ (t.root.toList.map Prod.fst).Nodup := by
  have I := reachable_inv t h
  refine ⟨bst_of_ordered t.root I.1, ?_⟩
  have hO : (toList t.root).Pairwise (fun a b => a.1 < b.1) := I.1
  unfold List.Nodup
  rw [List.pairwise_map]
  exact hO.imp (fun hab => ne_of_lt hab)

theorem bst_order_invariant_witness :
    Reachable sampleTree ∧ Bst sampleTree.root ∧ (sampleTree.root.toList.map Prod.fst).Nodup :=
  ⟨sampleTree_reachable, bst_order_invariant sampleTree sampleTree_reachable⟩

theorem blackCounts_eq_bh (x : Node K V) (h : Balanced x) : ∀ a ∈ blackCounts x, a = bh x := by
  induction x with
  | nil => simp [blackCounts]
  | node k v l r c ihl ihr =>
    rw [balanced_node] at h
    obtain ⟨bl, br, hb⟩ := h
    intro a ha
    simp only [blackCounts, List.mem_map, List.mem_append] at ha
    obtain ⟨n, hn, rfl⟩ := ha
    rcases hn with hn | hn
    · rw [ihl bl n hn, bh_node]
    · rw [ihr br n hn, bh_node, hb]

/-- C15: in every tree built by the public operations, every path from the root to a nil
link passes through the same number of black nodes. -/
theorem black_balance_invariant [LinearOrder K] (t : RedBlackTree K V) (h : Reachable t) :
    ∀ a ∈ blackCounts t.root, ∀ b ∈ blackCounts t.root, a = b := by
  have I := reachable_inv t h
  intro a ha b hb
  rw [blackCounts_eq_bh t.root I.2.2.1 a ha, blackCounts_eq_bh t.root I.2.2.1 b hb]

theorem black_balance_invariant_witness :
    Reachable sampleTree
      ∧ ∀ a ∈ blackCounts sampleTree.root, ∀ b ∈ blackCounts sampleTree.root, a = b :=
  ⟨sampleTree_reachable, black_balance_invariant sampleTree sampleTree_reachable⟩

theorem noRedRight_of_llrb (x : Node K V) (h : Llrb x) : NoRedRight x := by
  induction x with
  | nil => trivial
  | node k v l r c ihl ihr =>
    rw [llrb_node] at h
    exact ⟨h.2.2.1, ihl h.1, ihr h.2.1⟩

theorem noRedRed_of_llrb (x : Node K V) (h : Llrb x) : NoRedRedLeft x ∧ NoRedRed x := by
  induction x with
  | nil => exact ⟨trivial, trivial⟩
  | node k v l r c ihl ihr =>
    rw [llrb_node] at h
    obtain ⟨hl, hr, hrr, hc⟩ := h
    exact ⟨⟨hc, (ihl hl).1, (ihr hr).1⟩, ⟨fun e => ⟨hc e, hrr⟩, (ihl hl).2, (ihr hr).2⟩⟩

/-- C16: in every tree built by the public operations, no node has a red right child. -/
theorem left_leaning_invariant [LinearOrder K] (t : RedBlackTree K V) (h : Reachable t) :
    NoRedRight t.root :=
  noRedRight_of_llrb t.root (reachable_inv t h).2.1

theorem left_leaning_invariant_witness :
    Reachable sampleTree ∧ NoRedRight sampleTree.root :=
  ⟨sampleTree_reachable, left_leaning_invariant sampleTree sampleTree_reachable⟩

/-- C17: in every tree built by the public operations, no red node has a red left child,
and hence no red node has a red child at all. -/
theorem no_red_red_invariant [LinearOrder K] (t : RedBlackTree K V) (h : Reachable t) :
    NoRedRedLeft t.root ∧ NoRedRed t.root :=
  noRedRed_of_llrb t.root (reachable_inv t h).2.1

theorem no_red_red_invariant_witness :
    Reachable sampleTree ∧ NoRedRedLeft sampleTree.root ∧ NoRedRed sampleTree.root :=
  ⟨sampleTree_reachable, no_red_red_invariant sampleTree sampleTree_reachable⟩

/-- Totally ordered keys: on every tree built by the public operations, `Put`, `Delete` (of a present or an
absent key), `DeleteMin` and `DeleteMax` each return a tree that is empty or has a BLACK
root. -/
theorem root_black_after_ops [LinearOrder K] (t : RedBlackTree K V) (h : Reachable t)
    (key : K) (value : V) :
    (∃ t', Put t key value = .ok t'
        ∧ (t'.root = nil ∨ ∃ k v l r, t'.root = node k v l r BLACK))
      ∧ (∃ t', Delete t key = .ok t'
        ∧ (t'.root = nil ∨ ∃ k v l r, t'.root = node k v l r BLACK))
      ∧ (∃ t', DeleteMin t = .ok t'
        ∧ (t'.root = nil ∨ ∃ k v l r, t'.root = node k v l r BLACK))
      ∧ (∃ t', DeleteMax t = .ok t'
        ∧ (t'.root = nil ∨ ∃ k v l r, t'.root = node k v l r BLACK)) := by
  have I := reachable_inv t h
  obtain ⟨t1, e1, I1, -⟩ := Put_spec t I key value
  obtain ⟨t2, e2, I2, -⟩ := Delete_spec t I key
  obtain ⟨t3, e3, I3, -⟩ := DeleteMin_spec t I
  obtain ⟨t4, e4, I4, -⟩ := DeleteMax_spec t I
  exact ⟨⟨t1, e1, root_cases t1 I1⟩, ⟨t2, e2, root_cases t2 I2⟩, ⟨t3, e3, root_cases t3 I3⟩,
    ⟨t4, e4, root_cases t4 I4⟩⟩

theorem root_black_after_ops_witness :
    Reachable sampleTree
      ∧ (∃ t', Put sampleTree 6 60 = .ok t'
        ∧ (t'.root = nil ∨ ∃ k v l r, t'.root = node k v l r BLACK))
      ∧ (∃ t', Delete sampleTree 6 = .ok t'
        ∧ (t'.root = nil ∨ ∃ k v l r, t'.root = node k v l r BLACK))
      ∧ (∃ t', DeleteMin sampleTree = .ok t'
        ∧ (t'.root = nil ∨ ∃ k v l r, t'.root = node k v l r BLACK))
      ∧ (∃ t', DeleteMax sampleTree = .ok t'
        ∧ (t'.root = nil ∨ ∃ k v l r, t'.root = node k v l r BLACK)) :=
  ⟨sampleTree_reachable, root_black_after_ops sampleTree sampleTree_reachable 6 60⟩

theorem height_le_bh (x : Node K V) (hL : Llrb x) (hB : Balanced x) :
    height x ≤ 2 * bh x + (if isRed x then 1 else 0) := by
  induction x with
  | nil => simp [height]
  | node k v l r c ihl ihr =>
    rw [llrb_node] at hL
    rw [balanced_node] at hB
    obtain ⟨hl, hr, hrr, hc⟩ := hL
    obtain ⟨bl, br, hb⟩ := hB
    have h1 := ihl hl bl
    have h2 := ihr hr br
    rw [hrr] at h2
    simp only [Bool.false_eq_true, if_false, Nat.add_zero] at h2
    have hm : Nat.max (height l) (height r) ≤ 2 * bh l + (if isRed l then 1 else 0) :=
      Nat.max_le.2 ⟨h1, by omega⟩
    cases c
    · simp only [height, bh_node, isRed_node, Bool.false_eq_true, if_false]
      split at hm <;> omega
    · rw [hc rfl] at hm
      simp only [height, bh_node, isRed_node, if_true]
      simp only [Bool.false_eq_true, if_false] at hm
      omega

theorem pow_bh_le_size (x : Node K V) (hB : Balanced x) : 2 ^ bh x ≤ size x + 1 := by
  induction x with
  | nil => simp
  | node k v l r c ihl ihr =>
    rw [balanced_node] at hB
    obtain ⟨bl, br, hb⟩ := hB
    have h1 := ihl bl
    have h2 := ihr br
    rw [← hb] at h2
    simp only [bh_node, size_node]
    cases c
    · simp only [Bool.false_eq_true, if_false, pow_succ]
      omega
    · simp only [if_true, Nat.add_zero]
      omega

/-- C19: in every tree built by the public operations, with `n` nodes and `h` nodes on the
longest path from the root to a nil link, `2 ^ ceil(h / 2) ≤ n + 1`, and so
`h ≤ 2 * log2 (n + 1)`. -/
theorem depth_logarithmic [LinearOrder K] (t : RedBlackTree K V) (h : Reachable t) :
    2 ^ ((height t.root + 1) / 2) ≤ size t.root + 1
      ∧ height t.root ≤ 2 * Nat.log 2 (size t.root + 1) := by
  obtain ⟨-, hL, hB, hR⟩ := reachable_inv t h
  have h1 := height_le_bh t.root hL hB
  rw [hR] at h1
  simp only [Bool.false_eq_true, if_false, Nat.add_zero] at h1
  have h2 := pow_bh_le_size t.root hB
  have h3 : (height t.root + 1) / 2 ≤ bh t.root := by omega
  have h4 : 2 ^ ((height t.root + 1) / 2) ≤ size t.root + 1 :=
    le_trans (Nat.pow_le_pow_right (by decide) h3) h2
  refine ⟨h4, ?_⟩
  have h5 : (height t.root + 1) / 2 ≤ Nat.log 2 (size t.root + 1) :=
    Nat.le_log_of_pow_le (by decide) h4
  omega

theorem depth_logarithmic_witness :
    Reachable sampleTree
      ∧ 2 ^ ((height sampleTree.root + 1) / 2) ≤ size sampleTree.root + 1
      ∧ height sampleTree.root ≤ 2 * Nat.log 2 (size sampleTree.root + 1) :=
  ⟨sampleTree_reachable, depth_logarithmic sampleTree sampleTree_reachable⟩

end invariantClaims

/-! ## The pool does not change what the tree holds -/

section pool

open RedBlackTree

theorem poolClean_nil : PoolClean ([] : List (Node K V)) := by
  intro h hh
  cases hh

theorem poolClean_cons (x : Node K V) (pool : List (Node K V)) (k : K) (v : V)
    (hx : x = node k v nil nil BLACK) (hp : PoolClean pool) : PoolClean (poolPut x pool) := by
  intro h hh
  rcases List.mem_cons.1 hh with hh | hh
  · exact ⟨k, v, hh.trans hx⟩
  · exact hp h hh

theorem poolClean_eraseIdx (pool : List (Node K V)) (i : Nat) (hp : PoolClean pool) :
    PoolClean (pool.eraseIdx i) :=
  fun h hh => hp h ((List.eraseIdx_sublist pool i).subset hh)

/-- Call `t.pool.Get()` on a clean pool returns a node with nil links and leaves the pool
clean. -/
theorem poolGet_clean [Inhabited K] [Inhabited V] (choice : Nat) (pool : List (Node K V))
    (hp : PoolClean pool) :
    (∃ k v, (poolGet choice pool).1 = node k v nil nil BLACK)
      ∧ PoolClean (poolGet choice pool).2 := by
  unfold poolGet
  cases hc : pool[choice]? with
  | none => exact ⟨⟨default, default, rfl⟩, hp⟩
  | some h =>
    exact ⟨hp h (List.getElem?_mem hc), poolClean_eraseIdx pool choice hp⟩

theorem poolSim_error {α : Type} (e : Fault) :
    PoolSim (Except.error e : Except Fault (α × List (Node K V))) (Except.error e) :=
  ⟨rfl, fun _ _ h => by cases h⟩

theorem poolSim_ok {α : Type} (a : α) (pool : List (Node K V)) (hp : PoolClean pool) :
    PoolSim (Except.ok (a, pool)) (Except.ok a) :=
  ⟨rfl, fun _ _ h => by cases h; exact hp⟩

/-- A step that does not touch the pool, followed by simulated continuations. -/
theorem poolSim_step {α β : Type} (m : Except Fault α)
    (fp : α → Except Fault (β × List (Node K V))) (f : α → Except Fault β)
    (h : ∀ a, PoolSim (fp a) (f a)) : PoolSim (m >>= fp) (m >>= f) := by
  cases m with
  | error e => exact poolSim_error e
  | ok a => exact h a

/-- A simulated step, followed by continuations simulated on every clean pool. -/
theorem poolSim_bind {α β : Type} (mp : Except Fault (α × List (Node K V)))
    (m : Except Fault α) (fp : α × List (Node K V) → Except Fault (β × List (Node K V)))
    (f : α → Except Fault β) (h1 : PoolSim mp m)
    (h2 : ∀ a pool, PoolClean pool → PoolSim (fp (a, pool)) (f a)) :
    PoolSim (mp >>= fp) (m >>= f) := by
  cases mp with
  | error e =>
    have := h1.1
    rw [← this]
    exact poolSim_error e
  | ok p =>
    obtain ⟨a, pool⟩ := p
    have := h1.1
    rw [← this]
    exact h2 a pool (h1.2 a pool rfl)

/-- The last step of a frame: the result is returned together with the pool. -/
theorem poolSim_ret {α : Type} (m : Except Fault α) (pool : List (Node K V))
    (hp : PoolClean pool) : PoolSim (m >>= fun a => pure (a, pool)) m := by
  cases m with
  | error e => exact poolSim_error e
  | ok a => exact poolSim_ok a pool hp

/-- The released node goes through `reuse` before it reaches the pool. -/
theorem poolSim_release (x : Node K V) (pool : List (Node K V)) (hp : PoolClean pool) :
    PoolSim (x.reuse >>= fun x' => pure ((nil : Node K V), poolPut x' pool))
      (x.reuse >>= fun _ => pure (nil : Node K V)) := by
  cases x with
  | nil => exact poolSim_error _
  | node k v l r c =>
    exact poolSim_ok _ _ (poolClean_cons _ pool k v rfl hp)

/-- Both branches of a conditional step that does not touch the pool. -/
theorem poolSim_ite {α β : Type} (c : Prop) [Decidable c] (A B : Except Fault α)
    (fp : α → Except Fault (β × List (Node K V))) (f : α → Except Fault β)
    (h : ∀ a, PoolSim (fp a) (f a)) :
    PoolSim (if c then A >>= fp else B >>= fp) (if c then A >>= f else B >>= f) := by
  split
  · exact poolSim_step A fp f h
  · exact poolSim_step B fp f h

/-- Method `deleteMin` with the pool returns what it returns without. -/
theorem deleteMinPooled_sim (fuel : Nat) : ∀ (x : Node K V) (pool : List (Node K V)),
    PoolClean pool → PoolSim (deleteMinPooled fuel x pool) (deleteMin fuel x) := by
  induction fuel with
  | zero => intro x pool _; exact poolSim_error _
  | succ n ih =>
    intro x pool hp
    unfold deleteMinPooled deleteMin
    refine poolSim_step _ _ _ (fun xl => ?_)
    split
    · exact poolSim_release x pool hp
    · refine poolSim_step _ _ _ (fun b => ?_)
      dsimp only
      refine poolSim_ite _ _ _ _ _ (fun x1 => ?_)
      refine poolSim_step _ _ _ (fun xl1 => ?_)
      refine poolSim_bind _ _ _ _ (ih xl1 pool hp) (fun a pool1 hp1 => ?_)
      refine poolSim_step _ _ _ (fun x2 => ?_)
      exact poolSim_ret _ _ hp1

/-- Method `deleteMax` with the pool returns what it returns without. -/
theorem deleteMaxPooled_sim (fuel : Nat) : ∀ (x : Node K V) (pool : List (Node K V)),
    PoolClean pool → PoolSim (deleteMaxPooled fuel x pool) (deleteMax fuel x) := by
  induction fuel with
  | zero => intro x pool _; exact poolSim_error _
  | succ n ih =>
    intro x pool hp
    unfold deleteMaxPooled deleteMax
    refine poolSim_step _ _ _ (fun xl => ?_)
    dsimp only
    refine poolSim_ite _ _ _ _ _ (fun x1 => ?_)
    refine poolSim_step _ _ _ (fun xr => ?_)
    split
    · exact poolSim_release x1 pool hp
    · refine poolSim_step _ _ _ (fun b => ?_)
      dsimp only
      refine poolSim_ite _ _ _ _ _ (fun x2 => ?_)
      refine poolSim_step _ _ _ (fun xr1 => ?_)
      refine poolSim_bind _ _ _ _ (ih xr1 pool hp) (fun a pool1 hp1 => ?_)
      refine poolSim_step _ _ _ (fun x3 => ?_)
      exact poolSim_ret _ _ hp1

/-- Method `deleteKey` with the pool returns what it returns without. -/
theorem deleteKeyPooled_sim [LinearOrder K] (key : K) (fuel : Nat) :
    ∀ (x : Node K V) (pool : List (Node K V)),
    PoolClean pool → PoolSim (deleteKeyPooled fuel x key pool) (deleteKey fuel x key) := by
  induction fuel with
  | zero => intro x pool _; exact poolSim_error _
  | succ n ih =>
    intro x pool hp
    unfold deleteKeyPooled deleteKey
    refine poolSim_step _ _ _ (fun xk => ?_)
    split
    · refine poolSim_step _ _ _ (fun b => ?_)
      dsimp only
      refine poolSim_ite _ _ _ _ _ (fun x1 => ?_)
      refine poolSim_step _ _ _ (fun xl1 => ?_)
      refine poolSim_bind _ _ _ _ (ih xl1 pool hp) (fun a pool1 hp1 => ?_)
      refine poolSim_step _ _ _ (fun x2 => ?_)
      exact poolSim_ret _ _ hp1
    · refine poolSim_step _ _ _ (fun xl => ?_)
      dsimp only
      refine poolSim_ite _ _ _ _ _ (fun x1 => ?_)
      refine poolSim_step _ _ _ (fun xk1 => ?_)
      refine poolSim_step _ _ _ (fun xr => ?_)
      split
      · exact poolSim_release x1 pool hp
      · refine poolSim_step _ _ _ (fun b => ?_)
        dsimp only
        refine poolSim_ite _ _ _ _ _ (fun x2 => ?_)
        refine poolSim_step _ _ _ (fun xk2 => ?_)
        split
        · refine poolSim_step _ _ _ (fun xr1 => ?_)
          dsimp only
          refine poolSim_step _ _ _ (fun hk => ?_)
          refine poolSim_step _ _ _ (fun x3 => ?_)
          refine poolSim_step _ _ _ (fun hv => ?_)
          refine poolSim_step _ _ _ (fun x4 => ?_)
          refine poolSim_step _ _ _ (fun xr2 => ?_)
          refine poolSim_bind _ _ _ _ (deleteMinPooled_sim n xr2 pool hp)
            (fun a pool1 hp1 => ?_)
          refine poolSim_step _ _ _ (fun x5 => ?_)
          exact poolSim_ret _ _ hp1
        · refine poolSim_step _ _ _ (fun xr1 => ?_)
          refine poolSim_bind _ _ _ _ (ih xr1 pool hp) (fun a pool1 hp1 => ?_)
          refine poolSim_step _ _ _ (fun x3 => ?_)
          exact poolSim_ret _ _ hp1

/-- Method `put` with the pool returns what it returns without: the node it takes from a
clean pool has nil links, and key, value and color are overwritten. -/
theorem putPooled_sim [LinearOrder K] [Inhabited K] [Inhabited V] (choice : Nat)
    (key : K) (value : V) : ∀ (x : Node K V) (pool : List (Node K V)),
    PoolClean pool → PoolSim (putPooled choice x key value pool) (put x key value) := by
  intro x
  induction x with
  | nil =>
    intro pool hp
    obtain ⟨⟨k, v, e⟩, hc⟩ := poolGet_clean choice pool hp
    unfold putPooled put
    dsimp only
    rw [e]
    exact poolSim_ok _ _ hc
  | node k v l r c ihl ihr =>
    intro pool hp
    unfold putPooled put
    dsimp only
    split
    · refine poolSim_bind _ _ _ _ (ihl pool hp) (fun a pool1 hp1 => ?_)
      simp only [pure_eq_ok, bind_ok]
      exact poolSim_ret _ _ hp1
    · split
      · refine poolSim_bind _ _ _ _ (ihr pool hp) (fun a pool1 hp1 => ?_)
        simp only [pure_eq_ok, bind_ok]
        exact poolSim_ret _ _ hp1
      · simp only [pure_eq_ok, bind_ok]
        exact poolSim_ret _ _ hp

end pool

section poolClaims

open RedBlackTree

theorem poolSimTree_pure (t : PooledTree K V) (hp : PoolClean t.pool) :
    PoolSimTree (pure t) (pure t.tree) :=
  ⟨rfl, fun _ h => by cases h; exact hp⟩

theorem poolSimTree_error (e : Fault) :
    PoolSimTree (Except.error e : Except Fault (PooledTree K V)) (Except.error e) :=
  ⟨rfl, fun _ h => by cases h⟩

theorem poolSimTree_step {α : Type} (m : Except Fault α)
    (fp : α → Except Fault (PooledTree K V)) (f : α → Except Fault (RedBlackTree K V))
    (h : ∀ a, PoolSimTree (fp a) (f a)) : PoolSimTree (m >>= fp) (m >>= f) := by
  cases m with
  | error e => exact poolSimTree_error e
  | ok a => exact h a

theorem poolSimTree_ite {α : Type} (c : Prop) [Decidable c] (A B : Except Fault α)
    (fp : α → Except Fault (PooledTree K V)) (f : α → Except Fault (RedBlackTree K V))
    (h : ∀ a, PoolSimTree (fp a) (f a)) :
    PoolSimTree (if c then A >>= fp else B >>= fp) (if c then A >>= f else B >>= f) := by
  split
  · exact poolSimTree_step A fp f h
  · exact poolSimTree_step B fp f h

theorem poolSimTree_bind {α : Type} (mp : Except Fault (α × List (Node K V)))
    (m : Except Fault α) (fp : α × List (Node K V) → Except Fault (PooledTree K V))
    (f : α → Except Fault (RedBlackTree K V)) (h1 : PoolSim mp m)
    (h2 : ∀ a pool, PoolClean pool → PoolSimTree (fp (a, pool)) (f a)) :
    PoolSimTree (mp >>= fp) (m >>= f) := by
  cases mp with
  | error e =>
    have := h1.1
    rw [← this]
    exact poolSimTree_error e
  | ok p =>
    obtain ⟨a, pool⟩ := p
    have := h1.1
    rw [← this]
    exact h2 a pool (h1.2 a pool rfl)

theorem poolSimTree_ret (m : Except Fault (Node K V)) (pool : List (Node K V))
    (hp : PoolClean pool) :
    PoolSimTree (m >>= fun root => pure ⟨root, pool⟩) (m >>= fun root => pure ⟨root⟩) := by
  cases m with
  | error e => exact poolSimTree_error e
  | ok a => exact ⟨rfl, fun _ h => by cases h; exact hp⟩

/-- Method `Put` with the pool returns the tree `Put` without it returns. -/
theorem Put_pooled_sim [LinearOrder K] [Inhabited K] [Inhabited V] (choice : Nat)
    (t : PooledTree K V) (key : K) (value : V) (hp : PoolClean t.pool) :
    PoolSimTree (PooledTree.Put choice t key value) (RedBlackTree.Put t.tree key value) := by
  unfold PooledTree.Put RedBlackTree.Put
  refine poolSimTree_bind _ _ _ _ (putPooled_sim choice key value t.root t.pool hp)
    (fun a pool1 hp1 => ?_)
  exact poolSimTree_ret _ _ hp1

/-- Method `Delete` with the pool returns the tree `Delete` without it returns. -/
theorem Delete_pooled_sim [LinearOrder K] (t : PooledTree K V) (key : K)
    (hp : PoolClean t.pool) :
    PoolSimTree (PooledTree.Delete t key) (RedBlackTree.Delete t.tree key) := by
  unfold PooledTree.Delete RedBlackTree.Delete
  split
  · exact poolSimTree_pure t hp
  · refine poolSimTree_step _ _ _ (fun b => ?_)
    dsimp only
    refine poolSimTree_ite _ _ _ _ _ (fun root => ?_)
    refine poolSimTree_bind _ _ _ _ (deleteKeyPooled_sim key _ root t.pool hp)
      (fun a pool1 hp1 => ?_)
    dsimp only
    split
    · exact poolSimTree_ret _ _ hp1
    · exact poolSimTree_ret _ _ hp1

/-- Method `DeleteMin` with the pool returns the tree `DeleteMin` without it returns. -/
theorem DeleteMin_pooled_sim (t : PooledTree K V) (hp : PoolClean t.pool) :
    PoolSimTree (PooledTree.DeleteMin t) (RedBlackTree.DeleteMin t.tree) := by
  unfold PooledTree.DeleteMin RedBlackTree.DeleteMin
  split
  · exact poolSimTree_pure t hp
  · refine poolSimTree_step _ _ _ (fun b => ?_)
    dsimp only
    refine poolSimTree_ite _ _ _ _ _ (fun root => ?_)
    refine poolSimTree_bind _ _ _ _ (deleteMinPooled_sim _ root t.pool hp)
      (fun a pool1 hp1 => ?_)
    dsimp only
    split
    · exact poolSimTree_ret _ _ hp1
    · exact poolSimTree_ret _ _ hp1

/-- Method `DeleteMax` with the pool returns the tree `DeleteMax` without it returns. -/
theorem DeleteMax_pooled_sim (t : PooledTree K V) (hp : PoolClean t.pool) :
    PoolSimTree (PooledTree.DeleteMax t) (RedBlackTree.DeleteMax t.tree) := by
  unfold PooledTree.DeleteMax RedBlackTree.DeleteMax
  split
  · exact poolSimTree_pure t hp
  · refine poolSimTree_step _ _ _ (fun b => ?_)
    dsimp only
    refine poolSimTree_ite _ _ _ _ _ (fun root => ?_)
    refine poolSimTree_bind _ _ _ _ (deleteMaxPooled_sim _ root t.pool hp)
      (fun a pool1 hp1 => ?_)
    dsimp only
    split
    · exact poolSimTree_ret _ _ hp1
    · exact poolSimTree_ret _ _ hp1

theorem poolSimTree_ok (mp : Except Fault (PooledTree K V)) (m : Except Fault (RedBlackTree K V))
    (h : PoolSimTree mp m) (t' : PooledTree K V) (e : mp = .ok t') :
    m = .ok t'.tree ∧ PoolClean t'.pool := by
  refine ⟨?_, h.2 t' e⟩
  rw [← h.1, e]
  rfl

/-- Every state built with the pool has a clean pool and a tree the operations without
the pool build as well. -/
theorem reachablePooled_inv [LinearOrder K] [Inhabited K] [Inhabited V]
    (t : PooledTree K V) (h : ReachablePooled t) : PoolClean t.pool ∧ Reachable t.tree := by
  induction h with
  | empty => exact ⟨poolClean_nil, Reachable.empty⟩
  | put t t' choice key value _ e ih =>
    obtain ⟨e', hp'⟩ := poolSimTree_ok _ _ (Put_pooled_sim choice t key value ih.1) t' e
    exact ⟨hp', Reachable.put _ _ key value ih.2 e'⟩
  | delete t t' key _ e ih =>
    obtain ⟨e', hp'⟩ := poolSimTree_ok _ _ (Delete_pooled_sim t key ih.1) t' e
    exact ⟨hp', Reachable.delete _ _ key ih.2 e'⟩
  | deleteMin t t' _ e ih =>
    obtain ⟨e', hp'⟩ := poolSimTree_ok _ _ (DeleteMin_pooled_sim t ih.1) t' e
    exact ⟨hp', Reachable.deleteMin _ _ ih.2 e'⟩
  | deleteMax t t' _ e ih =>
    obtain ⟨e', hp'⟩ := poolSimTree_ok _ _ (DeleteMax_pooled_sim t ih.1) t' e
    exact ⟨hp', Reachable.deleteMax _ _ ih.2 e'⟩
  | drop t i _ ih =>
    exact ⟨poolClean_eraseIdx t.pool i ih.1, ih.2⟩

/-- C20: method `reuse` clears both links and the color of a node; in every state built
from the empty tree and the empty pool, whatever the pool hands out or drops, every pooled
node has nil links and color BLACK (it went through `reuse`), the node `put` installs for a
new key has nil links, color RED and the caller's key and value, and each public operation
returns the tree the operation without a pool returns. -/
theorem pool_safety [LinearOrder K] [Inhabited K] [Inhabited V] :
    (∀ (k : K) (v : V) (l r : Node K V) (c : Bool),
        (node k v l r c).reuse = .ok (node k v nil nil BLACK))
      ∧ ∀ t : PooledTree K V, ReachablePooled t →
          (∀ h ∈ t.pool, ∃ k v, h = node k v nil nil BLACK)
          ∧ (∀ (choice : Nat) (key : K) (value : V),
              ∃ pool', putPooled choice nil key value t.pool
                = .ok (node key value nil nil RED, pool'))
          ∧ Reachable t.tree
          ∧ (∀ (choice : Nat) (key : K) (value : V),
              Except.map PooledTree.tree (PooledTree.Put choice t key value)
                = RedBlackTree.Put t.tree key value)
          ∧ (∀ key : K, Except.map PooledTree.tree (PooledTree.Delete t key)
                = RedBlackTree.Delete t.tree key)
          ∧ Except.map PooledTree.tree (PooledTree.DeleteMin t)
                = RedBlackTree.DeleteMin t.tree
          ∧ Except.map PooledTree.tree (PooledTree.DeleteMax t)
                = RedBlackTree.DeleteMax t.tree := by
  refine ⟨fun k v l r c => rfl, ?_⟩
  intro t h
  obtain ⟨hp, hr⟩ := reachablePooled_inv t h
  refine ⟨hp, ?_, hr, fun choice key value => (Put_pooled_sim choice t key value hp).1,
    fun key => (Delete_pooled_sim t key hp).1, (DeleteMin_pooled_sim t hp).1,
    (DeleteMax_pooled_sim t hp).1⟩
  intro choice key value
  obtain ⟨⟨k, v, e⟩, -⟩ := poolGet_clean choice t.pool hp
  refine ⟨(poolGet choice t.pool).2, ?_⟩
  unfold putPooled
  dsimp only
  rw [e]
  rfl

theorem samplePooled_reachable : ReachablePooled samplePooled :=
  ReachablePooled.delete ⟨sampleTree.root, []⟩ _ 4
    (ReachablePooled.put
      ⟨node 2 20 (node 1 10 nil nil false)
        (node 4 40 (node 3 30 nil nil true) nil false) false, []⟩ _ 0 5 50
      (ReachablePooled.put
        ⟨node 2 20 (node 1 10 nil nil false) (node 3 30 nil nil false) false, []⟩ _ 0 4 40
        (ReachablePooled.put ⟨node 2 20 (node 1 10 nil nil true) nil false, []⟩ _ 0 3 30
          (ReachablePooled.put ⟨node 1 10 nil nil false, []⟩ _ 0 2 20
            (ReachablePooled.put PooledTree.NewRedBlackTree _ 0 1 10 ReachablePooled.empty rfl)
            rfl) rfl) rfl) rfl) rfl

theorem pool_safety_witness :
    ReachablePooled samplePooled
      ∧ (∀ h ∈ samplePooled.pool, ∃ k v, h = node k v nil nil BLACK)
      ∧ (∀ (choice : Nat) (key : Nat) (value : Nat),
          ∃ pool', putPooled choice nil key value samplePooled.pool
            = .ok (node key value nil nil RED, pool'))
      ∧ Reachable samplePooled.tree
      ∧ (∀ (choice : Nat) (key : Nat) (value : Nat),
          Except.map PooledTree.tree (PooledTree.Put choice samplePooled key value)
            = RedBlackTree.Put samplePooled.tree key value)
      ∧ (∀ key : Nat, Except.map PooledTree.tree (PooledTree.Delete samplePooled key)
            = RedBlackTree.Delete samplePooled.tree key)
      ∧ Except.map PooledTree.tree (PooledTree.DeleteMin samplePooled)
            = RedBlackTree.DeleteMin samplePooled.tree
      ∧ Except.map PooledTree.tree (PooledTree.DeleteMax samplePooled)
            = RedBlackTree.DeleteMax samplePooled.tree :=
  ⟨samplePooled_reachable, (@pool_safety Nat Nat _ _ _).2 samplePooled samplePooled_reachable⟩

end poolClaims

/-! ## Key types that are totally ordered, and key types that are not -/

section anyKeyLink

open RedBlackTree

/-- On a totally ordered key type the general `put` is the `put` of the contract. -/
theorem anyKey_put_eq [LinearOrder K] (x : Node K V) (key : K) (value : V) :
    @anyKey.put K V GoOrdered.ofLinearOrder x key value = put x key value := by
  induction x with
  | nil => rfl
  | node k v l r c ihl ihr =>
    simp only [anyKey.put, put, GoOrdered.ofLinearOrder, decide_eq_true_eq, ihl, ihr, gt_iff_lt]

/-- On a totally ordered key type the general `Get` loop is the one of the contract. -/
theorem anyKey_getFrom_eq [LinearOrder K] (x : Node K V) (key : K) :
    @anyKey.getFrom K V GoOrdered.ofLinearOrder x key = getFrom x key := by
  induction x with
  | nil => rfl
  | node k v l r c ihl ihr =>
    simp only [anyKey.getFrom, getFrom, GoOrdered.ofLinearOrder, decide_eq_true_eq, ihl, ihr,
      gt_iff_lt]

/-- On a totally ordered key type the general `deleteKey` is the one of the contract. -/
theorem anyKey_deleteKey_eq [LinearOrder K] (key : K) (fuel : Nat) : ∀ x : Node K V,
    @anyKey.deleteKey K V GoOrdered.ofLinearOrder fuel x key = deleteKey fuel x key := by
  induction fuel with
  | zero => intro x; rfl
  | succ n ih =>
    intro x
    simp only [anyKey.deleteKey, deleteKey, GoOrdered.ofLinearOrder, decide_eq_true_eq, ih,
      gt_iff_lt]

/-- On a totally ordered key type the general `floor` is the one of the contract. -/
theorem anyKey_floor_eq [LinearOrder K] (x : Node K V) (key : K) :
    @anyKey.floor K V GoOrdered.ofLinearOrder x key = floor x key := by
  induction x with
  | nil => rfl
  | node k v l r c ihl ihr =>
    simp only [anyKey.floor, floor, GoOrdered.ofLinearOrder, decide_eq_true_eq, ihl, ihr,
      gt_iff_lt]

/-- On a totally ordered key type the general `ceil` is the one of the contract. -/
theorem anyKey_ceil_eq [LinearOrder K] (x : Node K V) (key : K) :
    @anyKey.ceil K V GoOrdered.ofLinearOrder x key = ceil x key := by
  induction x with
  | nil => rfl
  | node k v l r c ihl ihr =>
    simp only [anyKey.ceil, ceil, GoOrdered.ofLinearOrder, decide_eq_true_eq, ihl, ihr,
      gt_iff_lt]

/-- On a totally ordered key type the general public methods are those of the contract. -/
theorem anyKey_methods_eq [LinearOrder K] (t : RedBlackTree K V) (key : K) (value : V) :
    @anyKey.Get K V GoOrdered.ofLinearOrder t key = Get t key
      ∧ @anyKey.Contains K V GoOrdered.ofLinearOrder t key = Contains t key
      ∧ @anyKey.Put K V GoOrdered.ofLinearOrder t key value = Put t key value
      ∧ @anyKey.Delete K V GoOrdered.ofLinearOrder t key = Delete t key
      ∧ @anyKey.Floor K V GoOrdered.ofLinearOrder t key = Floor t key
      ∧ @anyKey.Ceil K V GoOrdered.ofLinearOrder t key = Ceil t key := by
  refine ⟨?_, ?_, ?_, ?_, ?_, ?_⟩
  · simp only [anyKey.Get, Get, anyKey_getFrom_eq]
  · simp only [anyKey.Contains, Contains, anyKey.Get, Get, anyKey_getFrom_eq]
  · simp only [anyKey.Put, Put, anyKey_put_eq]
  · simp only [anyKey.Delete, Delete, anyKey.Contains, Contains, anyKey.Get, Get,
      anyKey_getFrom_eq, anyKey_deleteKey_eq]
  · simp only [anyKey.Floor, Floor, anyKey_floor_eq]
  · simp only [anyKey.Ceil, Ceil, anyKey_ceil_eq]

/-- On every key type, `Delete` of a key for which `Contains` is false returns the tree it
was given (the guard of line 112). -/
theorem anyKey_delete_guard [GoOrdered K] (t : RedBlackTree K V) (key : K)
    (h : anyKey.Contains t key = false) : anyKey.Delete t key = .ok t := by
  simp only [anyKey.Delete, h, Bool.not_false, Bool.or_true, if_true]
  rfl

end anyKeyLink

/-! ## The contract at `float64` keys

The runs below are on trees of `float64` keys built by `Put` from the empty tree, with
`NaN` as the key of the call under study. `Get` (lines 93 to 98) and `put` (lines 70 to 76)
take the failure of both `x.key > key` and `x.key < key` as equality of the keys, `floor`
and `ceil` take the failure of `==` and of one strict comparison as the other strict
comparison, and `deleteKey` tests `key == x.key` itself (lines 134 and 142). -/

section float64Keys

open RedBlackTree F64Key

/-- C2: at `float64` keys. The tree built by `Put(NaN, 5)` contains the key `NaN`
(`Contains(NaN)` is true and the root holds it), and `Delete(NaN)` dereferences a nil link
instead of removing it. On the tree built by `Put` of 1.0, 2.0 and 3.0, `Delete(1.0)`
changes what `Get(NaN)` returns, from 20 to 30, although `NaN` is another key than 1.0. -/
theorem delete_nan_float64 :
    anyKey.PutAll NewRedBlackTree [(nan, 5)] = .ok f64Nan
      ∧ anyKey.Contains f64Nan nan = true
      ∧ f64Nan.root.Holds nan 5
      ∧ anyKey.Delete f64Nan nan = .error .nilDeref
      ∧ anyKey.PutAll NewRedBlackTree [(num 1, 10), (num 2, 20), (num 3, 30)] = .ok f64Three
      ∧ anyKey.Contains f64Three (num 1) = true
      ∧ nan ≠ num 1
      ∧ anyKey.Get f64Three nan = some 20
      ∧ (anyKey.Delete f64Three (num 1)).map (fun t => anyKey.Get t nan) = .ok (some 30) := by
  refine ⟨rfl, rfl, ?_, rfl, rfl, rfl, ?_, rfl, rfl⟩
  · exact Or.inl ⟨rfl, rfl⟩
  · decide

/-- C3: at `float64` keys. On the tree built by `Put(1.0, 10); Put(2.0, 20)`, the call
`Put(NaN, 99)` overwrites the value of the root, whose key is 2.0: `Get(2.0)` returns 20
before and 99 after, although 2.0 is another key than `NaN`. -/
theorem put_nan_float64 :
    anyKey.PutAll NewRedBlackTree [(num 1, 10), (num 2, 20)] = .ok f64Two
      ∧ num 2 ≠ nan
      ∧ anyKey.Get f64Two (num 2) = some 20
      ∧ anyKey.Put f64Two nan 99
          = .ok ⟨node (num 2) 99 (node (num 1) 10 nil nil RED) nil BLACK⟩
      ∧ (anyKey.Put f64Two nan 99).map (fun t => anyKey.Get t (num 2)) = .ok (some 99) := by
  refine ⟨rfl, ?_, rfl, rfl, rfl⟩
  decide

/-- C5: at `float64` keys. On the tree built by `Put(1.0, 10)`, the call `Delete(NaN)` passes
the containment guard of line 112 and then reads `x.right.left` with `x.right` nil (line
139): the run stops with a nil dereference. -/
theorem delete_nil_deref_float64 :
    anyKey.PutAll NewRedBlackTree [(num 1, 10)] = .ok f64One
      ∧ (f64One.isEmpty || !anyKey.Contains f64One nan) = false
      ∧ rightIsTwoNode (node (num 1) 10 nil nil RED) = .error .nilDeref
      ∧ anyKey.Delete f64One nan = .error .nilDeref := by
  exact ⟨rfl, rfl, rfl, rfl⟩

/-- C6: at `float64` keys. On the tree built by `Put(1.0, 10)`, no node holds the key `NaN`
(neither as the same value nor under `==`), yet `Get(NaN)` returns 10 with no error and
`Contains(NaN)` is true. -/
theorem get_nan_float64 :
    anyKey.PutAll NewRedBlackTree [(num 1, 10)] = .ok f64One
      ∧ (∀ v, ¬ f64One.root.Holds nan v)
      ∧ (∀ k v, f64One.root.Holds k v → GoOrdered.eq k nan = false)
      ∧ anyKey.Get f64One nan = some 10
      ∧ anyKey.Contains f64One nan = true := by
  refine ⟨rfl, ?_, ?_, rfl, rfl⟩
  · intro v h
    simp [f64One, Node.Holds] at h
  · intro k v h
    simp [f64One, Node.Holds] at h
    obtain ⟨rfl, _⟩ := h
    rfl

/-- C7: at `float64` keys. On the tree built by `Put` of 1.0, 2.0 and 3.0, `Min()` returns
the key 1.0, and `DeleteMin()` changes what `Get(NaN)` returns, from 20 to 30, although
`NaN` is another key than 1.0. -/
theorem deleteMin_nan_float64 :
    anyKey.PutAll NewRedBlackTree [(num 1, 10), (num 2, 20), (num 3, 30)] = .ok f64Three
      ∧ f64Three.Min = some (num 1, 10)
      ∧ nan ≠ num 1
      ∧ anyKey.Get f64Three nan = some 20
      ∧ DeleteMin f64Three
          = .ok ⟨node (num 3) 30 (node (num 2) 20 nil nil RED) nil BLACK⟩
      ∧ (DeleteMin f64Three).map (fun t => anyKey.Get t nan) = .ok (some 30) := by
  refine ⟨rfl, rfl, ?_, rfl, rfl, rfl⟩
  decide

/-- C8: at `float64` keys. On the tree built by `Put(1.0, 10); Put(2.0, 20)`, `Max()` returns
the key 2.0, and `DeleteMax()` changes what `Get(NaN)` returns, from 20 to 10, although
`NaN` is another key than 2.0. -/
theorem deleteMax_nan_float64 :
    anyKey.PutAll NewRedBlackTree [(num 1, 10), (num 2, 20)] = .ok f64Two
      ∧ f64Two.Max = some (num 2, 20)
      ∧ nan ≠ num 2
      ∧ anyKey.Get f64Two nan = some 20
      ∧ DeleteMax f64Two = .ok f64One
      ∧ (DeleteMax f64Two).map (fun t => anyKey.Get t nan) = .ok (some 10) := by
  refine ⟨rfl, rfl, ?_, rfl, rfl, rfl⟩
  decide

/-- C9: at `float64` keys. The tree built by `Put(1.0, 10)` does not contain the key `NaN`
(no node holds it, neither as the same value nor under `==`), and `Delete(NaN)` does not
leave the tree unchanged: it does not return at all, the run stops with a nil
dereference. -/
theorem delete_absent_nan_float64 :
    anyKey.PutAll NewRedBlackTree [(num 1, 10)] = .ok f64One
      ∧ (∀ v, ¬ f64One.root.Holds nan v)
      ∧ (∀ k v, f64One.root.Holds k v → GoOrdered.eq nan k = false)
      ∧ anyKey.Delete f64One nan ≠ .ok f64One
      ∧ anyKey.Delete f64One nan = .error .nilDeref := by
  refine ⟨rfl, ?_, ?_, ?_, rfl⟩
  · intro v h
    simp [f64One, Node.Holds] at h
  · intro k v h
    simp [f64One, Node.Holds] at h
    obtain ⟨rfl, _⟩ := h
    rfl
  · intro h
    cases h

/-- C10: at `float64` keys. The keys 1.0 and `NaN` are distinct, and `Put` of both into the
empty tree gives a tree of one node: the first `DeleteMin()`, and likewise the first
`DeleteMax()`, empties it, so the tree is empty before the second of the two deletions;
and `Delete(NaN)` on it stops with a nil dereference. -/
theorem delete_all_nan_float64 :
    [num 1, nan].Nodup
      ∧ anyKey.PutAll NewRedBlackTree [(num 1, 10), (nan, 7)]
          = .ok ⟨node (num 1) 7 nil nil BLACK⟩
      ∧ DeleteMinTimes 1 ⟨node (num 1) 7 nil nil BLACK⟩ = .ok (⟨nil⟩ : RedBlackTree F64Key Nat)
      ∧ DeleteMaxTimes 1 ⟨node (num 1) 7 nil nil BLACK⟩ = .ok (⟨nil⟩ : RedBlackTree F64Key Nat)
      ∧ anyKey.Delete (⟨node (num 1) 7 nil nil BLACK⟩ : RedBlackTree F64Key Nat) nan
          = .error .nilDeref := by
  refine ⟨?_, rfl, rfl, rfl, rfl⟩
  decide

/-- C11: at `float64` keys. The tree built by `Put(1.0, 10); Put(2.0, 20)` holds no key that
is less than or equal to `NaN`, yet `Floor(NaN)` returns 20 with no error. -/
theorem floor_nan_float64 :
    anyKey.PutAll NewRedBlackTree [(num 1, 10), (num 2, 20)] = .ok f64Two
      ∧ (∀ k v, f64Two.root.Holds k v →
          GoOrdered.lt k nan = false ∧ GoOrdered.eq k nan = false)
      ∧ anyKey.Floor f64Two nan = some 20 := by
  refine ⟨rfl, ?_, rfl⟩
  intro k v h
  simp [f64Two, Node.Holds] at h
  rcases h with ⟨rfl, _⟩ | ⟨rfl, _⟩ <;> exact ⟨rfl, rfl⟩

/-- C12: at `float64` keys. The tree built by `Put(1.0, 10); Put(2.0, 20)` holds no key that
is greater than or equal to `NaN`, yet `Ceil(NaN)` returns 10 with no error. -/
theorem ceil_nan_float64 :
    anyKey.PutAll NewRedBlackTree [(num 1, 10), (num 2, 20)] = .ok f64Two
      ∧ (∀ k v, f64Two.root.Holds k v →
          GoOrdered.lt nan k = false ∧ GoOrdered.eq k nan = false)
      ∧ anyKey.Ceil f64Two nan = some 10 := by
  refine ⟨rfl, ?_, rfl⟩
  intro k v h
  simp [f64Two, Node.Holds] at h
  rcases h with ⟨rfl, _⟩ | ⟨rfl, _⟩ <;> exact ⟨rfl, rfl⟩

/-- C18: at `float64` keys. On the tree built by `Put(1.0, 10)`, the call `Delete(NaN)` colors
the root RED (line 116) and calls `deleteKey` on it, which stops with a nil dereference:
`Delete` does not return, and line 120, which would color the root BLACK again, is never
reached. -/
theorem delete_root_red_float64 :
    anyKey.PutAll NewRedBlackTree [(num 1, 10)] = .ok f64One
      ∧ (f64One.isEmpty || !anyKey.Contains f64One nan) = false
      ∧ noRedChild f64One.root = .ok true
      ∧ f64One.root.setColor RED = .ok (node (num 1) 10 nil nil RED)
      ∧ anyKey.deleteKey 1 (node (num 1) 10 nil nil RED) nan = .error .nilDeref
      ∧ ¬ ∃ t, anyKey.Delete f64One nan = .ok t := by
  refine ⟨rfl, rfl, rfl, rfl, rfl, ?_⟩
  rintro ⟨t, h⟩
  cases h

end float64Keys

end tree
